import Mathlib

/-!
Verification of the clausewitz-script-parser repository (Rust): a shallow
embedding of `src/string_utils.rs` and `src/parser.rs` in Lean 4, with the
pest grammar `hoi4.pest` (referenced by `parser.rs` but absent from the
sources) modelled from the specification.

Rust strings are UTF-8; `string_utils.rs` manipulates them at the byte
level (`as_bytes`, byte-indexed slicing), so it is embedded over `List Nat`
byte lists.  A Rust panic (e.g. slicing a `&str` off a character boundary,
or `.unwrap()` on `None`/`Err`) is modelled as `Option.none`.
-/

namespace Cz

/-- Escape table from `string_utils.rs` (`ESCAPE_SEQUENCES`): maps an
escapable byte to its two-byte replacement, `none` for all other bytes.
The five escapable bytes are backslash 0x5C, double quote 0x22,
newline 0x0A, carriage return 0x0D and tab 0x09. -/
def escSeq (b : Nat) : Option (List Nat) :=
  if b = 0x5C then some [0x5C, 0x5C]
  else if b = 0x22 then some [0x5C, 0x22]
  else if b = 0x0A then some [0x5C, 0x6E]
  else if b = 0x0D then some [0x5C, 0x72]
  else if b = 0x09 then some [0x5C, 0x74]
  else none

/-- Membership in `ESCAPE_BYTES` from `string_utils.rs`. -/
def isEscByte (b : Nat) : Bool :=
  b = 0x5C || b = 0x22 || b = 0x0A || b = 0x0D || b = 0x09

/-- Embeds `unescape_char` from `string_utils.rs`: maps the byte after a
backslash to the unescaped character, `none` for unrecognized bytes. -/
def unescape_char (b : Nat) : Option Nat :=
  if b = 0x22 then some 0x22
  else if b = 0x5C then some 0x5C
  else if b = 0x6E then some 0x0A
  else if b = 0x72 then some 0x0D
  else if b = 0x74 then some 0x09
  else none

/-- The scanning loop of `unescape_string` (`while let Some(pos) = rest.find('\\')`),
byte by byte.  Bytes before a backslash are copied (`out.push_str(&rest[..pos])`).
A trailing backslash is copied and the function returns.  After a backslash,
a recognized escape code is decoded; an unrecognized ASCII byte `b` is copied
as the two bytes `\\` `b` (`out.push('\\'); out.push(b as char)`).  When the
byte after the backslash is `>= 0x80` it is the lead byte of a multi-byte
UTF-8 character, and the following `rest = &after[1..]` slices the string off
a character boundary, which panics in Rust: modelled as `none`. -/
def unescapeGo : List Nat → Option (List Nat)
  | [] => some []
  | b :: rest =>
    if b = 0x5C then
      match rest with
      | [] => some [0x5C]
      | c :: rest2 =>
        match unescape_char c with
        | some ch => (unescapeGo rest2).map (fun out => ch :: out)
        | none =>
          if c < 0x80 then (unescapeGo rest2).map (fun out => 0x5C :: c :: out)
          else none
    else (unescapeGo rest).map (fun out => b :: out)

/-- Embeds `unescape_string` from `string_utils.rs`, including its fast path
(return the input unchanged when it contains no backslash byte). -/
def unescape_string (s : List Nat) : Option (List Nat) :=
  if s.contains 0x5C then unescapeGo s else some s

/-- The scanning loop of `escape_string`: each escapable byte is replaced by
its two-byte escape sequence, every other byte is copied unchanged.  The
source batches the unchanged spans through a `last` index and `push_str`;
the emitted bytes are identical. -/
def escapeGo : List Nat → List Nat
  | [] => []
  | b :: rest =>
    match escSeq b with
    | some rep => rep ++ escapeGo rest
    | none => b :: escapeGo rest

/-- Embeds `escape_string` from `string_utils.rs`, including its fast path
(return the input unchanged when it contains no escapable byte). -/
def escape_string (s : List Nat) : List Nat :=
  if s.any isEscByte then escapeGo s else s

/-- Rule names of the pest grammar (`hoi4.pest`, modelled from spec §4.2)
together with the wrapper rules the AST walker of `parser.rs` matches on. -/
inductive Rule where
  | file | body | item | pair | value | block
  | string | inner | identifier | number | date | boolean | comment | operator
deriving DecidableEq, Repr

/-- A pest parse-tree node (`Pair<Rule>` in `parser.rs`): a rule, the
spanned text (`as_str`), and the inner children (`into_inner`). -/
inductive Cst where
  | node (rule : Rule) (text : List Char) (children : List Cst)
deriving Repr

def Cst.rule : Cst → Rule
  | .node r _ _ => r

def Cst.text : Cst → List Char
  | .node _ t _ => t

def Cst.children : Cst → List Cst
  | .node _ _ cs => cs

/-- Embeds `Operator` from `parser.rs`. -/
inductive Operator where
  | Eq | Le | Ge | Lt | Gt
deriving DecidableEq, Repr

/-- Embeds `Date` from `parser.rs` (`y: u32, m: u8, d: u8, h: Option<u8>`);
the fields are `Nat` and the `u32`/`u8` ranges are enforced where the
source parses them (`parseNatBounded`). -/
structure Date where
  y : Nat
  m : Nat
  d : Nat
  h : Option Nat
deriving DecidableEq, Repr

/-- The value of an `f64` parsed from a decimal literal, modelled as an
exact decimal fraction `m / 10^e` in canonical form (`e = 0` or `10 ∤ m`).
Rust parses the token to the nearest `f64` and `to_string` prints the
shortest decimal that parses back to the same value; the composite
print∘parse behavior is modelled by exact decimals with canonical
printing (same round-trip laws; the sign of `-0.0` is not modelled). -/
structure Dec where
  m : Int
  e : Nat
deriving DecidableEq, Repr

/-- Embeds `Atom` from `parser.rs`. -/
inductive Atom where
  | String (s : List Char)
  | Ident (s : List Char)
  | Number (n : Dec)
  | Date (d : Date)
  | Bool (b : Bool)
deriving DecidableEq, Repr

/-- Embeds `KeyAtom` from `parser.rs`. -/
inductive KeyAtom where
  | Ident (s : List Char)
  | Number (n : Dec)
  | Date (d : Date)
deriving DecidableEq, Repr

mutual
/-- Embeds `Value` from `parser.rs`: atom, array of atoms, or block of
items. -/
inductive Value where
  | Atom (a : Atom)
  | Array (arr : List Atom)
  | Block (items : List Item)

/-- Embeds `Item` from `parser.rs`: key-value pair, standalone value, or
comment. -/
inductive Item where
  | Pair (key : KeyAtom) (op : Operator) (value : Value)
  | ValueItem (v : Value)
  | Comment (s : List Char)
end

/-- The character of a decimal digit. -/
def digitChar (d : Nat) : Char :=
  if d = 0 then '0'
  else if d = 1 then '1'
  else if d = 2 then '2'
  else if d = 3 then '3'
  else if d = 4 then '4'
  else if d = 5 then '5'
  else if d = 6 then '6'
  else if d = 7 then '7'
  else if d = 8 then '8'
  else if d = 9 then '9'
  else '0'

/-- Digit-emitting loop for decimal formatting, with step-count fuel
(`n + 1` steps always suffice). -/
def natCharsGo : Nat → Nat → List Char → List Char
  | 0, _, acc => acc
  | f + 1, n, acc =>
    if n = 0 then acc else natCharsGo f (n / 10) (digitChar (n % 10) :: acc)

/-- Decimal digits of `n`, most significant first, as characters; `0`
prints as "0" (Rust unsigned-integer formatting). -/
def natChars (n : Nat) : List Char :=
  if n = 0 then ['0'] else natCharsGo (n + 1) n []

/-- Numeric value of a digit string, most significant digit first. -/
def digitsVal (t : List Char) : Nat :=
  t.foldl (fun acc c => 10 * acc + (c.toNat - 48)) 0

/-- Embeds `all_digits` from `try_parse_date_like` in `parser.rs`
(`is_ascii_digit` on every character). -/
def all_digits (x : List Char) : Bool :=
  x.all fun c => c.isDigit

/-- Models `str::parse::<uN>` on a token: succeeds on a non-empty all-digit
string whose value is below the type bound, otherwise `Err` (whose
`unwrap` panics at the call sites in `parser.rs`). -/
def parseNatBounded (t : List Char) (bound : Nat) : Option Nat :=
  if t ≠ [] ∧ all_digits t = true ∧ digitsVal t < bound then some (digitsVal t) else none

/-- Rust `str::split('.')`: n dots give n + 1 fields, empty fields
included. -/
def splitDots : List Char → List (List Char)
  | [] => [[]]
  | c :: rest =>
    if c = '.' then [] :: splitDots rest
    else
      match splitDots rest with
      | f :: fs => (c :: f) :: fs
      | [] => [[c]]

/-- Embeds `parse_date_str` from `parser.rs`: unwraps three `split('.')`
fields parsed as `u32`, `u8`, `u8` and an optional fourth as `u8`; a
missing field or failed parse panics (`none`). -/
def parse_date_str (s : List Char) : Option Date :=
  match splitDots s with
  | yf :: mf :: df :: rest =>
    match parseNatBounded yf (2 ^ 32), parseNatBounded mf (2 ^ 8), parseNatBounded df (2 ^ 8) with
    | some yv, some mv, some dv =>
      match rest with
      | [] => some ⟨yv, mv, dv, none⟩
      | hf :: _ => (parseNatBounded hf (2 ^ 8)).map fun hv => ⟨yv, mv, dv, some hv⟩
    | _, _, _ => none
  | _ => none

/-- Embeds `try_parse_date_like` from `parser.rs`: the quoted-string date
heuristic.  Accept only 3 or 4 dot-separated fields, field 0 all ASCII
digits of length 3-4, all later fields all ASCII digits of length 1-2;
after these checks the `u32`/`u8` parses in the source cannot fail (at
most 4-digit and 2-digit values). -/
def try_parse_date_like (s : List Char) : Option Date :=
  match splitDots s with
  | f0 :: f1 :: f2 :: rest =>
    if rest.length ≤ 1 then
      if all_digits f0 = true ∧ 3 ≤ f0.length ∧ f0.length ≤ 4 then
        if (f1 :: f2 :: rest).all
            (fun f => all_digits f && decide (1 ≤ f.length) && decide (f.length ≤ 2)) then
          match rest with
          | [] => some ⟨digitsVal f0, digitsVal f1, digitsVal f2, none⟩
          | f3 :: _ => some ⟨digitsVal f0, digitsVal f1, digitsVal f2, some (digitsVal f3)⟩
        else none
      else none
    else none
  | _ => none

/-- Strips trailing fractional zeros, canonicalizing `m / 10^e`. -/
def stripZeros : Int → Nat → Dec
  | m, 0 => ⟨m, 0⟩
  | m, e + 1 => if m % 10 = 0 then stripZeros (m / 10) e else ⟨m, e + 1⟩

/-- The unsigned part of `parseDec`: integer digits with an optional
fraction, valued exactly and canonicalized. -/
def pdBody (neg : Bool) (u : List Char) : Option Dec :=
  match splitDots u with
  | [ip] =>
    if ip ≠ [] ∧ all_digits ip = true then
      some (stripZeros (if neg then -(digitsVal ip : Int) else (digitsVal ip : Int)) 0)
    else none
  | [ip, fp] =>
    if ip ≠ [] ∧ all_digits ip = true ∧ fp ≠ [] ∧ all_digits fp = true then
      some (stripZeros
        (if neg then -((digitsVal ip * 10 ^ fp.length + digitsVal fp : Nat) : Int)
         else ((digitsVal ip * 10 ^ fp.length + digitsVal fp : Nat) : Int))
        fp.length)
    else none
  | _ => none

/-- Models `str::parse::<f64>` on a grammar `number` token (optional minus
sign, digits, optional dot and fraction digits) as an exact decimal; any
other shape is `none` (the `unwrap` in `parse_atom` panics). -/
def parseDec (t : List Char) : Option Dec :=
  match t with
  | c :: r => if c = '-' then pdBody true r else pdBody false (c :: r)
  | [] => pdBody false []

/-- Left-pads a digit string with zeros to width `w`. -/
def padZeros (w : Nat) (ds : List Char) : List Char :=
  List.replicate (w - ds.length) '0' ++ ds

/-- Models Rust `f64::to_string` on the exact decimal `x`: minus sign for
negative values, then integer digits, then `e` fractional digits when
`e > 0`. -/
def printDec (x : Dec) : List Char :=
  let sign : List Char := if x.m < 0 then ['-'] else []
  if x.e = 0 then sign ++ natChars x.m.natAbs
  else
    sign ++ natChars (x.m.natAbs / 10 ^ x.e) ++
      '.' :: padZeros x.e (natChars (x.m.natAbs % 10 ^ x.e))

/-- Embeds `parse_operator` from `parser.rs`: literal match of the spanned
text, unrecognized text defaults to `Eq`. -/
def parse_operator (p : Cst) : Operator :=
  if p.text = ['='] then .Eq
  else if p.text = ['<', '='] then .Le
  else if p.text = ['>', '='] then .Ge
  else if p.text = ['<'] then .Lt
  else if p.text = ['>'] then .Gt
  else .Eq

/-- Embeds `parse_atom` from `parser.rs`.  A `string` node takes the inner
content (`into_inner().next().unwrap()`: panic when absent) and applies
the date heuristic; `number` is `parse::<f64>().unwrap()`; `date` is
`parse_date_str`; `boolean` compares the text with "yes"; any other rule
falls back to an identifier of the node text. -/
def parse_atom (p : Cst) : Option Atom :=
  match p.rule with
  | .string =>
    match p.children with
    | inn :: _ =>
      match try_parse_date_like inn.text with
      | some d => some (.Date d)
      | none => some (.String inn.text)
    | [] => none
  | .identifier => some (.Ident p.text)
  | .number => (parseDec p.text).map .Number
  | .date => (parse_date_str p.text).map .Date
  | .boolean => some (.Bool (p.text = ['y', 'e', 's']))
  | _ => some (.Ident p.text)

/-- Embeds `parse_key` from `parser.rs`. -/
def parse_key (p : Cst) : Option KeyAtom :=
  match p.rule with
  | .identifier => some (.Ident p.text)
  | .number => (parseDec p.text).map .Number
  | .date => (parse_date_str p.text).map .Date
  | _ => some (.Ident p.text)

/-- The atomicity test of the `parse_block` loop in `parser.rs`: only
`Item::ValueItem(Value::Atom(_))` children go to the `atoms` buffer. -/
def isAtomicItem : Item → Bool
  | .ValueItem (.Atom _) => true
  | _ => false

/-- The atom extracted from a plain atomic child. -/
def atomOf : Item → Option Atom
  | .ValueItem (.Atom a) => some a
  | _ => none

/-- The classification at the end of `parse_block` in `parser.rs`: the
loop pushes plain atomic children into `atoms` and everything else
(pairs, comments, nested arrays and blocks) into `items`, clearing
`only_atoms`; finally `Array(atoms)` when every child was atomic, else
`Block(items)` — in which case the collected `atoms` buffer is dropped. -/
def classify_block (parsed : List Item) : Value :=
  if parsed.all isAtomicItem then .Array (parsed.filterMap atomOf)
  else .Block (parsed.filter fun it => !isAtomicItem it)

mutual
/-- Embeds `parse_item` from `parser.rs`; panicking `unwrap`s on missing
children are `none`. -/
def parse_item : Cst → Option Item
  | .node .item _ cs =>
    match cs with
    | child :: _ => parse_item child
    | [] => some (.ValueItem (.Atom (.Ident [])))
  | .node .pair _ cs =>
    match cs with
    | k :: o :: vp :: _ =>
      match parse_key k with
      | none => none
      | some key =>
        match parse_pair_value vp with
        | none => none
        | some value => some (.Pair key (parse_operator o) value)
    | _ => none
  | .node .value _ cs =>
    match cs with
    | v :: _ =>
      match parse_value_concrete v with
      | none => none
      | some val => some (.ValueItem val)
    | [] => none
  | .node .comment t _ => some (.Comment t)
  | .node _ t _ => some (.ValueItem (.Atom (.Ident t)))

/-- The value position of a pair in `parse_item`: a `value` wrapper is
unwrapped (`into_inner().next().unwrap()`), a `block` goes to
`parse_block`, atom rules to `parse_atom`, and anything else falls back
to an identifier of the spanned text. -/
def parse_pair_value : Cst → Option Value
  | .node .value _ ws =>
    match ws with
    | w :: _ => parse_value_concrete w
    | [] => none
  | .node .block _ cs => (parse_body_lists cs).map classify_block
  | .node .string t cs => (parse_atom (.node .string t cs)).map .Atom
  | .node .date t cs => (parse_atom (.node .date t cs)).map .Atom
  | .node .number t cs => (parse_atom (.node .number t cs)).map .Atom
  | .node .boolean t cs => (parse_atom (.node .boolean t cs)).map .Atom
  | .node .identifier t cs => (parse_atom (.node .identifier t cs)).map .Atom
  | .node _ t _ => some (.Atom (.Ident t))

/-- The concrete-value match of the `Rule::value` arms of `parse_item`
(identical inside a pair and as a standalone value). -/
def parse_value_concrete : Cst → Option Value
  | .node .block _ cs => (parse_body_lists cs).map classify_block
  | .node .string t cs => (parse_atom (.node .string t cs)).map .Atom
  | .node .date t cs => (parse_atom (.node .date t cs)).map .Atom
  | .node .number t cs => (parse_atom (.node .number t cs)).map .Atom
  | .node .boolean t cs => (parse_atom (.node .boolean t cs)).map .Atom
  | .node .identifier t cs => (parse_atom (.node .identifier t cs)).map .Atom
  | .node _ t _ => some (.Atom (.Ident t))

/-- The outer loop of `parse_block` (and of `parse_file`): over the node
children, collect the parsed items of every `body` child in order. -/
def parse_body_lists : List Cst → Option (List Item)
  | [] => some []
  | c :: rest =>
    match c with
    | .node .body _ grand =>
      match parse_items_list grand, parse_body_lists rest with
      | some l1, some l2 => some (l1 ++ l2)
      | _, _ => none
    | _ => parse_body_lists rest

/-- The inner loop: parse each item node in order. -/
def parse_items_list : List Cst → Option (List Item)
  | [] => some []
  | c :: rest =>
    match parse_item c, parse_items_list rest with
    | some it, some l => some (it :: l)
    | _, _ => none
end

/-- Embeds `parse_block` from `parser.rs`: parse every item of every
`body` child, then classify as Array or Block (`classify_block`). -/
def parse_block : Cst → Option Value
  | .node _ _ cs => (parse_body_lists cs).map classify_block

/-- Embeds `parse_file` from `parser.rs`: collect the parsed items of the
`body` children of the `file` node. -/
def parse_file (file : Cst) : Option (List Item) :=
  parse_body_lists file.children

/-- Indentation: `" ".repeat(n)`. -/
def spaces (n : Nat) : List Char :=
  List.replicate n ' '

/-- Embeds `fmt_date` from `parser.rs`: quoted `"Y.M.D.H"` when an hour is
present, unquoted `Y.M.D` otherwise. -/
def fmt_date (d : Date) : List Char :=
  match d.h with
  | some hv =>
    '"' :: (natChars d.y ++ '.' :: natChars d.m ++ '.' :: natChars d.d ++ '.' :: natChars hv)
      ++ ['"']
  | none => natChars d.y ++ '.' :: natChars d.m ++ '.' :: natChars d.d

/-- Embeds `serialize_atom` from `parser.rs`.  The `String` arm wraps the
stored content in double quotes verbatim (`format!("\"{}\"", s)`) with no
re-escaping. -/
def serialize_atom : Atom → List Char
  | .String s => '"' :: s ++ ['"']
  | .Ident s => s
  | .Number n => printDec n
  | .Date d => fmt_date d
  | .Bool b => if b then ['y', 'e', 's'] else ['n', 'o']

/-- Embeds `serialize_key` from `parser.rs`. -/
def serialize_key : KeyAtom → List Char
  | .Ident s => s
  | .Number n => printDec n
  | .Date d => fmt_date d

/-- The operator text emitted by `serialize_item`. -/
def opChars : Operator → List Char
  | .Eq => ['=']
  | .Le => ['<', '=']
  | .Ge => ['>', '=']
  | .Lt => ['<']
  | .Gt => ['>']

/-- The array soft-wrap loop of `serialize_value` in `parser.rs`: `line`
is the pending buffer; a non-empty buffer is flushed to its own line at
`indent + 2` when appending the next element plus a separating space
would exceed 120 characters; after the last element the buffer is
flushed (the source's `idx == rendered.len() - 1` last-element test is
the singleton pattern here). -/
def serializeArr (indent : Nat) : List (List Char) → List Char → List Char
  | [], _ => []
  | [e], line =>
    let overflow : Bool := !line.isEmpty && decide (line.length + 1 + e.length > 120)
    let pre : List Char := if overflow then spaces (indent + 2) ++ line ++ ['\n'] else []
    let line1 := if overflow then [] else line
    let line2 := if line1.isEmpty then e else line1 ++ ' ' :: e
    pre ++ spaces (indent + 2) ++ line2 ++ ['\n']
  | e :: r2 :: rest, line =>
    let overflow : Bool := !line.isEmpty && decide (line.length + 1 + e.length > 120)
    let pre : List Char := if overflow then spaces (indent + 2) ++ line ++ ['\n'] else []
    let line1 := if overflow then [] else line
    let line2 := if line1.isEmpty then e else line1 ++ ' ' :: e
    pre ++ serializeArr indent (r2 :: rest) line2

mutual
/-- Embeds `serialize_value` from `parser.rs`. -/
def serialize_value : Value → Nat → List Char
  | .Atom a, _ => serialize_atom a
  | .Array arr, indent =>
    '{' :: '\n' :: serializeArr indent (arr.map serialize_atom) []
      ++ spaces indent ++ ['}', '\n']
  | .Block items, indent =>
    '{' :: '\n' :: serializeItems items (indent + 4) ++ spaces indent ++ ['}', '\n']

/-- Embeds `serialize_item` from `parser.rs`: a trailing newline is added
after a scalar pair value and after scalar and array standalone values
(arrays and blocks already end with their closing-brace line). -/
def serialize_item : Item → Nat → List Char
  | .Pair key op value, indent =>
    spaces indent ++ serialize_key key ++ ' ' :: opChars op ++ ' ' ::
      (serialize_value value indent ++
        match value with
        | .Atom _ => ['\n']
        | .Array _ => []
        | .Block _ => [])
  | .ValueItem v, indent =>
    spaces indent ++
      (serialize_value v indent ++
        match v with
        | .Atom _ => ['\n']
        | .Array _ => ['\n']
        | .Block _ => [])
  | .Comment s, indent => spaces indent ++ s ++ ['\n']

/-- The loop of `serialize_file` and of the Block arm of
`serialize_value`. -/
def serializeItems : List Item → Nat → List Char
  | [], _ => []
  | it :: rest, indent => serialize_item it indent ++ serializeItems rest indent
end

/-- Embeds `serialize_file` from `parser.rs`. -/
def serialize_file (items : List Item) : List Char :=
  serializeItems items 0

/-- Token stream of the grammar recognizer. -/
inductive Tok where
  | lbrace
  | rbrace
  | opTok (t : List Char)
  | strTok (content : List Char)
  | identTok (t : List Char)
  | numTok (t : List Char)
  | dateTok (t : List Char)
  | boolTok (t : List Char)
  | commentTok (t : List Char)
deriving DecidableEq, Repr

/-- Modelled from the spec: whitespace is insignificant except as a token
separator (§4.2); `hoi4.pest` is not in the sources. -/
def isWs (c : Char) : Bool :=
  c = ' ' || c = '\t' || c = '\n' || c = '\r'

/-- Modelled from the spec: the bareword character set shared by the
`identifier`, `number`, `date` and `boolean` tokens (§4.2, "bareword
token"; digits, dots and minus cover the number and date shapes). -/
def isBare (c : Char) : Bool :=
  c.isAlpha || c.isDigit || c = '_' || c = '.' || c = '-' || c = '@' || c = ':'

/-- Modelled from the spec: the grammar `date` rule, unquoted `Y.M.D` or
`Y.M.D.H`, digit-dot-digit (§4.2): 3 or 4 dot-separated non-empty
all-digit fields. -/
def dateShape (t : List Char) : Bool :=
  let parts := splitDots t
  (decide (parts.length = 3) || decide (parts.length = 4)) &&
    parts.all fun f => !f.isEmpty && all_digits f

/-- Modelled from the spec: the grammar `number` rule, signed integer or
decimal (§4.2). -/
def numShape (t : List Char) : Bool :=
  let u : List Char :=
    match t with
    | c :: r => if c = '-' then r else c :: r
    | [] => []
  match splitDots u with
  | [ip] => !ip.isEmpty && all_digits ip
  | [ip, fp] => !ip.isEmpty && all_digits ip && !fp.isEmpty && all_digits fp
  | _ => false

/-- Modelled from the spec: classification of a bareword as `boolean`
(`yes`/`no` literals), `date`, `number` or `identifier` (§4.2). -/
def classifyBare (t : List Char) : Tok :=
  if t = ['y', 'e', 's'] || t = ['n', 'o'] then .boolTok t
  else if dateShape t then .dateTok t
  else if numShape t then .numTok t
  else .identTok t

/-- Modelled from the spec: the escape-aware `string` rule (§4.2): a
backslash consumes the following character, the raw content is kept, the
closing quote ends the token, and an unterminated string is a grammar
error.  Returns the raw content and the remaining input. -/
def scanStr : List Char → Option (List Char × List Char)
  | [] => none
  | c :: r =>
    if c = '"' then some ([], r)
    else if c = '\\' then
      match r with
      | [] => none
      | x :: r2 => (scanStr r2).map fun q => ('\\' :: x :: q.1, q.2)
    else (scanStr r).map fun q => (c :: q.1, q.2)

/-- Modelled from the spec: the tokenizer for the grammar of §4.2, with
step-count fuel (every step consumes at least one character, so
`length + 1` fuel suffices). -/
def lexGo : Nat → List Char → Option (List Tok)
  | 0, _ => none
  | _ + 1, [] => some []
  | f + 1, c :: rest =>
    if isWs c then lexGo f rest
    else if c = '#' then
      (lexGo f (rest.dropWhile fun x => x ≠ '\n')).map
        fun ts => .commentTok ('#' :: rest.takeWhile fun x => x ≠ '\n') :: ts
    else if c = '"' then
      (scanStr rest).bind fun q => (lexGo f q.2).map fun ts => .strTok q.1 :: ts
    else if c = '{' then (lexGo f rest).map fun ts => .lbrace :: ts
    else if c = '}' then (lexGo f rest).map fun ts => .rbrace :: ts
    else if c = '=' then (lexGo f rest).map fun ts => .opTok ['='] :: ts
    else if c = '<' then
      if rest.head? = some '=' then (lexGo f rest.tail).map fun ts => .opTok ['<', '='] :: ts
      else (lexGo f rest).map fun ts => .opTok ['<'] :: ts
    else if c = '>' then
      if rest.head? = some '=' then (lexGo f rest.tail).map fun ts => .opTok ['>', '='] :: ts
      else (lexGo f rest).map fun ts => .opTok ['>'] :: ts
    else if isBare c then
      (lexGo f (rest.dropWhile isBare)).map
        fun ts => classifyBare (c :: rest.takeWhile isBare) :: ts
    else none

/-- Modelled from the spec: tokenization of the whole input. -/
def lex (s : List Char) : Option (List Tok) :=
  lexGo (s.length + 1) s

/-- The CST leaf for a quoted string: the content is the inner node, as
`parse_atom` expects. -/
def strNode (content : List Char) : Cst :=
  .node .string ('"' :: content ++ ['"']) [.node .inner content []]

/-- The CST leaf for an atom token. -/
def atomLeaf : Tok → Option Cst
  | .identTok t => some (.node .identifier t [])
  | .numTok t => some (.node .number t [])
  | .dateTok t => some (.node .date t [])
  | .boolTok t => some (.node .boolean t [])
  | .strTok c => some (strNode c)
  | _ => none

/-- Modelled from the spec: the grammar `key` accepts identifier, number
and date tokens (§3: Key is Identifier, Number or Date; §4.3). -/
def keyLeaf : Tok → Option Cst
  | .identTok t => some (.node .identifier t [])
  | .numTok t => some (.node .number t [])
  | .dateTok t => some (.node .date t [])
  | _ => none

/-- The grammar-only `value` wrapper node (§4.3 "unwrapping grammar-only
wrapper nodes"). -/
def valueNode (w : Cst) : Cst :=
  .node .value [] [w]

/-- A brace block: a `block` node holding one `body` of item nodes. -/
def blockNode (items : List Cst) : Cst :=
  .node .block [] [.node .body [] items]

/-- The grammar-only `item` wrapper node. -/
def itemNode (w : Cst) : Cst :=
  .node .item [] [w]

/-- A `pair` node: key leaf, operator leaf, `value`-wrapped value. -/
def pairNode (k : Cst) (o : List Char) (v : Cst) : Cst :=
  .node .pair [] [k, .node .operator o [], v]

mutual
/-- Modelled from the spec: the recursive descent for `item` sequences
(§4.2): items are parsed until a closing brace or end of input; a key
token followed by an operator token begins a `pair`; otherwise the item
is a standalone `value` or a `comment`. -/
def pItems : Nat → List Tok → Option (List Cst × List Tok)
  | 0, _ => none
  | _ + 1, [] => some ([], [])
  | f + 1, tok :: rest =>
    match tok with
    | .rbrace => some ([], tok :: rest)
    | .commentTok t =>
      match pItems f rest with
      | some q => some (itemNode (.node .comment t []) :: q.1, q.2)
      | none => none
    | _ =>
      match keyLeaf tok, rest with
      | some kl, .opTok o :: rest2 =>
        match pValue f rest2 with
        | some vr =>
          match pItems f vr.2 with
          | some q => some (itemNode (pairNode kl o vr.1) :: q.1, q.2)
          | none => none
        | none => none
      | _, _ =>
        match pValue f (tok :: rest) with
        | some vr =>
          match pItems f vr.2 with
          | some q => some (itemNode vr.1 :: q.1, q.2)
          | none => none
        | none => none

/-- Modelled from the spec: a `value` is a brace block or a single atom
token (§4.2); returns the `value`-wrapped node and the remaining
tokens. -/
def pValue : Nat → List Tok → Option (Cst × List Tok)
  | 0, _ => none
  | f + 1, toks =>
    match toks with
    | .lbrace :: rest =>
      match pItems f rest with
      | some (is, .rbrace :: r2) => some (valueNode (blockNode is), r2)
      | _ => none
    | tok :: rest =>
      match atomLeaf tok with
      | some leaf => some (valueNode leaf, rest)
      | none => none
    | [] => none
end

/-- Modelled from the spec: the `file` rule — a body of items covering
the whole input (§4.2); leftover tokens are a grammar error. -/
def pFile (toks : List Tok) : Option Cst :=
  match pItems (2 * toks.length + 2) toks with
  | some (is, []) => some (.node .file [] [.node .body [] is])
  | _ => none

/-- Embeds `parse_str` from `parser.rs`: grammar recognition (modelled
from the spec, since `hoi4.pest` is not under the sources) followed by
the source AST builder `parse_file`; `none` models `Err`. -/
def parse_str (s : List Char) : Option (List Item) :=
  match lex s with
  | some toks =>
    match pFile toks with
    | some fileCst => parse_file fileCst
    | none => none
  | none => none

/-- UTF-8 bytes of an ASCII character list (the escape codec of
`string_utils.rs` works on bytes). -/
def asciiBytes (s : List Char) : List Nat :=
  s.map fun c => c.toNat

/-- The rendering the C4 claim describes for a String atom: apply the
escape codec to the content and wrap the result in double quotes. -/
def escapedRender (s : List Char) : List Char :=
  '"' :: ((escape_string (asciiBytes s)).map fun b => Char.ofNat b) ++ ['"']

/-- The shape condition of the C7 claim, in its own words: splitting on
dots yields exactly 3 or 4 fields, field 0 is all ASCII digits of length
3 or 4, and every remaining field is all ASCII digits of length 1 or 2. -/
def heurShape (s : List Char) : Bool :=
  match splitDots s with
  | f0 :: restFields =>
    (decide (restFields.length = 2) || decide (restFields.length = 3)) &&
      (all_digits f0 && (decide (f0.length = 3) || decide (f0.length = 4))) &&
      restFields.all fun f => all_digits f && (decide (f.length = 1) || decide (f.length = 2))
  | [] => false

/-- The date the C7 claim assigns on acceptance: the fields become year,
month, day and optional hour. -/
def heurFields (s : List Char) : Date :=
  match splitDots s with
  | f0 :: f1 :: f2 :: rest =>
    ⟨digitsVal f0, digitsVal f1, digitsVal f2, rest.head?.map digitsVal⟩
  | _ => ⟨0, 0, 0, none⟩

/-- The soft-wrap line layout the C9 claim describes: a pending buffer;
a new line starts exactly when the buffer is non-empty and adding the
next element plus one separating space would exceed 120 characters; the
buffer is flushed after the last element. -/
def wrapGo : List (List Char) → List Char → List (List Char)
  | [], line => if line.isEmpty then [] else [line]
  | e :: es, line =>
    if !line.isEmpty && decide (line.length + 1 + e.length > 120) then
      line :: wrapGo es e
    else
      wrapGo es (if line.isEmpty then e else line ++ ' ' :: e)

/-- The lines of the C9 soft-wrap layout for the rendered elements. -/
def wrapLines (elems : List (List Char)) : List (List Char) :=
  wrapGo elems []

/-- The brace group of depth `n`: `n` opening braces followed by `n`
closing braces. -/
def mkNested (n : Nat) : List Char :=
  List.replicate n '{' ++ List.replicate n '}'

/-- The value the parser builds from `mkNested`: the innermost empty
group is an empty Array, every enclosing group a one-item Block. -/
def nestedVal : Nat → Value
  | 0 => .Array []
  | 1 => .Array []
  | n + 2 => .Block [.ValueItem (nestedVal (n + 1))]

/-- The token stream of `mkNested n`. -/
def tokNested (n : Nat) : List Tok :=
  List.replicate n Tok.lbrace ++ List.replicate n Tok.rbrace

/-- The CST the descent builds for the brace group of depth `n + 1`. -/
def cstNested : Nat → Cst
  | 0 => valueNode (blockNode [])
  | n + 1 => valueNode (blockNode [itemNode (cstNested n)])

/-- No-dot test used to reason about `splitDots`. -/
def noDot (l : List Char) : Bool :=
  l.all fun c => c ≠ '.'

/-- String content that re-lexes to itself: no unescaped quote, no
trailing lone backslash (every backslash consumes the next character). -/
def strOk : List Char → Bool
  | [] => true
  | c :: r =>
    if c = '"' then false
    else if c = '\\' then
      match r with
      | [] => false
      | _ :: r2 => strOk r2
    else strOk r

/-- A comment that re-lexes to itself: starts with `#` and contains no
newline. -/
def wfComment (t : List Char) : Bool :=
  match t with
  | c :: body => c = '#' && body.all fun x => x ≠ '\n'
  | [] => false

/-- An identifier that re-lexes to itself: a non-empty bareword that the
classifier keeps as an identifier. -/
def wfIdent (t : List Char) : Bool :=
  !t.isEmpty && t.all isBare && decide (classifyBare t = .identTok t)

/-- A canonical decimal (what `parseDec` always produces). -/
def wfDec (q : Dec) : Bool :=
  decide (q.e = 0) || decide (q.m % 10 ≠ 0)

/-- Date fields inside the `u32`/`u8` ranges of the source `Date` struct
(what `parse_date_str` and the heuristic always produce). -/
def wfDate (dt : Date) : Bool :=
  decide (dt.y < 2 ^ 32) && decide (dt.m < 2 ^ 8) && decide (dt.d < 2 ^ 8) &&
    (match dt.h with
     | some hv => decide (hv < 2 ^ 8)
     | none => true)

/-- The invariant a parsed atom satisfies. -/
def wfAtom : Atom → Bool
  | .String c => strOk c && (try_parse_date_like c).isNone
  | .Ident t => wfIdent t
  | .Number q => wfDec q
  | .Date dt => wfDate dt
  | .Bool _ => true

/-- The invariant a parsed key satisfies. -/
def wfKey : KeyAtom → Bool
  | .Ident t => wfIdent t
  | .Number q => wfDec q
  | .Date dt => wfDate dt

/-- The invariant every token produced by the lexer satisfies: string
contents re-lex to themselves, identifiers are barewords the classifier
keeps, comments start with the marker and hold no newline. -/
def wfTok : Tok → Bool
  | .strTok c => strOk c
  | .identTok t => wfIdent t
  | .commentTok t => wfComment t
  | _ => true

mutual
/-- The invariant a parsed value satisfies: a Block is non-empty, holds
no plain atomic item (the classifier either made the group an Array or
dropped the atoms), and its items are well-formed. -/
def wfValue : Value → Bool
  | .Atom a => wfAtom a
  | .Array arr => arr.all wfAtom
  | .Block items =>
    !items.isEmpty && (items.all fun it => !isAtomicItem it) && wfItems items

/-- The invariant a parsed item satisfies. -/
def wfItem : Item → Bool
  | .Pair k _ v => wfKey k && wfValue v
  | .ValueItem v => wfValue v
  | .Comment t => wfComment t

/-- The invariant of a parsed item list. -/
def wfItems : List Item → Bool
  | [] => true
  | it :: rest => wfItem it && wfItems rest
end

/-- A key that is not a date with an hour (such a key serializes quoted
and cannot be re-parsed as a key). -/
def keyNoHour : KeyAtom → Bool
  | .Date ⟨_, _, _, some _⟩ => false
  | _ => true

mutual
/-- No pair anywhere in the value has a date-with-hour key. -/
def valueNoHourKey : Value → Bool
  | .Atom _ => true
  | .Array _ => true
  | .Block items => itemsNoHourKey items

/-- No pair in the item (or below it) has a date-with-hour key. -/
def itemNoHourKey : Item → Bool
  | .Pair k _ v => keyNoHour k && valueNoHourKey v
  | .ValueItem v => valueNoHourKey v
  | .Comment _ => true

/-- No pair in the document has a date-with-hour key. -/
def itemsNoHourKey : List Item → Bool
  | [] => true
  | it :: rest => itemNoHourKey it && itemsNoHourKey rest
end

/-- The shape under which a quoted `"Y.M.D.H"` date re-enters the date
heuristic when re-parsed: 3-4 digit year and 1-2 digit month, day and
hour. -/
def quotShape (y m d hv : Nat) : Bool :=
  decide (100 ≤ y) && decide (y ≤ 9999) && decide (m ≤ 99) && decide (d ≤ 99) &&
    decide (hv ≤ 99)

/-- The hour-date text without quotes. -/
def hourDateChars (y m d hv : Nat) : List Char :=
  natChars y ++ '.' :: natChars m ++ '.' :: natChars d ++ '.' :: natChars hv

/-- Normalization performed by one serialize-parse round trip: a date
with an hour whose printed form escapes the heuristic window becomes the
String of its printed text; everything else is unchanged. -/
def normAtom : Atom → Atom
  | .Date ⟨y, m, d, some hv⟩ =>
    if quotShape y m d hv then .Date ⟨y, m, d, some hv⟩
    else .String (hourDateChars y m d hv)
  | a => a

mutual
/-- Round-trip normalization of a value. -/
def normValue : Value → Value
  | .Atom a => .Atom (normAtom a)
  | .Array arr => .Array (arr.map normAtom)
  | .Block items => .Block (normItems items)

/-- Round-trip normalization of an item. -/
def normItem : Item → Item
  | .Pair k op v => .Pair k op (normValue v)
  | .ValueItem v => .ValueItem (normValue v)
  | .Comment t => .Comment t

/-- Round-trip normalization of an item list. -/
def normItems : List Item → List Item
  | [] => []
  | it :: rest => normItem it :: normItems rest
end

/-- The single token a serialized atom lexes to. -/
def atomTok : Atom → Tok
  | .String c => .strTok c
  | .Ident t => .identTok t
  | .Number q => .numTok (printDec q)
  | .Bool b => .boolTok (if b then ['y', 'e', 's'] else ['n', 'o'])
  | .Date dt =>
    match dt.h with
    | none => .dateTok (fmt_date dt)
    | some hv => .strTok (hourDateChars dt.y dt.m dt.d hv)

/-- The single token a serialized key lexes to (hour-date keys are
excluded by `keyNoHour`). -/
def keyTok : KeyAtom → Tok
  | .Ident t => .identTok t
  | .Number q => .numTok (printDec q)
  | .Date dt => .dateTok (fmt_date dt)

mutual
/-- The token stream a serialized value lexes to. -/
def valueToks : Value → List Tok
  | .Atom a => [atomTok a]
  | .Array arr => .lbrace :: (arr.map atomTok ++ [.rbrace])
  | .Block items => .lbrace :: (itemsToks items ++ [.rbrace])

/-- The token stream a serialized item lexes to. -/
def itemToks : Item → List Tok
  | .Pair k op v => keyTok k :: .opTok (opChars op) :: valueToks v
  | .ValueItem v => valueToks v
  | .Comment t => [.commentTok t]

/-- The token stream a serialized item list lexes to. -/
def itemsToks : List Item → List Tok
  | [] => []
  | it :: rest => itemToks it ++ itemsToks rest
end

/-- The CST leaf the descent builds for a serialized atom. -/
def atomCst : Atom → Cst
  | .String c => strNode c
  | .Ident t => .node .identifier t []
  | .Number q => .node .number (printDec q) []
  | .Bool b => .node .boolean (if b then ['y', 'e', 's'] else ['n', 'o']) []
  | .Date dt =>
    match dt.h with
    | none => .node .date (fmt_date dt) []
    | some hv => strNode (hourDateChars dt.y dt.m dt.d hv)

/-- The CST leaf the descent builds for a serialized key. -/
def keyCst : KeyAtom → Cst
  | .Ident t => .node .identifier t []
  | .Number q => .node .number (printDec q) []
  | .Date dt => .node .date (fmt_date dt) []

mutual
/-- The CST the descent builds for a serialized value. -/
def valueCst : Value → Cst
  | .Atom a => valueNode (atomCst a)
  | .Array arr => valueNode (blockNode (arr.map fun a => itemNode (valueNode (atomCst a))))
  | .Block items => valueNode (blockNode (itemsCst items))

/-- The CST the descent builds for a serialized item. -/
def itemCst : Item → Cst
  | .Pair k op v => itemNode (pairNode (keyCst k) (opChars op) (valueCst v))
  | .ValueItem v => itemNode (valueCst v)
  | .Comment t => itemNode (.node .comment t [])

/-- The CSTs the descent builds for a serialized item list. -/
def itemsCst : List Item → List Cst
  | [] => []
  | it :: rest => itemCst it :: itemsCst rest
end

/-- The single-space join built by the pending-line buffer of the array
soft-wrap loop. -/
def joinSp : List (List Char) → List Char
  | [] => []
  | [e] => e
  | e :: r => e ++ ' ' :: joinSp r

end Cz

namespace Cz

theorem escapeGo_of_no_esc {s : List Nat} (h : s.any isEscByte = false) :
    escapeGo s = s := by
  induction s with
  | nil => rfl
  | cons b rest ih =>
    simp only [List.any_cons, Bool.or_eq_false_iff] at h
    have hb : escSeq b = none := by
      unfold isEscByte at h
      unfold escSeq
      rcases h with ⟨h1, _⟩
      simp only [Bool.or_eq_false_iff, decide_eq_false_iff_not] at h1
      obtain ⟨⟨⟨⟨a1, a2⟩, a3⟩, a4⟩, a5⟩ := h1
      simp [a1, a2, a3, a4, a5]
    rw [escapeGo, hb, ih h.2]

theorem unescapeGo_escapeGo (s : List Nat) : unescapeGo (escapeGo s) = some s := by
  induction s with
  | nil => rfl
  | cons b rest ih =>
    by_cases hb : isEscByte b
    · unfold isEscByte at hb
      simp only [Bool.or_eq_true, decide_eq_true_eq] at hb
      rcases hb with ((((h | h) | h) | h) | h) <;>
        subst h <;>
        simp [escapeGo, escSeq, unescapeGo, unescape_char, ih]
    · have hseq : escSeq b = none := by
        unfold isEscByte at hb
        simp only [Bool.or_eq_true, decide_eq_true_eq, not_or] at hb
        obtain ⟨⟨⟨⟨a1, a2⟩, a3⟩, a4⟩, a5⟩ := hb
        unfold escSeq
        simp [a1, a2, a3, a4, a5]
      have hb5C : b ≠ 0x5C := by
        intro h
        subst h
        simp [escSeq] at hseq
      rw [escapeGo, hseq]
      rw [unescapeGo.eq_def]
      simp [hb5C, ih]

theorem esc_mem_escapeGo {s : List Nat} (h : s.any isEscByte = true) :
    0x5C ∈ escapeGo s := by
  induction s with
  | nil => simp at h
  | cons b rest ih =>
    simp only [List.any_cons, Bool.or_eq_true] at h
    rw [escapeGo]
    rcases h with hb | hrest
    · unfold isEscByte at hb
      simp only [Bool.or_eq_true, decide_eq_true_eq] at hb
      rcases hb with ((((h | h) | h) | h) | h) <;> subst h <;> simp [escSeq]
    · cases hseq : escSeq b with
      | some rep => exact List.mem_append_right _ (ih hrest)
      | none => exact List.mem_cons_of_mem _ (ih hrest)

/-- C6 helper: the round trip on the scanning cores together with the
per-byte characterization of `escape_string`. -/
theorem escape_string_eq_flat (s : List Nat) :
    escape_string s = s.flatMap (fun b => (escSeq b).getD [b]) := by
  have core : ∀ t : List Nat, escapeGo t = t.flatMap (fun b => (escSeq b).getD [b]) := by
    intro t
    induction t with
    | nil => rfl
    | cons b rest ih =>
      rw [escapeGo]
      cases hseq : escSeq b with
      | some rep => simp [List.flatMap_cons, hseq, ih]
      | none => simp [List.flatMap_cons, hseq, ih]
  unfold escape_string
  by_cases h : s.any isEscByte
  · rw [if_pos h, core]
  · rw [if_neg h, ← core, escapeGo_of_no_esc (by simpa using h)]

/-- C6: for every byte string `s`, `unescape_string (escape_string s)`
returns `s` (never panicking), and `escape_string` maps each of the five
escapable bytes to its two-byte sequence while leaving every other byte
unchanged (the flat-map characterization). -/
theorem C6_escape_roundtrip (s : List Nat) :
    unescape_string (escape_string s) = some s ∧
    escape_string s = s.flatMap (fun b => (escSeq b).getD [b]) := by
  refine ⟨?_, escape_string_eq_flat s⟩
  unfold escape_string unescape_string
  by_cases h : s.any isEscByte
  · rw [if_pos h]
    have hc : (escapeGo s).contains 0x5C = true := by
      simpa [List.contains, List.elem_iff] using esc_mem_escapeGo h
    rw [if_pos hc]
    exact unescapeGo_escapeGo s
  · rw [if_neg h]
    have hnc : s.contains 0x5C = false := by
      rw [Bool.eq_false_iff]
      intro hcc
      have hmem : (0x5C : Nat) ∈ s := by
        simpa [List.contains, List.elem_iff] using hcc
      have : s.any isEscByte = true := List.any_eq_true.mpr ⟨0x5C, hmem, by simp [isEscByte]⟩
      simp [this] at h
    rw [hnc]
    simp

/-- C6 witness: the round trip evaluated at the concrete byte string
"a\\b" (0x61 0x5C 0x62), discharging the (trivial) universal instance. -/
theorem C6_escape_roundtrip_witness :
    unescape_string (escape_string [0x61, 0x5C, 0x62]) = some [0x61, 0x5C, 0x62] :=
  (C6_escape_roundtrip [0x61, 0x5C, 0x62]).1

/-- C3: the claim states `unescape_string` never fails, in particular when
the byte after a backslash is part of a multi-byte UTF-8 character.  The
code panics there: on input backslash followed by the two-byte character
U+00E9 (bytes 0x5C 0xC3 0xA9), `rest = &after[1..]` slices the string off a
character boundary.  In the model the panic is `none`.  By contrast an
unrecognized ASCII escape (backslash `z`) is passed through literally, and
a trailing backslash is kept, as the claim says. -/
theorem C3_unescape_panics_on_multibyte :
    unescape_string [0x5C, 0xC3, 0xA9] = none ∧
    unescape_string [0x5C, 0x7A] = some [0x5C, 0x7A] ∧
    unescape_string [0x61, 0x5C] = some [0x61, 0x5C] := by
  refine ⟨?_, ?_, ?_⟩ <;> rfl

/-- C1: the claim says a mixed group is a Block retaining all children,
in particular that `{a b k = v}` keeps the plain values `a` and `b`.  The
code instead pushes plain atomic children into a separate `atoms` buffer
which is dropped when the group is classified Block: `{a b k = v}` parses
to a Block containing only the pair, while a purely atomic `{a b c}` does
keep all children as an Array. -/
theorem C1_block_drops_plain_atoms :
    parse_str "\x7b a b k = v \x7d".toList =
      some [.ValueItem (.Block [.Pair (.Ident ['k']) .Eq (.Atom (.Ident ['v']))])] ∧
    parse_str "\x7b a b c \x7d".toList =
      some [.ValueItem (.Array [.Ident ['a'], .Ident ['b'], .Ident ['c']])] :=
  ⟨rfl, rfl⟩

/-- C4 counterexample: the claim says serialization of a String atom
applies the escape codec to the content before quoting.  The parsed
document for input `"a\nb"` holds the raw content `a\nb` (four
characters), and `serialize_atom` emits it verbatim in quotes, which
differs from the codec-escaped rendering (which would double the
backslash). -/
theorem C4_counterexample :
    parse_str "\"a\\nb\"".toList =
      some [.ValueItem (.Atom (.String ['a', '\\', 'n', 'b']))] ∧
    serialize_atom (.String ['a', '\\', 'n', 'b']) ≠ escapedRender ['a', '\\', 'n', 'b'] := by
  exact ⟨rfl, by decide⟩

/-- C4 amended: serialization of a String atom wraps the stored content
in double quotes verbatim, with no re-escaping (matching the parser,
which stores quoted content raw without unescaping, so content
round-trips unchanged). -/
theorem C4_string_serialized_verbatim (s : List Char) :
    serialize_atom (.String s) = '"' :: s ++ ['"'] :=
  rfl

/-- C8: a Date serializes unquoted as `Y.M.D` without an hour and quoted
as `"Y.M.D.H"` with one; `"1936.1.1"` parses to Date(1936,1,1,none) and
re-serializes as unquoted `1936.1.1`, while `"1936.1.1.6"` parses to a
Date with hour 6 and re-serializes as quoted `"1936.1.1.6"`. -/
theorem C8_date_serialization :
    (∀ y m dd hv, fmt_date ⟨y, m, dd, some hv⟩ =
      '"' :: (natChars y ++ '.' :: natChars m ++ '.' :: natChars dd ++ '.' :: natChars hv)
        ++ ['"']) ∧
    (∀ y m dd, fmt_date ⟨y, m, dd, none⟩ =
      natChars y ++ '.' :: natChars m ++ '.' :: natChars dd) ∧
    parse_str "\"1936.1.1\"".toList = some [.ValueItem (.Atom (.Date ⟨1936, 1, 1, none⟩))] ∧
    serialize_file [.ValueItem (.Atom (.Date ⟨1936, 1, 1, none⟩))] = "1936.1.1\n".toList ∧
    parse_str "\"1936.1.1.6\"".toList = some [.ValueItem (.Atom (.Date ⟨1936, 1, 1, some 6⟩))] ∧
    serialize_file [.ValueItem (.Atom (.Date ⟨1936, 1, 1, some 6⟩))] =
      "\"1936.1.1.6\"\n".toList :=
  ⟨fun _ _ _ _ => rfl, fun _ _ _ => rfl, rfl, rfl, rfl, rfl⟩

/-- C10: a brace group with any non-atomic parsed child (comment, pair,
nested array or block) classifies as a Block, and a group classified as
an Array consists exactly of its (all-atomic) children's atoms — so an
Array in a parse result never contains a comment or a nested group. -/
theorem C10_array_children_all_atomic (p : Cst) (parsed : List Item)
    (h : parse_body_lists p.children = some parsed) :
    ((∃ it ∈ parsed, isAtomicItem it = false) →
      parse_block p = some (.Block (parsed.filter fun it => !isAtomicItem it))) ∧
    (∀ arr, parse_block p = some (.Array arr) →
      parsed.all isAtomicItem = true ∧ arr = parsed.filterMap atomOf) := by
  obtain ⟨r, t, cs⟩ := p
  have hch : Cst.children (.node r t cs) = cs := rfl
  rw [hch] at h
  have hpb : parse_block (.node r t cs) = some (classify_block parsed) := by
    rw [parse_block, h]
    rfl
  constructor
  · rintro ⟨it, hmem, hfalse⟩
    rw [hpb]
    unfold classify_block
    rw [if_neg]
    intro hall
    rw [List.all_eq_true] at hall
    have := hall it hmem
    rw [hfalse] at this
    exact Bool.false_ne_true this
  · intro arr harr
    rw [hpb] at harr
    unfold classify_block at harr
    by_cases hall : parsed.all isAtomicItem = true
    · rw [if_pos hall] at harr
      injection harr with hv
      cases hv
      exact ⟨hall, rfl⟩
    · rw [if_neg hall] at harr
      injection harr with hv
      exact absurd hv (by intro hv2; cases hv2)

theorem C7aux (s : List Char) :
    ((try_parse_date_like s).isSome = true ↔ heurShape s = true) ∧
    (∀ d, try_parse_date_like s = some d → d = heurFields s) := by
  rcases hsp : splitDots s with _ | ⟨f0, rest0⟩
  · simp [try_parse_date_like, heurShape, hsp]
  rcases rest0 with _ | ⟨f1, rest1⟩
  · simp [try_parse_date_like, heurShape, hsp]
  rcases rest1 with _ | ⟨f2, rest2⟩
  · simp [try_parse_date_like, heurShape, hsp]
  by_cases hlen : rest2.length ≤ 1
  · by_cases hf0 : all_digits f0 = true ∧ 3 ≤ f0.length ∧ f0.length ≤ 4
    · by_cases hall : ((f1 :: f2 :: rest2).all
          fun f => all_digits f && decide (1 ≤ f.length) && decide (f.length ≤ 2)) = true
      · have hA : (decide ((f1 :: f2 :: rest2).length = 2)
            || decide ((f1 :: f2 :: rest2).length = 3)) = true := by
          simp only [List.length_cons, Bool.or_eq_true, decide_eq_true_eq]
          omega
        have hB : (all_digits f0 && (decide (f0.length = 3) || decide (f0.length = 4)))
            = true := by
          simp only [Bool.and_eq_true, Bool.or_eq_true, decide_eq_true_eq]
          exact ⟨hf0.1, by omega⟩
        have hC : ((f1 :: f2 :: rest2).all
            fun f => all_digits f && (decide (f.length = 1) || decide (f.length = 2)))
            = true := by
          rw [List.all_eq_true] at hall ⊢
          intro f hf
          have hh := hall f hf
          simp only [Bool.and_eq_true, Bool.or_eq_true, decide_eq_true_eq] at hh ⊢
          exact ⟨hh.1.1, by omega⟩
        have hshape : heurShape s = true := by
          simp [heurShape, hsp, hA, hB, hC]
          rcases rest2 with _ | ⟨x, xs⟩
          · exact Or.inl rfl
          · right
            simp only [List.length_cons] at hlen ⊢
            omega
        rcases rest2 with _ | ⟨f3, rest3⟩
        · have htry : try_parse_date_like s =
              some ⟨digitsVal f0, digitsVal f1, digitsVal f2, none⟩ := by
            simp only [try_parse_date_like, hsp]
            rw [if_pos hlen, if_pos hf0, if_pos hall]
          refine ⟨by simp [htry, hshape], ?_⟩
          intro d hd
          rw [htry] at hd
          injection hd with hd
          simp [heurFields, hsp, ← hd]
        · have htry : try_parse_date_like s =
              some ⟨digitsVal f0, digitsVal f1, digitsVal f2, some (digitsVal f3)⟩ := by
            simp only [try_parse_date_like, hsp]
            rw [if_pos hlen, if_pos hf0, if_pos hall]
          refine ⟨by simp [htry, hshape], ?_⟩
          intro d hd
          rw [htry] at hd
          injection hd with hd
          simp [heurFields, hsp, ← hd]
      · have htry : try_parse_date_like s = none := by
          simp only [try_parse_date_like, hsp]
          rw [if_pos hlen, if_pos hf0, if_neg hall]
        have hshape : heurShape s = false := by
          simp only [heurShape, hsp]
          have hC : ((f1 :: f2 :: rest2).all
              fun f => all_digits f && (decide (f.length = 1) || decide (f.length = 2)))
              = false := by
            rw [Bool.eq_false_iff]
            intro hcc
            apply hall
            rw [List.all_eq_true] at hcc ⊢
            intro f hf
            have hh := hcc f hf
            simp only [Bool.and_eq_true, Bool.or_eq_true, decide_eq_true_eq] at hh ⊢
            exact ⟨⟨hh.1, by omega⟩, by omega⟩
          rw [hC]
          simp
        exact ⟨by simp [htry, hshape], by intro d hd; rw [htry] at hd; cases hd⟩
    · have htry : try_parse_date_like s = none := by
        simp only [try_parse_date_like, hsp]
        rw [if_pos hlen, if_neg hf0]
      have hshape : heurShape s = false := by
        simp only [heurShape, hsp]
        have hB : (all_digits f0 && (decide (f0.length = 3) || decide (f0.length = 4)))
            = false := by
          rw [Bool.eq_false_iff]
          intro hcc
          apply hf0
          simp only [Bool.and_eq_true, Bool.or_eq_true, decide_eq_true_eq] at hcc
          exact ⟨hcc.1, by omega⟩
        rw [hB]
        simp
      exact ⟨by simp [htry, hshape], by intro d hd; rw [htry] at hd; cases hd⟩
  · have htry : try_parse_date_like s = none := by
      simp only [try_parse_date_like, hsp]
      rw [if_neg hlen]
    have hshape : heurShape s = false := by
      simp only [heurShape, hsp]
      have hA : (decide ((f1 :: f2 :: rest2).length = 2)
          || decide ((f1 :: f2 :: rest2).length = 3)) = false := by
        simp only [List.length_cons, Bool.or_eq_false_iff, decide_eq_false_iff_not]
        omega
      rw [hA]
      simp
    exact ⟨by simp [htry, hshape], by intro d hd; rw [htry] at hd; cases hd⟩

/-- C7: the quoted-string date heuristic accepts exactly the strings whose
dot-split yields 3 or 4 fields with an all-digit field 0 of length 3-4
and all-digit remaining fields of length 1-2; on acceptance the fields
become year, month, day and optional hour, and `parse_atom` produces the
Date; otherwise the value stays a String. -/
theorem C7_date_heuristic (s : List Char) :
    ((try_parse_date_like s).isSome = true ↔ heurShape s = true) ∧
    (∀ d, try_parse_date_like s = some d → d = heurFields s) ∧
    (try_parse_date_like s = none → parse_atom (strNode s) = some (.String s)) ∧
    (∀ d, try_parse_date_like s = some d → parse_atom (strNode s) = some (.Date d)) := by
  have hatom : parse_atom (strNode s) =
      match try_parse_date_like s with
      | some d => some (.Date d)
      | none => some (.String s) := rfl
  obtain ⟨h1, h2⟩ := C7aux s
  refine ⟨h1, h2, ?_, ?_⟩
  · intro h
    rw [hatom, h]
  · intro d h
    rw [hatom, h]

/-- C7 witness: the heuristic accepting "1936.1.1" as a date atom and
rejecting "19.1.1" (two-digit year), instantiating the universal claim at
concrete inputs. -/
theorem C7_date_heuristic_witness :
    parse_atom (strNode "1936.1.1".toList) = some (.Date ⟨1936, 1, 1, none⟩) ∧
    parse_atom (strNode "19.1.1".toList) = some (.String "19.1.1".toList) :=
  ⟨(C7_date_heuristic "1936.1.1".toList).2.2.2 ⟨1936, 1, 1, none⟩ (by decide),
   (C7_date_heuristic "19.1.1".toList).2.2.1 (by decide)⟩

theorem serializeArr_eq_wrap (ind : Nat) :
    ∀ (rs : List (List Char)) (line : List Char),
      (∀ e ∈ rs, e ≠ []) → (rs = [] → line = []) →
      serializeArr ind rs line =
        (wrapGo rs line).flatMap fun l => spaces (ind + 2) ++ l ++ ['\n'] := by
  intro rs
  induction rs with
  | nil =>
    intro line _ h0
    rw [h0 rfl]
    rfl
  | cons e rest ih =>
    intro line hne _
    have he : e ≠ [] := hne e (by simp)
    have hwe : wrapGo [] e = [e] := by
      rw [wrapGo, if_neg]
      simp [List.isEmpty_iff, he]
    cases rest with
    | nil =>
      rw [serializeArr, wrapGo]
      by_cases hov : (!line.isEmpty && decide (line.length + 1 + e.length > 120)) = true
      · simp [hov, hwe]
      · by_cases hl : line = []
        · simp [hov, hl, hwe]
        · have hwl : wrapGo [] (line ++ ' ' :: e) = [line ++ ' ' :: e] := by
            rw [wrapGo, if_neg]
            simp [List.isEmpty_iff]
          simp [hov, hl, hwl, List.isEmpty_iff]
    | cons r2 rest2 =>
      rw [serializeArr, wrapGo]
      by_cases hov : (!line.isEmpty && decide (line.length + 1 + e.length > 120)) = true
      · have ihr := ih e (fun x hx => hne x (by simp [hx])) (by simp)
        simp [hov, ihr]
      · by_cases hl : line = []
        · have ihr := ih e (fun x hx => hne x (by simp [hx])) (by simp)
          simp [hov, hl, ihr]
        · have ihr := ih (line ++ ' ' :: e) (fun x hx => hne x (by simp [hx])) (by simp)
          simp [hov, hl, ihr]

theorem long_line_mem :
    ∀ (rs : List (List Char)) (line : List Char), 120 < line.length → line ∈ wrapGo rs line := by
  intro rs
  induction rs with
  | nil =>
    intro line hl
    rw [wrapGo, if_neg]
    · exact List.mem_singleton.mpr rfl
    · simp only [List.isEmpty_iff]
      intro hc
      rw [hc] at hl
      simp at hl
  | cons e rest ih =>
    intro line hl
    rw [wrapGo, if_pos]
    · exact List.mem_cons_self _ _
    · have hne : line.isEmpty = false := by
        rw [List.isEmpty_eq_false_iff_exists_mem]
        cases line with
        | nil => simp at hl
        | cons c cs => exact ⟨c, by simp⟩
      simp [hne]
      omega

theorem long_elem_own_line :
    ∀ (rs : List (List Char)) (line e : List Char),
      e ∈ rs → 120 < e.length → e ∈ wrapGo rs line := by
  intro rs
  induction rs with
  | nil =>
    intro line e hmem
    simp at hmem
  | cons a rest ih =>
    intro line e hmem hlen
    rw [List.mem_cons] at hmem
    rw [wrapGo]
    rcases hmem with heq | hmem
    · subst heq
      by_cases hov : (!line.isEmpty && decide (line.length + 1 + e.length > 120)) = true
      · rw [if_pos hov]
        exact List.mem_cons_of_mem _ (long_line_mem rest e hlen)
      · rw [if_neg hov]
        have hempty : line.isEmpty = true := by
          rcases Bool.and_eq_false_iff.mp (Bool.eq_false_iff.mpr hov) with h1 | h2
          · simpa using h1
          · exfalso
            rw [decide_eq_false_iff_not] at h2
            omega
        rw [if_pos hempty]
        exact long_line_mem rest e hlen
    · by_cases hov : (!line.isEmpty && decide (line.length + 1 + a.length > 120)) = true
      · rw [if_pos hov]
        exact List.mem_cons_of_mem _ (ih a e hmem hlen)
      · rw [if_neg hov]
        exact ih _ e hmem hlen

/-- C9: the Array serializer lays its rendered elements out exactly as
the greedy soft-wrap `wrapLines` does — a new line starts exactly when
the pending line is non-empty and appending the next element plus one
separating space would exceed 120 characters, and the pending line is
flushed after the last element before the closing brace; moreover an
element longer than 120 characters always appears as a complete line of
its own (it is never split).  Rendered elements are non-empty for every
atom the parser can produce. -/
theorem C9_array_soft_wrap :
    (∀ (arr : List Atom) (ind : Nat), (∀ e ∈ arr.map serialize_atom, e ≠ []) →
      serialize_value (.Array arr) ind =
        '{' :: '\n' ::
          ((wrapLines (arr.map serialize_atom)).flatMap fun l => spaces (ind + 2) ++ l ++ ['\n'])
          ++ spaces ind ++ ['}', '\n']) ∧
    (∀ (rs : List (List Char)) (e : List Char), e ∈ rs → 120 < e.length → e ∈ wrapLines rs) := by
  constructor
  · intro arr ind hne
    have h := serializeArr_eq_wrap ind (arr.map serialize_atom) [] hne (fun _ => rfl)
    rw [serialize_value, h]
    rfl
  · intro rs e hmem hlen
    exact long_elem_own_line rs [] e hmem hlen

/-- C9 witness: the layout equation at a one-element array and the
own-line guarantee at a 121-character element. -/
theorem C9_array_soft_wrap_witness :
    serialize_value (.Array [.Ident ['a']]) 0 =
      '{' :: '\n' ::
        ((wrapLines [['a']]).flatMap fun l => spaces 2 ++ l ++ ['\n'])
        ++ spaces 0 ++ ['}', '\n'] ∧
    List.replicate 121 'a' ∈ wrapLines [List.replicate 121 'a'] :=
  ⟨C9_array_soft_wrap.1 [.Ident ['a']] 0 (by decide),
   C9_array_soft_wrap.2 [List.replicate 121 'a'] (List.replicate 121 'a') (by simp) (by simp)⟩

theorem lexGo_lbrace (f : Nat) (rest : List Char) :
    lexGo (f + 1) ('{' :: rest) = (lexGo f rest).map fun ts => Tok.lbrace :: ts := rfl

theorem lexGo_rbrace (f : Nat) (rest : List Char) :
    lexGo (f + 1) ('}' :: rest) = (lexGo f rest).map fun ts => Tok.rbrace :: ts := rfl

theorem lexGo_rbraces :
    ∀ (m f : Nat), m < f →
      lexGo f (List.replicate m '}') = some (List.replicate m Tok.rbrace) := by
  intro m
  induction m with
  | zero =>
    intro f hf
    obtain ⟨g, rfl⟩ : ∃ g, f = g + 1 := ⟨f - 1, by omega⟩
    rfl
  | succ m ih =>
    intro f hf
    obtain ⟨g, rfl⟩ : ∃ g, f = g + 1 := ⟨f - 1, by omega⟩
    rw [List.replicate_succ, lexGo_rbrace, ih g (by omega)]
    rw [List.replicate_succ]
    rfl

theorem lexGo_braces :
    ∀ (n m f : Nat), n + m < f →
      lexGo f (List.replicate n '{' ++ List.replicate m '}') =
        some (List.replicate n Tok.lbrace ++ List.replicate m Tok.rbrace) := by
  intro n
  induction n with
  | zero =>
    intro m f hf
    simpa using lexGo_rbraces m f (by omega)
  | succ n ih =>
    intro m f hf
    obtain ⟨g, rfl⟩ : ∃ g, f = g + 1 := ⟨f - 1, by omega⟩
    rw [List.replicate_succ, List.cons_append, lexGo_lbrace, ih m g (by omega)]
    rw [show List.replicate (n + 1) Tok.lbrace = Tok.lbrace :: List.replicate n Tok.lbrace from
      rfl, List.cons_append]
    rfl

theorem lex_mkNested (n : Nat) : lex (mkNested n) = some (tokNested n) := by
  unfold lex mkNested tokNested
  exact lexGo_braces n n _ (by simp)

theorem tokNested_succ (k : Nat) (rest : List Tok) :
    tokNested (k + 1) ++ rest = Tok.lbrace :: (tokNested k ++ (Tok.rbrace :: rest)) := by
  unfold tokNested
  rw [List.replicate_succ,
    show List.replicate (k + 1) Tok.rbrace = List.replicate k Tok.rbrace ++ [Tok.rbrace] from
      List.replicate_succ' k Tok.rbrace]
  simp

theorem pValue_nested :
    ∀ (k f : Nat) (rest : List Tok), 2 * k + 2 ≤ f →
      pValue f (tokNested (k + 1) ++ rest) = some (cstNested k, rest) := by
  intro k
  induction k with
  | zero =>
    intro f rest hf
    obtain ⟨g, rfl⟩ : ∃ g, f = g + 2 := ⟨f - 2, by omega⟩
    rw [tokNested_succ]
    show pValue (g + 1 + 1) (Tok.lbrace :: (Tok.rbrace :: rest)) = _
    rfl
  | succ k ih =>
    intro f rest hf
    obtain ⟨g, rfl⟩ : ∃ g, f = g + 3 := ⟨f - 3, by omega⟩
    rw [tokNested_succ]
    have hstep : pValue (g + 2 + 1) (Tok.lbrace :: (tokNested (k + 1) ++ (Tok.rbrace :: rest))) =
        (match pItems (g + 2) (tokNested (k + 1) ++ (Tok.rbrace :: rest)) with
         | some (is, .rbrace :: r2) => some (valueNode (blockNode is), r2)
         | _ => none) := rfl
    rw [hstep]
    have hitems : pItems (g + 2) (tokNested (k + 1) ++ (Tok.rbrace :: rest)) =
        some ([itemNode (cstNested k)], Tok.rbrace :: rest) := by
      rw [tokNested_succ]
      have hstep2 : pItems (g + 1 + 1) (Tok.lbrace :: (tokNested k ++ (Tok.rbrace :: (Tok.rbrace :: rest)))) =
          (match pValue (g + 1) (Tok.lbrace :: (tokNested k ++ (Tok.rbrace :: (Tok.rbrace :: rest)))) with
           | some vr =>
             (match pItems (g + 1) vr.2 with
              | some q => some (itemNode vr.1 :: q.1, q.2)
              | none => none)
           | none => none) := rfl
      rw [hstep2]
      have hval : pValue (g + 1) (Tok.lbrace :: (tokNested k ++ (Tok.rbrace :: (Tok.rbrace :: rest)))) =
          some (cstNested k, Tok.rbrace :: rest) := by
        rw [← tokNested_succ]
        exact ih (g + 1) (Tok.rbrace :: rest) (by omega)
      rw [hval]
      rfl
    rw [hitems]
    rfl

theorem pFile_nested (k : Nat) :
    pFile (tokNested (k + 1)) =
      some (.node .file [] [.node .body [] [itemNode (cstNested k)]]) := by
  unfold pFile
  have hlen : (tokNested (k + 1)).length = 2 * (k + 1) := by
    simp [tokNested]
    omega
  rw [hlen]
  obtain ⟨g, hg⟩ : ∃ g, 2 * (2 * (k + 1)) + 2 = g + 2 := ⟨2 * (2 * (k + 1)), rfl⟩
  rw [hg]
  have hin : tokNested (k + 1) = tokNested (k + 1) ++ [] := by simp
  conv_lhs => rw [hin, tokNested_succ]
  have hstep : pItems (g + 1 + 1)
      (Tok.lbrace :: (tokNested k ++ (Tok.rbrace :: []))) =
      (match pValue (g + 1) (Tok.lbrace :: (tokNested k ++ (Tok.rbrace :: []))) with
       | some vr =>
         (match pItems (g + 1) vr.2 with
          | some q => some (itemNode vr.1 :: q.1, q.2)
          | none => none)
       | none => none) := rfl
  rw [hstep]
  have hval : pValue (g + 1) (Tok.lbrace :: (tokNested k ++ (Tok.rbrace :: []))) =
      some (cstNested k, []) := by
    rw [← tokNested_succ]
    have h := pValue_nested k (g + 1) [] (by omega)
    simpa using h
  rw [hval]
  rfl

theorem nestedVal_not_atom (n : Nat) : isAtomicItem (.ValueItem (nestedVal n)) = false := by
  match n with
  | 0 => rfl
  | 1 => rfl
  | n + 2 => rfl

theorem walker_nested :
    ∀ k, parse_item (itemNode (cstNested k)) = some (.ValueItem (nestedVal (k + 1))) := by
  intro k
  induction k with
  | zero => rfl
  | succ k ih =>
    have h1 : parse_items_list [itemNode (cstNested k)] =
        some [.ValueItem (nestedVal (k + 1))] := by
      have hstep : parse_items_list [itemNode (cstNested k)] =
          (match parse_item (itemNode (cstNested k)), parse_items_list [] with
           | some it, some l => some (it :: l)
           | _, _ => none) := rfl
      rw [hstep, ih]
      rfl
    have h2 : parse_body_lists [Cst.node .body [] [itemNode (cstNested k)]] =
        some ([Item.ValueItem (nestedVal (k + 1))] ++ []) := by
      have hstep : parse_body_lists [Cst.node .body [] [itemNode (cstNested k)]] =
          (match parse_items_list [itemNode (cstNested k)], parse_body_lists ([] : List Cst) with
           | some l1, some l2 => some (l1 ++ l2)
           | _, _ => none) := rfl
      rw [hstep, h1]
      rfl
    have h3 : parse_value_concrete (blockNode [itemNode (cstNested k)]) =
        some (classify_block ([Item.ValueItem (nestedVal (k + 1))] ++ [])) := by
      show (parse_body_lists [Cst.node .body [] [itemNode (cstNested k)]]).map classify_block = _
      rw [h2]
      rfl
    have h4 : parse_item (itemNode (cstNested (k + 1))) =
        (match parse_value_concrete (blockNode [itemNode (cstNested k)]) with
         | none => none
         | some val => some (.ValueItem val)) := rfl
    rw [h4, h3]
    have h5 : classify_block ([Item.ValueItem (nestedVal (k + 1))] ++ []) =
        .Block [.ValueItem (nestedVal (k + 1))] := by
      rw [List.append_nil]
      unfold classify_block
      rw [if_neg]
      · rw [List.filter_cons]
        rw [nestedVal_not_atom]
        rfl
      · rw [List.all_cons, nestedVal_not_atom]
        simp
    rw [h5]
    rfl

theorem parse_str_eq (s : List Char) (toks : List Tok) (fileCst : Cst)
    (hl : lex s = some toks) (hp : pFile toks = some fileCst) :
    parse_str s = parse_file fileCst := by
  unfold parse_str
  simp only [hl, hp]

theorem nested_parse (n : Nat) (hn : 1 ≤ n) :
    parse_str (mkNested n) = some [.ValueItem (nestedVal n)] := by
  obtain ⟨k, rfl⟩ : ∃ k, n = k + 1 := ⟨n - 1, by omega⟩
  rw [parse_str_eq (mkNested (k + 1)) (tokNested (k + 1))
      (.node .file [] [.node .body [] [itemNode (cstNested k)]])
      (lex_mkNested (k + 1)) (pFile_nested k)]
  show parse_body_lists [Cst.node .body [] [itemNode (cstNested k)]] = _
  have hstep : parse_body_lists [Cst.node .body [] [itemNode (cstNested k)]] =
      (match parse_items_list [itemNode (cstNested k)], parse_body_lists ([] : List Cst) with
       | some l1, some l2 => some (l1 ++ l2)
       | _, _ => none) := rfl
  rw [hstep]
  have h1 : parse_items_list [itemNode (cstNested k)] =
      some [.ValueItem (nestedVal (k + 1))] := by
    have hstep2 : parse_items_list [itemNode (cstNested k)] =
        (match parse_item (itemNode (cstNested k)), parse_items_list ([] : List Cst) with
         | some it, some l => some (it :: l)
         | _, _ => none) := rfl
    rw [hstep2, walker_nested]
    rfl
  rw [h1]
  rfl

/-- C2 counterexample: the claim says input nested deeper than the
configured maximum (e.g. 1000) fails with a resource-exhaustion error and
yields no parse tree.  The code has no depth guard at all: the brace
group nested 1001 deep parses successfully and a full tree is returned. -/
theorem C2_counterexample_depth_1001 :
    parse_str (mkNested 1001) = some [.ValueItem (nestedVal 1001)] :=
  nested_parse 1001 (by omega)

/-- C2 amended: `parse_str` imposes no maximum nesting depth and has no
resource-exhaustion error path distinct from grammar errors: for every
`n ≥ 1` the brace group nested `n` deep parses successfully to the
expected `n`-deep tree (recursion is bounded only by the host stack). -/
theorem C2_no_depth_limit (n : Nat) (hn : 1 ≤ n) :
    parse_str (mkNested n) = some [.ValueItem (nestedVal n)] :=
  nested_parse n hn

/-- C2 witness: the no-depth-limit theorem instantiated at depth 1. -/
theorem C2_no_depth_limit_witness :
    1 ≤ 1 ∧ parse_str (mkNested 1) = some [.ValueItem (nestedVal 1)] :=
  ⟨by omega, C2_no_depth_limit 1 (by omega)⟩

theorem digitChar_isDigit {d : Nat} (hd : d < 10) : (digitChar d).isDigit = true := by
  interval_cases d <;> decide

theorem digitChar_toNat {d : Nat} (hd : d < 10) : (digitChar d).toNat - 48 = d := by
  interval_cases d <;> decide

theorem isBare_of_isDigit {c : Char} (h : c.isDigit = true) : isBare c = true := by
  unfold isBare
  rw [h]
  simp

theorem digit_ne_dot {c : Char} (h : c.isDigit = true) : c ≠ '.' := by
  intro hc
  rw [hc] at h
  exact absurd h (by decide)

theorem natCharsGo_eq :
    ∀ (f n : Nat) (acc : List Char), n < f →
      natCharsGo f n acc = ((Nat.digits 10 n).reverse.map digitChar) ++ acc := by
  intro f
  induction f with
  | zero => intro n acc h; exact absurd h (Nat.not_lt_zero n)
  | succ f ih =>
    intro n acc h
    rw [natCharsGo]
    by_cases hn : n = 0
    · subst hn
      simp
    · rw [if_neg hn]
      have hdiv : n / 10 < f := by
        have h1 : n / 10 < n := Nat.div_lt_self (Nat.pos_of_ne_zero hn) (by norm_num)
        omega
      rw [ih (n / 10) _ hdiv]
      rw [Nat.digits_def' (show (1 : Nat) < 10 from by norm_num) (Nat.pos_of_ne_zero hn)]
      simp

theorem natChars_eq (n : Nat) :
    natChars n = if n = 0 then ['0'] else (Nat.digits 10 n).reverse.map digitChar := by
  unfold natChars
  by_cases hn : n = 0
  · simp [hn]
  · rw [if_neg hn, if_neg hn, natCharsGo_eq _ _ _ (by omega), List.append_nil]

theorem natChars_ne_nil (n : Nat) : natChars n ≠ [] := by
  rw [natChars_eq]
  by_cases hn : n = 0
  · simp [hn]
  · rw [if_neg hn]
    simp [Nat.digits_ne_nil_iff_ne_zero.mpr hn]

theorem natChars_all_digits (n : Nat) : all_digits (natChars n) = true := by
  rw [natChars_eq]
  by_cases hn : n = 0
  · rw [if_pos hn]
    rfl
  · rw [if_neg hn]
    rw [all_digits, List.all_eq_true]
    intro c hc
    simp only [List.mem_map, List.mem_reverse] at hc
    obtain ⟨d, hd, rfl⟩ := hc
    exact digitChar_isDigit (Nat.digits_lt_base (by norm_num) hd)

theorem digitsVal_rev_digits :
    ∀ (ds : List Nat), (∀ d ∈ ds, d < 10) → ∀ (acc : Nat),
      (ds.reverse.map digitChar).foldl (fun a c => 10 * a + (c.toNat - 48)) acc =
        acc * 10 ^ ds.length + Nat.ofDigits 10 ds := by
  intro ds
  induction ds with
  | nil =>
    intro _ acc
    simp [Nat.ofDigits_nil]
  | cons d ds ih =>
    intro hlt acc
    have hd : d < 10 := hlt d (by simp)
    rw [List.reverse_cons, List.map_append, List.foldl_append]
    rw [ih (fun x hx => hlt x (by simp [hx])) acc]
    simp only [List.map_cons, List.map_nil, List.foldl_cons, List.foldl_nil]
    rw [digitChar_toNat hd, Nat.ofDigits_cons]
    simp only [List.length_cons, pow_succ]
    ring

theorem digitsVal_natChars (n : Nat) : digitsVal (natChars n) = n := by
  rw [natChars_eq]
  by_cases hn : n = 0
  · rw [if_pos hn, hn]
    rfl
  · rw [if_neg hn]
    unfold digitsVal
    rw [digitsVal_rev_digits (Nat.digits 10 n) (fun d hd => Nat.digits_lt_base (by norm_num) hd) 0]
    simp [Nat.ofDigits_digits]

theorem digitsVal_zeros_append (k : Nat) (ds : List Char) :
    digitsVal (List.replicate k '0' ++ ds) = digitsVal ds := by
  unfold digitsVal
  rw [List.foldl_append]
  have h : (List.replicate k '0').foldl (fun a c => 10 * a + (c.toNat - 48)) 0 = 0 := by
    induction k with
    | zero => rfl
    | succ k ih => rw [List.replicate_succ, List.foldl_cons]; simpa using ih
  rw [h]

theorem digitsLen_le_iff (n k : Nat) : (Nat.digits 10 n).length ≤ k ↔ n < 10 ^ k := by
  constructor
  · intro h
    calc n < 10 ^ (Nat.digits 10 n).length := Nat.lt_base_pow_length_digits (by norm_num)
    _ ≤ 10 ^ k := Nat.pow_le_pow_right (by norm_num) h
  · intro h
    by_contra hlen
    push_neg at hlen
    by_cases hn : n = 0
    · subst hn
      simp at hlen
    · have h1 : 10 ^ (Nat.digits 10 n).length ≤ 10 * n :=
        Nat.base_pow_length_digits_le 10 n (by norm_num) hn
      have h2 : 10 ^ (k + 1) ≤ 10 ^ (Nat.digits 10 n).length :=
        Nat.pow_le_pow_right (by norm_num) (by omega)
      have h3 : 10 ^ (k + 1) = 10 * 10 ^ k := by ring
      omega

theorem natChars_length_le_iff (n k : Nat) (hk : 1 ≤ k) :
    ((natChars n).length ≤ k ↔ n < 10 ^ k) := by
  rw [natChars_eq]
  by_cases hn : n = 0
  · rw [if_pos hn]
    subst hn
    simp only [List.length_cons, List.length_nil]
    constructor
    · intro _
      exact Nat.pos_pow_of_pos k (by norm_num)
    · intro _
      omega
  · rw [if_neg hn]
    simp only [List.length_map, List.length_reverse]
    exact digitsLen_le_iff n k

theorem digit_toNat_bounds {c : Char} (h : c.isDigit = true) :
    48 ≤ c.toNat ∧ c.toNat ≤ 57 := by
  simp [Char.isDigit, Char.le_def] at h
  exact ⟨h.1, h.2⟩

theorem digitsVal_lt (f : List Char) :
    ∀ (acc : Nat), all_digits f = true →
      f.foldl (fun a c => 10 * a + (c.toNat - 48)) acc < (acc + 1) * 10 ^ f.length := by
  induction f with
  | nil =>
    intro acc _
    simp
  | cons c cs ih =>
    intro acc hall
    rw [all_digits, List.all_cons] at hall
    rw [Bool.and_eq_true] at hall
    obtain ⟨hc9a, hc9b⟩ := digit_toNat_bounds hall.1
    have h := ih (10 * acc + (c.toNat - 48)) (by rw [all_digits]; exact hall.2)
    calc (c :: cs).foldl (fun a c => 10 * a + (c.toNat - 48)) acc
        = cs.foldl (fun a c => 10 * a + (c.toNat - 48)) (10 * acc + (c.toNat - 48)) := by
          rw [List.foldl_cons]
    _ < (10 * acc + (c.toNat - 48) + 1) * 10 ^ cs.length := h
    _ ≤ (acc + 1) * 10 ^ (c :: cs).length := by
          simp only [List.length_cons, pow_succ]
          have hd : c.toNat - 48 ≤ 9 := by omega
          have hpos : 1 ≤ 10 ^ cs.length := Nat.one_le_pow _ _ (by norm_num)
          nlinarith

theorem digitsVal_bound {f : List Char} (h : all_digits f = true) :
    digitsVal f < 10 ^ f.length := by
  have := digitsVal_lt f 0 h
  simpa using this

theorem parseNatBounded_natChars {n b : Nat} (h : n < b) :
    parseNatBounded (natChars n) b = some n := by
  unfold parseNatBounded
  rw [if_pos]
  · rw [digitsVal_natChars]
  · exact ⟨natChars_ne_nil n, natChars_all_digits n, by rw [digitsVal_natChars]; exact h⟩

theorem splitDots_noDot {u : List Char} (h : noDot u = true) : splitDots u = [u] := by
  induction u with
  | nil => rfl
  | cons c r ih =>
    rw [noDot, List.all_cons, Bool.and_eq_true] at h
    have hc : c ≠ '.' := by simpa using h.1
    rw [splitDots, if_neg hc, ih (by rw [noDot]; exact h.2)]

theorem splitDots_append {u v : List Char} (h : noDot u = true) :
    splitDots (u ++ '.' :: v) = u :: splitDots v := by
  induction u with
  | nil =>
    rw [List.nil_append, splitDots, if_pos rfl]
  | cons c r ih =>
    rw [noDot, List.all_cons, Bool.and_eq_true] at h
    have hc : c ≠ '.' := by simpa using h.1
    rw [List.cons_append, splitDots, if_neg hc, ih (by rw [noDot]; exact h.2)]

theorem noDot_of_all_digits {l : List Char} (h : all_digits l = true) : noDot l = true := by
  rw [all_digits, List.all_eq_true] at h
  rw [noDot, List.all_eq_true]
  intro c hc
  simpa using digit_ne_dot (h c hc)

theorem natChars_noDot (n : Nat) : noDot (natChars n) = true :=
  noDot_of_all_digits (natChars_all_digits n)

theorem padZeros_all_digits {w : Nat} {ds : List Char} (h : all_digits ds = true) :
    all_digits (padZeros w ds) = true := by
  rw [padZeros, all_digits, List.all_append]
  rw [all_digits] at h
  rw [h]
  rw [Bool.and_eq_true]
  refine ⟨?_, rfl⟩
  rw [List.all_eq_true]
  intro c hc
  rw [List.mem_replicate] at hc
  rw [hc.2]
  decide

theorem padZeros_length {w : Nat} {ds : List Char} (h : ds.length ≤ w) :
    (padZeros w ds).length = w := by
  rw [padZeros, List.length_append, List.length_replicate]
  omega

theorem digitsVal_padZeros (w : Nat) (ds : List Char) :
    digitsVal (padZeros w ds) = digitsVal ds :=
  digitsVal_zeros_append (w - ds.length) ds

theorem wfDec_stripZeros : ∀ (e : Nat) (m : Int), wfDec (stripZeros m e) = true := by
  intro e
  induction e with
  | zero =>
    intro m
    rfl
  | succ e ih =>
    intro m
    rw [stripZeros]
    by_cases hm : m % 10 = 0
    · rw [if_pos hm]
      exact ih (m / 10)
    · rw [if_neg hm]
      rw [wfDec]
      simp [hm]

theorem stripZeros_of_not_dvd {m : Int} {e : Nat} (hm : m % 10 ≠ 0) (he : e ≠ 0) :
    stripZeros m e = ⟨m, e⟩ := by
  obtain ⟨e2, rfl⟩ : ∃ e2, e = e2 + 1 := ⟨e - 1, by omega⟩
  rw [stripZeros, if_neg hm]

theorem natChars_head_digit (n : Nat) :
    ∃ c cs, natChars n = c :: cs ∧ c.isDigit = true := by
  obtain ⟨c, cs, h⟩ := List.exists_cons_of_ne_nil (natChars_ne_nil n)
  refine ⟨c, cs, h, ?_⟩
  have hd := natChars_all_digits n
  rw [all_digits, List.all_eq_true] at hd
  exact hd c (by rw [h]; simp)

theorem digit_ne_minus {c : Char} (h : c.isDigit = true) : c ≠ '-' := by
  intro hc
  rw [hc] at h
  exact absurd h (by decide)

theorem pdBody_single {u : List Char} (neg : Bool) (hd : noDot u = true) (hne : u ≠ [])
    (hdig : all_digits u = true) :
    pdBody neg u =
      some (stripZeros (if neg then -(digitsVal u : Int) else (digitsVal u : Int)) 0) := by
  rw [pdBody, splitDots_noDot hd]
  exact if_pos ⟨hne, hdig⟩

theorem pdBody_pair {a b : List Char} (neg : Bool) (hda : noDot a = true)
    (hdb : noDot b = true) (hnea : a ≠ []) (hdiga : all_digits a = true) (hneb : b ≠ [])
    (hdigb : all_digits b = true) :
    pdBody neg (a ++ '.' :: b) =
      some (stripZeros
        (if neg then -((digitsVal a * 10 ^ b.length + digitsVal b : Nat) : Int)
         else ((digitsVal a * 10 ^ b.length + digitsVal b : Nat) : Int))
        b.length) := by
  rw [pdBody, splitDots_append hda, splitDots_noDot hdb]
  exact if_pos ⟨hnea, hdiga, hneb, hdigb⟩

theorem printDec_zero (m : Int) :
    printDec ⟨m, 0⟩ = (if m < 0 then ['-'] else []) ++ natChars m.natAbs := rfl

theorem printDec_pos (m : Int) (e : Nat) (he : e ≠ 0) :
    printDec ⟨m, e⟩ =
      (if m < 0 then ['-'] else []) ++
        natChars (m.natAbs / 10 ^ e) ++ '.' :: padZeros e (natChars (m.natAbs % 10 ^ e)) := by
  unfold printDec
  simp only [if_neg he]

theorem padZeros_noDot {w : Nat} {ds : List Char} (h : all_digits ds = true) :
    noDot (padZeros w ds) = true :=
  noDot_of_all_digits (padZeros_all_digits h)

theorem padZeros_ne_nil {w : Nat} {ds : List Char} (hds : ds ≠ []) :
    padZeros w ds ≠ [] := by
  rw [padZeros]
  intro hc
  rw [List.append_eq_nil] at hc
  exact hds hc.2

theorem parseDec_printDec {q : Dec} (hq : wfDec q = true) : parseDec (printDec q) = some q := by
  obtain ⟨m, e⟩ := q
  by_cases he : e = 0
  · subst he
    rw [printDec_zero]
    by_cases hm : m < 0
    · rw [if_pos hm, List.singleton_append]
      rw [parseDec, if_pos rfl]
      rw [pdBody_single true (natChars_noDot _) (natChars_ne_nil _) (natChars_all_digits _)]
      rw [if_pos rfl, digitsVal_natChars, stripZeros]
      have hma : -(m.natAbs : Int) = m := by omega
      rw [hma]
    · rw [if_neg hm, List.nil_append]
      obtain ⟨c, cs, hc, hcd⟩ := natChars_head_digit m.natAbs
      rw [hc, parseDec, if_neg (digit_ne_minus hcd), ← hc]
      rw [pdBody_single false (natChars_noDot _) (natChars_ne_nil _) (natChars_all_digits _)]
      rw [if_neg (by exact Bool.false_ne_true), digitsVal_natChars, stripZeros]
      have hma : (m.natAbs : Int) = m := by omega
      rw [hma]
  · have hmv : m % 10 ≠ 0 := by
      rw [wfDec] at hq
      simp only [Bool.or_eq_true, decide_eq_true_eq] at hq
      rcases hq with h1 | h2
      · exact absurd h1 he
      · exact h2
    have hm0 : m ≠ 0 := by
      intro hc
      rw [hc] at hmv
      simp at hmv
    have hlen : (natChars (m.natAbs % 10 ^ e)).length ≤ e := by
      rw [natChars_length_le_iff _ _ (by omega)]
      exact Nat.mod_lt _ (Nat.pos_pow_of_pos e (by norm_num))
    have hval : digitsVal (natChars (m.natAbs / 10 ^ e)) * 10 ^ (padZeros e (natChars (m.natAbs % 10 ^ e))).length
          + digitsVal (padZeros e (natChars (m.natAbs % 10 ^ e))) = m.natAbs := by
      rw [padZeros_length hlen, digitsVal_padZeros, digitsVal_natChars, digitsVal_natChars]
      have h := Nat.div_add_mod m.natAbs (10 ^ e)
      rw [Nat.mul_comm] at h
      exact h
    rw [printDec_pos m e he]
    by_cases hm : m < 0
    · rw [if_pos hm, List.singleton_append, List.cons_append]
      rw [parseDec, if_pos rfl]
      rw [pdBody_pair true (natChars_noDot _) (padZeros_noDot (natChars_all_digits _))
        (natChars_ne_nil _) (natChars_all_digits _) (padZeros_ne_nil (natChars_ne_nil _))
        (padZeros_all_digits (natChars_all_digits _))]
      rw [if_pos rfl, hval, padZeros_length hlen]
      rw [stripZeros_of_not_dvd (by omega) he]
      have hma : -(m.natAbs : Int) = m := by omega
      rw [hma]
    · rw [if_neg hm, List.nil_append]
      obtain ⟨c, cs, hc, hcd⟩ := natChars_head_digit (m.natAbs / 10 ^ e)
      rw [hc, List.cons_append, parseDec, if_neg (digit_ne_minus hcd), ← List.cons_append, ← hc]
      rw [pdBody_pair false (natChars_noDot _) (padZeros_noDot (natChars_all_digits _))
        (natChars_ne_nil _) (natChars_all_digits _) (padZeros_ne_nil (natChars_ne_nil _))
        (padZeros_all_digits (natChars_all_digits _))]
      rw [if_neg (by exact Bool.false_ne_true), hval, padZeros_length hlen]
      rw [stripZeros_of_not_dvd (by omega) he]
      have hma : (m.natAbs : Int) = m := by omega
      rw [hma]

theorem strOk_cons (x : Char) (r : List Char) :
    strOk (x :: r) =
      (if x = '"' then false
       else if x = '\\' then
         match r with
         | [] => false
         | _ :: r2 => strOk r2
       else strOk r) := by
  rw [strOk.eq_def]

theorem scanStr_cons (c : Char) (r : List Char) :
    scanStr (c :: r) =
      (if c = '"' then some ([], r)
       else if c = '\\' then
         match r with
         | [] => none
         | x :: r2 => (scanStr r2).map fun q => ('\\' :: x :: q.1, q.2)
       else (scanStr r).map fun q => (c :: q.1, q.2)) := by
  rw [scanStr.eq_def]

theorem scanStr_append :
    ∀ (c : List Char), strOk c = true → ∀ (s : List Char),
      scanStr (c ++ '"' :: s) = some (c, s)
  | [], _, s => by
    rw [List.nil_append, scanStr_cons, if_pos rfl]
  | x :: r, h, s => by
    rw [strOk_cons] at h
    by_cases hq : x = '"'
    · rw [if_pos hq] at h
      cases h
    · rw [if_neg hq] at h
      by_cases hb : x = '\\'
      · rw [if_pos hb] at h
        cases r with
        | nil => cases h
        | cons y r2 =>
          have ih := scanStr_append r2 h s
          subst hb
          rw [List.cons_append, List.cons_append, scanStr_cons]
          rw [if_neg (by decide : ¬('\\' : Char) = '"'), if_pos rfl]
          show (scanStr (r2 ++ '"' :: s)).map (fun q => ('\\' :: y :: q.1, q.2)) = _
          rw [ih]
          rfl
      · rw [if_neg hb] at h
        have ih := scanStr_append r h s
        rw [List.cons_append, scanStr_cons, if_neg hq, if_neg hb, ih]
        rfl

/-- C10 witness: a group whose only child is a comment classifies as a
Block holding that comment. -/
theorem C10_array_children_all_atomic_witness :
    parse_block (blockNode [itemNode (.node .comment ['#', 'c'] [])]) =
      some (.Block [.Comment ['#', 'c']]) := by
  have h := (C10_array_children_all_atomic
      (blockNode [itemNode (.node .comment ['#', 'c'] [])])
      [.Comment ['#', 'c']] rfl).1
      ⟨.Comment ['#', 'c'], by simp, rfl⟩
  simpa using h

theorem scanStr_nil : scanStr [] = none := rfl

theorem scanStr_length :
    ∀ (r : List Char) (q : List Char × List Char), scanStr r = some q → q.2.length < r.length
  | [], q, h => by
    rw [scanStr_nil] at h
    cases h
  | c :: r, q, h => by
    rw [scanStr_cons] at h
    by_cases hq : c = '"'
    · rw [if_pos hq] at h
      injection h with h
      subst h
      simp
    · rw [if_neg hq] at h
      by_cases hb : c = '\\'
      · rw [if_pos hb] at h
        cases r with
        | nil => cases h
        | cons y r2 =>
          have h2 : Option.map (fun q => ('\\' :: y :: q.1, q.2)) (scanStr r2) = some q := h
          cases hs : scanStr r2 with
          | none =>
            rw [hs] at h2
            cases h2
          | some q2 =>
            rw [hs] at h2
            injection h2 with h2
            have hlt := scanStr_length r2 q2 hs
            subst h2
            simp only [List.length_cons]
            omega
      · rw [if_neg hb] at h
        cases hs : scanStr r with
        | none =>
          rw [hs] at h
          cases h
        | some q2 =>
          rw [hs] at h
          injection h with h
          have hlt := scanStr_length r q2 hs
          subst h
          simp only [List.length_cons]
          omega

theorem bare_toNat {c : Char} (h : isBare c = true) :
    (65 ≤ c.toNat ∧ c.toNat ≤ 90) ∨ (97 ≤ c.toNat ∧ c.toNat ≤ 122) ∨
      (48 ≤ c.toNat ∧ c.toNat ≤ 57) ∨ c.toNat = 95 ∨ c.toNat = 46 ∨ c.toNat = 45 ∨
      c.toNat = 64 ∨ c.toNat = 58 := by
  unfold isBare at h
  simp only [Bool.or_eq_true, decide_eq_true_eq] at h
  rcases h with ((((((ha | hd) | h1) | h2) | h3) | h4) | h5)
  · simp only [Char.isAlpha, Char.isUpper, Char.isLower, Char.le_def, Bool.or_eq_true,
      Bool.and_eq_true, decide_eq_true_eq] at ha
    rcases ha with ⟨a, b⟩ | ⟨a, b⟩
    · exact Or.inl ⟨a, b⟩
    · exact Or.inr (Or.inl ⟨a, b⟩)
  · obtain ⟨a, b⟩ := digit_toNat_bounds hd
    exact Or.inr (Or.inr (Or.inl ⟨a, b⟩))
  · rw [h1]
    exact Or.inr (Or.inr (Or.inr (Or.inl rfl)))
  · rw [h2]
    exact Or.inr (Or.inr (Or.inr (Or.inr (Or.inl rfl))))
  · rw [h3]
    exact Or.inr (Or.inr (Or.inr (Or.inr (Or.inr (Or.inl rfl)))))
  · rw [h4]
    exact Or.inr (Or.inr (Or.inr (Or.inr (Or.inr (Or.inr (Or.inl rfl))))))
  · rw [h5]
    exact Or.inr (Or.inr (Or.inr (Or.inr (Or.inr (Or.inr (Or.inr rfl))))))

theorem char_ne_of_toNat {c d : Char} (h : c.toNat ≠ d.toNat) : c ≠ d :=
  fun he => h (by rw [he])

theorem bare_facts {c : Char} (h : isBare c = true) :
    isWs c = false ∧ c ≠ '#' ∧ c ≠ '"' ∧ c ≠ '{' ∧ c ≠ '}' ∧ c ≠ '=' ∧ c ≠ '<' ∧
      c ≠ '>' := by
  have ht := bare_toNat h
  have hne : ∀ (n : Nat) (d : Char), d.toNat = n →
      (c.toNat ≠ n) → c ≠ d := by
    intro n d hd hcn
    exact char_ne_of_toNat (by rw [hd]; exact hcn)
  refine ⟨?_, ?_, ?_, ?_, ?_, ?_, ?_, ?_⟩
  · unfold isWs
    have h1 : c ≠ ' ' := hne 32 ' ' rfl (by omega)
    have h2 : c ≠ '\t' := hne 9 '\t' rfl (by omega)
    have h3 : c ≠ '\n' := hne 10 '\n' rfl (by omega)
    have h4 : c ≠ '\r' := hne 13 '\r' rfl (by omega)
    simp [h1, h2, h3, h4]
  · exact hne 35 '#' rfl (by omega)
  · exact hne 34 '"' rfl (by omega)
  · exact hne 123 '{' rfl (by omega)
  · exact hne 125 '}' rfl (by omega)
  · exact hne 61 '=' rfl (by omega)
  · exact hne 60 '<' rfl (by omega)
  · exact hne 62 '>' rfl (by omega)

theorem lexGo_nil (f : Nat) : lexGo (f + 1) [] = some [] := rfl

theorem lexGo_ws_gen {c : Char} (h : isWs c = true) (f : Nat) (rest : List Char) :
    lexGo (f + 1) (c :: rest) = lexGo f rest := by
  rw [lexGo.eq_def]
  simp [h]

theorem lexGo_hash (f : Nat) (rest : List Char) :
    lexGo (f + 1) ('#' :: rest) =
      (lexGo f (rest.dropWhile fun x => x ≠ '\n')).map
        fun ts => Tok.commentTok ('#' :: rest.takeWhile fun x => x ≠ '\n') :: ts := rfl

theorem lexGo_quote (f : Nat) (rest : List Char) :
    lexGo (f + 1) ('"' :: rest) =
      (scanStr rest).bind fun q => (lexGo f q.2).map fun ts => Tok.strTok q.1 :: ts := rfl

theorem lexGo_eqop (f : Nat) (rest : List Char) :
    lexGo (f + 1) ('=' :: rest) = (lexGo f rest).map fun ts => Tok.opTok ['='] :: ts := rfl

theorem lexGo_lt_eq (f : Nat) (rest : List Char) :
    lexGo (f + 1) ('<' :: '=' :: rest) =
      (lexGo f rest).map fun ts => Tok.opTok ['<', '='] :: ts := rfl

theorem lexGo_lt_nil (f : Nat) :
    lexGo (f + 1) ['<'] = (lexGo f []).map fun ts => Tok.opTok ['<'] :: ts := rfl

theorem lexGo_lt_ne {r : Char} (hr : r ≠ '=') (f : Nat) (rest : List Char) :
    lexGo (f + 1) ('<' :: r :: rest) =
      (lexGo f (r :: rest)).map fun ts => Tok.opTok ['<'] :: ts := by
  show (if (r :: rest).head? = some '=' then
          (lexGo f (r :: rest).tail).map fun ts => Tok.opTok ['<', '='] :: ts
        else (lexGo f (r :: rest)).map fun ts => Tok.opTok ['<'] :: ts) = _
  rw [if_neg]
  intro hc
  rw [List.head?_cons] at hc
  injection hc with hc
  exact hr hc

theorem lexGo_gt_eq (f : Nat) (rest : List Char) :
    lexGo (f + 1) ('>' :: '=' :: rest) =
      (lexGo f rest).map fun ts => Tok.opTok ['>', '='] :: ts := rfl

theorem lexGo_gt_nil (f : Nat) :
    lexGo (f + 1) ['>'] = (lexGo f []).map fun ts => Tok.opTok ['>'] :: ts := rfl

theorem lexGo_gt_ne {r : Char} (hr : r ≠ '=') (f : Nat) (rest : List Char) :
    lexGo (f + 1) ('>' :: r :: rest) =
      (lexGo f (r :: rest)).map fun ts => Tok.opTok ['>'] :: ts := by
  show (if (r :: rest).head? = some '=' then
          (lexGo f (r :: rest).tail).map fun ts => Tok.opTok ['>', '='] :: ts
        else (lexGo f (r :: rest)).map fun ts => Tok.opTok ['>'] :: ts) = _
  rw [if_neg]
  intro hc
  rw [List.head?_cons] at hc
  injection hc with hc
  exact hr hc

theorem lexGo_bare_head {c : Char} (hc : isBare c = true) (f : Nat) (rest : List Char) :
    lexGo (f + 1) (c :: rest) =
      (lexGo f (rest.dropWhile isBare)).map
        fun ts => classifyBare (c :: rest.takeWhile isBare) :: ts := by
  obtain ⟨hw, h1, h2, h3, h4, h5, h6, h7⟩ := bare_facts hc
  rw [lexGo.eq_def]
  simp [hw, h1, h2, h3, h4, h5, h6, h7, hc]

theorem lexGo_err {c : Char} (hw : isWs c = false) (h1 : c ≠ '#') (h2 : c ≠ '"')
    (h3 : c ≠ '{') (h4 : c ≠ '}') (h5 : c ≠ '=') (h6 : c ≠ '<') (h7 : c ≠ '>')
    (hb : isBare c = false) (f : Nat) (rest : List Char) :
    lexGo (f + 1) (c :: rest) = none := by
  rw [lexGo.eq_def]
  simp [hw, h1, h2, h3, h4, h5, h6, h7, hb]

theorem dropWhile_len_le (p : Char → Bool) (l : List Char) :
    (l.dropWhile p).length ≤ l.length := by
  induction l with
  | nil => simp
  | cons a l ih =>
    rw [List.dropWhile_cons]
    by_cases hp : p a = true
    · rw [if_pos hp]
      simp only [List.length_cons]
      omega
    · rw [if_neg hp]

theorem lexGo_congr :
    ∀ (n : Nat) (s : List Char), s.length ≤ n → ∀ (f g : Nat), s.length < f →
      s.length < g → lexGo f s = lexGo g s := by
  intro n
  induction n with
  | zero =>
    intro s hs f g hf hg
    have hs0 : s = [] := List.eq_nil_of_length_eq_zero (by omega)
    subst hs0
    obtain ⟨f2, rfl⟩ : ∃ f2, f = f2 + 1 := ⟨f - 1, by omega⟩
    obtain ⟨g2, rfl⟩ : ∃ g2, g = g2 + 1 := ⟨g - 1, by omega⟩
    rfl
  | succ n ih =>
    intro s hs f g hf hg
    cases s with
    | nil =>
      obtain ⟨f2, rfl⟩ : ∃ f2, f = f2 + 1 := ⟨f - 1, by omega⟩
      obtain ⟨g2, rfl⟩ : ∃ g2, g = g2 + 1 := ⟨g - 1, by omega⟩
      rfl
    | cons c rest =>
      obtain ⟨f2, rfl⟩ : ∃ f2, f = f2 + 1 := ⟨f - 1, by omega⟩
      obtain ⟨g2, rfl⟩ : ∃ g2, g = g2 + 1 := ⟨g - 1, by omega⟩
      simp only [List.length_cons] at hs hf hg
      by_cases h1 : isWs c = true
      · rw [lexGo_ws_gen h1, lexGo_ws_gen h1]
        exact ih rest (by omega) f2 g2 (by omega) (by omega)
      · by_cases h2 : c = '#'
        · subst h2
          rw [lexGo_hash, lexGo_hash]
          have hd : (rest.dropWhile fun x => x ≠ '\n').length ≤ rest.length :=
            dropWhile_len_le _ _
          rw [ih (rest.dropWhile fun x => x ≠ '\n') (by omega) f2 g2 (by omega) (by omega)]
        · by_cases h3 : c = '"'
          · subst h3
            rw [lexGo_quote, lexGo_quote]
            cases hsc : scanStr rest with
            | none => rfl
            | some q =>
              have hlen := scanStr_length rest q hsc
              show (lexGo f2 q.2).map _ = (lexGo g2 q.2).map _
              rw [ih q.2 (by omega) f2 g2 (by omega) (by omega)]
          · by_cases h4 : c = '{'
            · subst h4
              rw [lexGo_lbrace, lexGo_lbrace,
                ih rest (by omega) f2 g2 (by omega) (by omega)]
            · by_cases h5 : c = '}'
              · subst h5
                rw [lexGo_rbrace, lexGo_rbrace,
                  ih rest (by omega) f2 g2 (by omega) (by omega)]
              · by_cases h6 : c = '='
                · subst h6
                  rw [lexGo_eqop, lexGo_eqop,
                    ih rest (by omega) f2 g2 (by omega) (by omega)]
                · by_cases h7 : c = '<'
                  · subst h7
                    cases rest with
                    | nil =>
                      rw [lexGo_lt_nil, lexGo_lt_nil,
                        ih [] (by omega) f2 g2 (by omega) (by omega)]
                    | cons r rest2 =>
                      simp only [List.length_cons] at hs hf hg
                      by_cases hr : r = '='
                      · subst hr
                        rw [lexGo_lt_eq, lexGo_lt_eq,
                          ih rest2 (by omega) f2 g2 (by omega) (by omega)]
                      · rw [lexGo_lt_ne hr, lexGo_lt_ne hr,
                          ih (r :: rest2) (by simp; omega) f2 g2 (by simp; omega)
                            (by simp; omega)]
                  · by_cases h8 : c = '>'
                    · subst h8
                      cases rest with
                      | nil =>
                        rw [lexGo_gt_nil, lexGo_gt_nil,
                          ih [] (by omega) f2 g2 (by omega) (by omega)]
                      | cons r rest2 =>
                        simp only [List.length_cons] at hs hf hg
                        by_cases hr : r = '='
                        · subst hr
                          rw [lexGo_gt_eq, lexGo_gt_eq,
                            ih rest2 (by omega) f2 g2 (by omega) (by omega)]
                        · rw [lexGo_gt_ne hr, lexGo_gt_ne hr,
                            ih (r :: rest2) (by simp; omega) f2 g2 (by simp; omega)
                              (by simp; omega)]
                    · by_cases h9 : isBare c = true
                      · rw [lexGo_bare_head h9, lexGo_bare_head h9]
                        have hd : (rest.dropWhile isBare).length ≤ rest.length :=
                          dropWhile_len_le _ _
                        rw [ih (rest.dropWhile isBare) (by omega) f2 g2 (by omega) (by omega)]
                      · have hb9 : isBare c = false := by simpa using h9
                        have h1f : isWs c = false := by simpa using h1
                        rw [lexGo_err h1f h2 h3 h4 h5 h6 h7 h8 hb9,
                          lexGo_err h1f h2 h3 h4 h5 h6 h7 h8 hb9]

theorem lex_eq_lexGo {s : List Char} {f : Nat} (hf : s.length < f) : lexGo f s = lex s := by
  unfold lex
  exact lexGo_congr s.length s le_rfl f (s.length + 1) hf (by omega)

theorem takeWhile_all_append {p : Char → Bool} {t : List Char} (h : t.all p = true)
    {sep : Char} (hsep : p sep = false) (s : List Char) :
    (t ++ sep :: s).takeWhile p = t ∧ (t ++ sep :: s).dropWhile p = sep :: s := by
  induction t with
  | nil =>
    rw [List.nil_append]
    constructor
    · rw [List.takeWhile_cons, hsep]
      rfl
    · rw [List.dropWhile_cons, hsep]
      rfl
  | cons x xs ih =>
    rw [List.all_cons, Bool.and_eq_true] at h
    obtain ⟨ih1, ih2⟩ := ih h.2
    rw [List.cons_append]
    constructor
    · rw [List.takeWhile_cons, h.1, ih1]
      rfl
    · rw [List.dropWhile_cons, h.1, ih2]
      rfl

theorem lex_cons_ws {c : Char} (h : isWs c = true) (s : List Char) :
    lex (c :: s) = lex s := by
  show lexGo ((c :: s).length + 1) (c :: s) = _
  rw [show (c :: s).length + 1 = s.length + 1 + 1 from by simp]
  rw [lexGo_ws_gen h]
  rfl

theorem lex_spaces (n : Nat) (s : List Char) : lex (spaces n ++ s) = lex s := by
  induction n with
  | zero => rfl
  | succ n ih =>
    rw [spaces, List.replicate_succ, List.cons_append, lex_cons_ws (by decide)]
    exact ih

theorem lex_newline (s : List Char) : lex ('\n' :: s) = lex s :=
  lex_cons_ws (by decide) s

theorem lex_bareword {t : List Char} (hne : t ≠ []) (hall : t.all isBare = true)
    {sep : Char} (hsep : isBare sep = false) (s : List Char) :
    lex (t ++ sep :: s) = (lex (sep :: s)).map fun ts => classifyBare t :: ts := by
  obtain ⟨c, t2, rfl⟩ := List.exists_cons_of_ne_nil hne
  rw [List.all_cons, Bool.and_eq_true] at hall
  obtain ⟨htw, hdw⟩ := takeWhile_all_append hall.2 hsep s
  rw [List.cons_append]
  show lexGo ((c :: (t2 ++ sep :: s)).length + 1) (c :: (t2 ++ sep :: s)) = _
  rw [show (c :: (t2 ++ sep :: s)).length + 1 = (t2 ++ sep :: s).length + 1 + 1 from by simp]
  rw [lexGo_bare_head hall.1, htw, hdw]
  rw [lex_eq_lexGo (show (sep :: s).length < (t2 ++ sep :: s).length + 1 from by
    simp
    omega)]

theorem lex_quote {c : List Char} (h : strOk c = true) (s : List Char) :
    lex ('"' :: (c ++ '"' :: s)) = (lex s).map fun ts => Tok.strTok c :: ts := by
  show lexGo (('"' :: (c ++ '"' :: s)).length + 1) ('"' :: (c ++ '"' :: s)) = _
  rw [show ('"' :: (c ++ '"' :: s)).length + 1 = (c ++ '"' :: s).length + 1 + 1 from by simp]
  rw [lexGo_quote, scanStr_append c h s]
  show (lexGo ((c ++ '"' :: s).length + 1) s).map _ = _
  rw [lex_eq_lexGo (show s.length < (c ++ '"' :: s).length + 1 from by simp; omega)]

theorem lex_comment {t : List Char} (h : wfComment t = true) (s : List Char) :
    lex (t ++ '\n' :: s) = (lex s).map fun ts => Tok.commentTok t :: ts := by
  cases t with
  | nil => cases h
  | cons c body =>
    rw [wfComment, Bool.and_eq_true] at h
    obtain ⟨hc, hbody⟩ := h
    have hc2 : c = '#' := by simpa using hc
    subst hc2
    obtain ⟨htw, hdw⟩ := @takeWhile_all_append (fun x => decide (x ≠ '\n')) body hbody
      '\n' (by decide) s
    rw [List.cons_append]
    show lexGo (('#' :: (body ++ '\n' :: s)).length + 1) ('#' :: (body ++ '\n' :: s)) = _
    rw [show ('#' :: (body ++ '\n' :: s)).length + 1 = (body ++ '\n' :: s).length + 1 + 1 from
      by simp]
    rw [lexGo_hash, htw, hdw]
    rw [lex_eq_lexGo (show ('\n' :: s).length < (body ++ '\n' :: s).length + 1 from by
      simp
      omega)]
    rw [lex_newline]

theorem lex_lbrace (s : List Char) :
    lex ('{' :: s) = (lex s).map fun ts => Tok.lbrace :: ts := by
  show lexGo (('{' :: s).length + 1) ('{' :: s) = _
  rw [show ('{' :: s).length + 1 = s.length + 1 + 1 from by simp]
  rw [lexGo_lbrace]
  rfl

theorem lex_rbrace (s : List Char) :
    lex ('}' :: s) = (lex s).map fun ts => Tok.rbrace :: ts := by
  show lexGo (('}' :: s).length + 1) ('}' :: s) = _
  rw [show ('}' :: s).length + 1 = s.length + 1 + 1 from by simp]
  rw [lexGo_rbrace]
  rfl

theorem lex_op (op : Operator) (s : List Char) :
    lex (opChars op ++ ' ' :: s) = (lex s).map fun ts => Tok.opTok (opChars op) :: ts := by
  cases op
  case Eq =>
    show lex ('=' :: ' ' :: s) = _
    show lexGo (('=' :: ' ' :: s).length + 1) ('=' :: ' ' :: s) = _
    rw [show ('=' :: ' ' :: s).length + 1 = (' ' :: s).length + 1 + 1 from by simp]
    rw [lexGo_eqop]
    rw [lex_eq_lexGo (show (' ' :: s).length < (' ' :: s).length + 1 from by omega)]
    rw [lex_cons_ws (by decide)]
    rfl
  case Le =>
    show lex ('<' :: '=' :: ' ' :: s) = _
    show lexGo (('<' :: '=' :: ' ' :: s).length + 1) ('<' :: '=' :: ' ' :: s) = _
    rw [show ('<' :: '=' :: ' ' :: s).length + 1 = (' ' :: s).length + 1 + 1 + 1 from by simp]
    rw [lexGo_lt_eq]
    rw [lex_eq_lexGo (show (' ' :: s).length < (' ' :: s).length + 1 + 1 from by omega)]
    rw [lex_cons_ws (by decide)]
    rfl
  case Ge =>
    show lex ('>' :: '=' :: ' ' :: s) = _
    show lexGo (('>' :: '=' :: ' ' :: s).length + 1) ('>' :: '=' :: ' ' :: s) = _
    rw [show ('>' :: '=' :: ' ' :: s).length + 1 = (' ' :: s).length + 1 + 1 + 1 from by simp]
    rw [lexGo_gt_eq]
    rw [lex_eq_lexGo (show (' ' :: s).length < (' ' :: s).length + 1 + 1 from by omega)]
    rw [lex_cons_ws (by decide)]
    rfl
  case Lt =>
    show lex ('<' :: ' ' :: s) = _
    show lexGo (('<' :: ' ' :: s).length + 1) ('<' :: ' ' :: s) = _
    rw [show ('<' :: ' ' :: s).length + 1 = (' ' :: s).length + 1 + 1 from by simp]
    rw [lexGo_lt_ne (by decide)]
    rw [lex_eq_lexGo (show (' ' :: s).length < (' ' :: s).length + 1 from by omega)]
    rw [lex_cons_ws (by decide)]
    rfl
  case Gt =>
    show lex ('>' :: ' ' :: s) = _
    show lexGo (('>' :: ' ' :: s).length + 1) ('>' :: ' ' :: s) = _
    rw [show ('>' :: ' ' :: s).length + 1 = (' ' :: s).length + 1 + 1 from by simp]
    rw [lexGo_gt_ne (by decide)]
    rw [lex_eq_lexGo (show (' ' :: s).length < (' ' :: s).length + 1 from by omega)]
    rw [lex_cons_ws (by decide)]
    rfl

theorem noDot_append {a b : List Char} (ha : noDot a = true) (hb : noDot b = true) :
    noDot (a ++ b) = true := by
  rw [noDot, List.all_append]
  rw [noDot] at ha hb
  rw [ha, hb]
  rfl

theorem digit_props {c : Char} (h : c.isDigit = true) :
    c ≠ '"' ∧ c ≠ '\\' ∧ c ≠ 'y' ∧ c ≠ 'n' ∧ c ≠ '-' := by
  obtain ⟨h1, h2⟩ := digit_toNat_bounds h
  exact ⟨char_ne_of_toNat (by simp only [show ('"' : Char).toNat = 34 from rfl]; omega),
    char_ne_of_toNat (by simp only [show ('\\' : Char).toNat = 92 from rfl]; omega),
    char_ne_of_toNat (by simp only [show ('y' : Char).toNat = 121 from rfl]; omega),
    char_ne_of_toNat (by simp only [show ('n' : Char).toNat = 110 from rfl]; omega),
    char_ne_of_toNat (by simp only [show ('-' : Char).toNat = 45 from rfl]; omega)⟩

theorem digits_dots_strOk :
    ∀ {l : List Char}, (l.all fun c => c.isDigit || c = '.') = true → strOk l = true
  | [], _ => rfl
  | c :: r, h => by
    rw [List.all_cons, Bool.and_eq_true] at h
    have hc : c ≠ '"' ∧ c ≠ '\\' := by
      have h1 : c.isDigit = true ∨ c = '.' := by simpa using h.1
      rcases h1 with hd | hdot
      · exact ⟨(digit_props hd).1, (digit_props hd).2.1⟩
      · have : c = '.' := by simpa using hdot
        subst this
        exact ⟨by decide, by decide⟩
    rw [strOk_cons, if_neg hc.1, if_neg hc.2]
    exact digits_dots_strOk h.2

theorem all_digits_imp_dd {l : List Char} (h : all_digits l = true) :
    (l.all fun c => c.isDigit || c = '.') = true := by
  rw [all_digits, List.all_eq_true] at h
  rw [List.all_eq_true]
  intro c hc
  rw [Bool.or_eq_true]
  exact Or.inl (h c hc)

theorem hourDateChars_dd (y m d hv : Nat) :
    ((hourDateChars y m d hv).all fun c => c.isDigit || c = '.') = true := by
  unfold hourDateChars
  rw [List.all_append, List.all_append, List.all_append, Bool.and_eq_true, Bool.and_eq_true,
    Bool.and_eq_true]
  refine ⟨⟨⟨all_digits_imp_dd (natChars_all_digits y), ?_⟩, ?_⟩, ?_⟩ <;>
    rw [List.all_cons] <;>
    simp only [Bool.and_eq_true] <;>
    exact ⟨by decide, all_digits_imp_dd (natChars_all_digits _)⟩

theorem hourDateChars_strOk (y m d hv : Nat) : strOk (hourDateChars y m d hv) = true :=
  digits_dots_strOk (hourDateChars_dd y m d hv)

theorem splitDots_hourDate (y m d hv : Nat) :
    splitDots (hourDateChars y m d hv) =
      [natChars y, natChars m, natChars d, natChars hv] := by
  unfold hourDateChars
  rw [List.append_assoc, List.append_assoc, List.cons_append]
  rw [splitDots_append (natChars_noDot y)]
  rw [List.cons_append]
  rw [splitDots_append (natChars_noDot m)]
  rw [splitDots_append (natChars_noDot d)]
  rw [splitDots_noDot (natChars_noDot hv)]

theorem natChars_len_pos (n : Nat) : 1 ≤ (natChars n).length := by
  have := natChars_ne_nil n
  cases h : natChars n with
  | nil => exact absurd h this
  | cons c cs => simp [h]

theorem try_parse_hourDate (y m d hv : Nat) :
    try_parse_date_like (hourDateChars y m d hv) =
      (if quotShape y m d hv = true then some ⟨y, m, d, some hv⟩ else none) := by
  have hsp := splitDots_hourDate y m d hv
  by_cases hq : quotShape y m d hv = true
  · rw [if_pos hq]
    unfold quotShape at hq
    simp only [Bool.and_eq_true, decide_eq_true_eq] at hq
    have hy1 : 100 ≤ y := by tauto
    have hy2 : y ≤ 9999 := by tauto
    have hmB : m ≤ 99 := by tauto
    have hdB : d ≤ 99 := by tauto
    have hhB : hv ≤ 99 := by tauto
    have hf0 : all_digits (natChars y) = true ∧ 3 ≤ (natChars y).length ∧
        (natChars y).length ≤ 4 := by
      refine ⟨natChars_all_digits y, ?_,
        (natChars_length_le_iff y 4 (by omega)).mpr (by omega)⟩
      by_contra hc
      push_neg at hc
      have := (natChars_length_le_iff y 2 (by omega)).mp (by omega)
      omega
    have hall : ((natChars m :: natChars d :: [natChars hv]).all
        fun f => all_digits f && decide (1 ≤ f.length) && decide (f.length ≤ 2)) = true := by
      rw [List.all_eq_true]
      intro f hf
      have hcases : f = natChars m ∨ f = natChars d ∨ f = natChars hv := by
        simpa using hf
      simp only [Bool.and_eq_true, decide_eq_true_eq]
      rcases hcases with h | h | h <;> subst h <;>
        exact ⟨⟨natChars_all_digits _, natChars_len_pos _⟩,
          (natChars_length_le_iff _ 2 (by omega)).mpr (by omega)⟩
    simp only [try_parse_date_like, hsp]
    rw [if_pos (by simp), if_pos hf0, if_pos hall]
    simp [digitsVal_natChars]
  · rw [if_neg hq]
    simp only [try_parse_date_like, hsp]
    rw [if_pos (by simp)]
    by_cases hf0 : all_digits (natChars y) = true ∧ 3 ≤ (natChars y).length ∧
        (natChars y).length ≤ 4
    · rw [if_pos hf0]
      by_cases hall : ((natChars m :: natChars d :: [natChars hv]).all
          fun f => all_digits f && decide (1 ≤ f.length) && decide (f.length ≤ 2)) = true
      · exfalso
        apply hq
        have hy1 : 100 ≤ y := by
          by_contra hc
          push_neg at hc
          have := (natChars_length_le_iff y 2 (by omega)).mpr (by omega)
          omega
        have hy2 : y ≤ 9999 := by
          have := (natChars_length_le_iff y 4 (by omega)).mp hf0.2.2
          omega
        have hmB : m ≤ 99 := by
          have h := List.all_eq_true.mp hall (natChars m) (by simp)
          simp only [Bool.and_eq_true, decide_eq_true_eq] at h
          have hlen : (natChars m).length ≤ 2 := by tauto
          have := (natChars_length_le_iff m 2 (by omega)).mp hlen
          omega
        have hdB : d ≤ 99 := by
          have h := List.all_eq_true.mp hall (natChars d) (by simp)
          simp only [Bool.and_eq_true, decide_eq_true_eq] at h
          have hlen : (natChars d).length ≤ 2 := by tauto
          have := (natChars_length_le_iff d 2 (by omega)).mp hlen
          omega
        have hhB : hv ≤ 99 := by
          have h := List.all_eq_true.mp hall (natChars hv) (by simp)
          simp only [Bool.and_eq_true, decide_eq_true_eq] at h
          have hlen : (natChars hv).length ≤ 2 := by tauto
          have := (natChars_length_le_iff hv 2 (by omega)).mp hlen
          omega
        unfold quotShape
        simp only [Bool.and_eq_true, decide_eq_true_eq]
        tauto
      · rw [if_neg hall]
    · rw [if_neg hf0]

theorem natChars_not_empty (n : Nat) : (natChars n).isEmpty = false := by
  cases h : natChars n with
  | nil => exact absurd h (natChars_ne_nil n)
  | cons a l => rfl

theorem digits_chars {l : List Char} (h : all_digits l = true) :
    ∀ c ∈ l, c.isDigit = true := by
  rw [all_digits, List.all_eq_true] at h
  intro c hc
  exact h c hc

theorem sign_chars {m : Int} {c : Char}
    (hc : c ∈ (if m < 0 then ['-'] else ([] : List Char))) : c = '-' := by
  by_cases hm : m < 0
  · rw [if_pos hm] at hc
    simpa using hc
  · rw [if_neg hm] at hc
    simp at hc

theorem bare_of_dd {l : List Char} (h : ∀ c ∈ l, c.isDigit = true ∨ c = '.' ∨ c = '-') :
    l.all isBare = true := by
  rw [List.all_eq_true]
  intro c hc
  rcases h c hc with hd | hd | hd
  · simp [isBare, hd]
  · subst hd
    decide
  · subst hd
    decide

theorem not_yesno {t : List Char} {c : Char} {cs : List Char}
    (ht : t = c :: cs) (hc : c.isDigit = true ∨ c = '-') :
    ¬(t = ['y', 'e', 's'] ∨ t = ['n', 'o']) := by
  have hcy : c ≠ 'y' ∧ c ≠ 'n' := by
    rcases hc with hd | hd
    · exact ⟨(digit_props hd).2.2.1, (digit_props hd).2.2.2.1⟩
    · subst hd
      exact ⟨by decide, by decide⟩
  subst ht
  rintro (h | h)
  · injection h with h1 h2
    exact hcy.1 h1
  · injection h with h1 h2
    exact hcy.2 h1

theorem classifyBare_num {t : List Char}
    (hhead : ∃ c cs, t = c :: cs ∧ (c.isDigit = true ∨ c = '-'))
    (hdate : dateShape t = false) (hnum : numShape t = true) :
    classifyBare t = .numTok t := by
  obtain ⟨c, cs, ht, hc⟩ := hhead
  have hyn := not_yesno ht hc
  unfold classifyBare
  rw [if_neg (by simp only [Bool.or_eq_true, decide_eq_true_eq]; exact hyn),
    if_neg (by simp [hdate]), if_pos hnum]

theorem classifyBare_date {t : List Char}
    (hhead : ∃ c cs, t = c :: cs ∧ (c.isDigit = true ∨ c = '-'))
    (hdate : dateShape t = true) : classifyBare t = .dateTok t := by
  obtain ⟨c, cs, ht, hc⟩ := hhead
  have hyn := not_yesno ht hc
  unfold classifyBare
  rw [if_neg (by simp only [Bool.or_eq_true, decide_eq_true_eq]; exact hyn), if_pos hdate]

theorem printDec_shape (q : Dec) :
    ∃ c cs, printDec q = c :: cs ∧ (c.isDigit = true ∨ c = '-') := by
  obtain ⟨m, e⟩ := q
  by_cases he : e = 0
  · subst he
    rw [printDec_zero]
    by_cases hm : m < 0
    · rw [if_pos hm]
      exact ⟨'-', natChars m.natAbs, rfl, Or.inr rfl⟩
    · rw [if_neg hm, List.nil_append]
      obtain ⟨c, cs, hcc, hd⟩ := natChars_head_digit m.natAbs
      exact ⟨c, cs, hcc, Or.inl hd⟩
  · rw [printDec_pos m e he]
    by_cases hm : m < 0
    · rw [if_pos hm]
      refine ⟨'-', natChars (m.natAbs / 10 ^ e) ++
        '.' :: padZeros e (natChars (m.natAbs % 10 ^ e)), ?_, Or.inr rfl⟩
      rfl
    · rw [if_neg hm, List.nil_append]
      obtain ⟨c, cs, hcc, hd⟩ := natChars_head_digit (m.natAbs / 10 ^ e)
      refine ⟨c, cs ++ '.' :: padZeros e (natChars (m.natAbs % 10 ^ e)), ?_, Or.inl hd⟩
      rw [hcc]
      rfl

theorem printDec_numShape (q : Dec) : numShape (printDec q) = true := by
  obtain ⟨m, e⟩ := q
  by_cases he : e = 0
  · subst he
    rw [printDec_zero]
    by_cases hm : m < 0
    · rw [if_pos hm]
      show numShape ('-' :: natChars m.natAbs) = true
      simp only [numShape]
      rw [if_pos trivial, splitDots_noDot (natChars_noDot m.natAbs)]
      simp [natChars_not_empty, natChars_all_digits]
    · rw [if_neg hm, List.nil_append]
      obtain ⟨c, cs, hcc, hd⟩ := natChars_head_digit m.natAbs
      rw [hcc]
      simp only [numShape]
      rw [if_neg (digit_ne_minus hd), ← hcc, splitDots_noDot (natChars_noDot m.natAbs)]
      simp [natChars_not_empty, natChars_all_digits]
  · rw [printDec_pos m e he]
    by_cases hm : m < 0
    · rw [if_pos hm]
      show numShape ('-' :: (natChars (m.natAbs / 10 ^ e) ++
        '.' :: padZeros e (natChars (m.natAbs % 10 ^ e)))) = true
      simp only [numShape]
      rw [if_pos trivial, splitDots_append (natChars_noDot _),
        splitDots_noDot (padZeros_noDot (natChars_all_digits _))]
      simp [natChars_not_empty, natChars_all_digits,
        padZeros_all_digits (natChars_all_digits _), List.isEmpty_iff,
        padZeros_ne_nil (natChars_ne_nil _)]
    · rw [if_neg hm, List.nil_append]
      obtain ⟨c, cs, hcc, hd⟩ := natChars_head_digit (m.natAbs / 10 ^ e)
      rw [hcc, List.cons_append]
      simp only [numShape]
      rw [if_neg (digit_ne_minus hd), ← List.cons_append, ← hcc,
        splitDots_append (natChars_noDot _),
        splitDots_noDot (padZeros_noDot (natChars_all_digits _))]
      simp [natChars_not_empty, natChars_all_digits,
        padZeros_all_digits (natChars_all_digits _), List.isEmpty_iff,
        padZeros_ne_nil (natChars_ne_nil _)]

theorem printDec_not_dateShape (q : Dec) : dateShape (printDec q) = false := by
  obtain ⟨m, e⟩ := q
  by_cases he : e = 0
  · subst he
    rw [printDec_zero]
    have hnd : noDot ((if m < 0 then ['-'] else []) ++ natChars m.natAbs) = true := by
      refine noDot_append ?_ (natChars_noDot _)
      by_cases hm : m < 0
      · rw [if_pos hm]
        decide
      · rw [if_neg hm]
        decide
    simp only [dateShape, splitDots_noDot hnd]
    rfl
  · rw [printDec_pos m e he]
    have hnd : noDot ((if m < 0 then ['-'] else []) ++ natChars (m.natAbs / 10 ^ e)) = true := by
      refine noDot_append ?_ (natChars_noDot _)
      by_cases hm : m < 0
      · rw [if_pos hm]
        decide
      · rw [if_neg hm]
        decide
    simp only [dateShape, splitDots_append hnd,
      splitDots_noDot (padZeros_noDot (natChars_all_digits _))]
    rfl

theorem classifyBare_printDec (q : Dec) :
    classifyBare (printDec q) = .numTok (printDec q) :=
  classifyBare_num (printDec_shape q) (printDec_not_dateShape q) (printDec_numShape q)

theorem printDec_chars (q : Dec) :
    ∀ c ∈ printDec q, c.isDigit = true ∨ c = '.' ∨ c = '-' := by
  obtain ⟨m, e⟩ := q
  intro c hc
  by_cases he : e = 0
  · subst he
    rw [printDec_zero] at hc
    rcases List.mem_append.mp hc with h | h
    · exact Or.inr (Or.inr (sign_chars h))
    · exact Or.inl (digits_chars (natChars_all_digits _) c h)
  · rw [printDec_pos m e he] at hc
    rcases List.mem_append.mp hc with h | h
    · rcases List.mem_append.mp h with h2 | h2
      · exact Or.inr (Or.inr (sign_chars h2))
      · exact Or.inl (digits_chars (natChars_all_digits _) c h2)
    · rcases List.mem_cons.mp h with h2 | h2
      · exact Or.inr (Or.inl h2)
      · exact Or.inl (digits_chars (padZeros_all_digits (natChars_all_digits _)) c h2)

theorem printDec_bare (q : Dec) : (printDec q).all isBare = true :=
  bare_of_dd (printDec_chars q)

theorem printDec_ne_nil (q : Dec) : printDec q ≠ [] := by
  obtain ⟨c, cs, hc, _⟩ := printDec_shape q
  rw [hc]
  intro h
  cases h

theorem fmt_date_none (y m d : Nat) :
    fmt_date ⟨y, m, d, none⟩ = natChars y ++ '.' :: natChars m ++ '.' :: natChars d := rfl

theorem fmt_date_dateShape (y m d : Nat) :
    dateShape (natChars y ++ '.' :: natChars m ++ '.' :: natChars d) = true := by
  simp only [dateShape]
  rw [List.append_assoc, List.cons_append, splitDots_append (natChars_noDot y),
    splitDots_append (natChars_noDot m), splitDots_noDot (natChars_noDot d)]
  simp [natChars_not_empty, natChars_all_digits]

theorem fmt_date_shape (y m d : Nat) :
    ∃ c cs, (natChars y ++ '.' :: natChars m ++ '.' :: natChars d) = c :: cs ∧
      (c.isDigit = true ∨ c = '-') := by
  obtain ⟨c, cs, hcc, hd⟩ := natChars_head_digit y
  refine ⟨c, cs ++ '.' :: natChars m ++ '.' :: natChars d, ?_, Or.inl hd⟩
  rw [hcc]
  rfl

theorem classifyBare_fmt_date (y m d : Nat) :
    classifyBare (natChars y ++ '.' :: natChars m ++ '.' :: natChars d) =
      .dateTok (natChars y ++ '.' :: natChars m ++ '.' :: natChars d) :=
  classifyBare_date (fmt_date_shape y m d) (fmt_date_dateShape y m d)

theorem fmt_date_chars (y m d : Nat) :
    ∀ c ∈ natChars y ++ '.' :: natChars m ++ '.' :: natChars d,
      c.isDigit = true ∨ c = '.' ∨ c = '-' := by
  intro c hc
  rcases List.mem_append.mp hc with h | h
  · rcases List.mem_append.mp h with h2 | h2
    · exact Or.inl (digits_chars (natChars_all_digits _) c h2)
    · rcases List.mem_cons.mp h2 with h3 | h3
      · exact Or.inr (Or.inl h3)
      · exact Or.inl (digits_chars (natChars_all_digits _) c h3)
  · rcases List.mem_cons.mp h with h2 | h2
    · exact Or.inr (Or.inl h2)
    · exact Or.inl (digits_chars (natChars_all_digits _) c h2)

theorem fmt_date_bare (y m d : Nat) :
    (natChars y ++ '.' :: natChars m ++ '.' :: natChars d).all isBare = true :=
  bare_of_dd (fmt_date_chars y m d)

theorem fmt_date_ne_nil (y m d : Nat) :
    natChars y ++ '.' :: natChars m ++ '.' :: natChars d ≠ [] := by
  obtain ⟨c, cs, hcc, _⟩ := fmt_date_shape y m d
  rw [hcc]
  intro h
  cases h

theorem ws_not_bare {c : Char} (h : isWs c = true) : isBare c = false := by
  unfold isWs at h
  simp only [Bool.or_eq_true, decide_eq_true_eq] at h
  rcases h with ((h | h) | h) | h <;> subst h <;> decide

theorem atom_relex {a : Atom} (ha : wfAtom a = true) {sep : Char} (hsep : isWs sep = true)
    (s : List Char) :
    lex (serialize_atom a ++ sep :: s) = (lex s).map fun ts => atomTok a :: ts := by
  cases a with
  | String c =>
    have ha2 : (strOk c && (try_parse_date_like c).isNone) = true := ha
    rw [Bool.and_eq_true] at ha2
    rw [show serialize_atom (.String c) ++ sep :: s = '"' :: (c ++ '"' :: sep :: s) from by
      show (('"' :: c) ++ ['"']) ++ sep :: s = _
      simp]
    rw [lex_quote ha2.1 (sep :: s), lex_cons_ws hsep]
    rfl
  | Ident t =>
    have ha2 : wfIdent t = true := ha
    simp only [wfIdent, Bool.and_eq_true] at ha2
    obtain ⟨⟨hne, hbare⟩, hcl⟩ := ha2
    have hclassify : classifyBare t = .identTok t := by simpa using hcl
    have hne2 : t ≠ [] := by
      intro h
      subst h
      simp at hne
    show lex (t ++ sep :: s) = _
    rw [lex_bareword hne2 hbare (ws_not_bare hsep) s, hclassify, lex_cons_ws hsep]
    rfl
  | Number q =>
    show lex (printDec q ++ sep :: s) = _
    rw [lex_bareword (printDec_ne_nil q) (printDec_bare q) (ws_not_bare hsep) s,
      classifyBare_printDec, lex_cons_ws hsep]
    rfl
  | Bool b =>
    cases b
    · show lex (['n', 'o'] ++ sep :: s) = _
      rw [lex_bareword (by decide) (by decide) (ws_not_bare hsep) s, lex_cons_ws hsep]
      rfl
    · show lex (['y', 'e', 's'] ++ sep :: s) = _
      rw [lex_bareword (by decide) (by decide) (ws_not_bare hsep) s, lex_cons_ws hsep]
      rfl
  | Date dt =>
    obtain ⟨y, m, d, h⟩ := dt
    cases h with
    | none =>
      show lex ((natChars y ++ '.' :: natChars m ++ '.' :: natChars d) ++ sep :: s) = _
      rw [lex_bareword (fmt_date_ne_nil y m d) (fmt_date_bare y m d) (ws_not_bare hsep) s,
        classifyBare_fmt_date, lex_cons_ws hsep]
      rfl
    | some hv =>
      rw [show serialize_atom (.Date ⟨y, m, d, some hv⟩) ++ sep :: s =
          '"' :: (hourDateChars y m d hv ++ '"' :: sep :: s) from by
        show (('"' :: hourDateChars y m d hv) ++ ['"']) ++ sep :: s = _
        simp]
      rw [lex_quote (hourDateChars_strOk y m d hv) (sep :: s), lex_cons_ws hsep]
      rfl

theorem key_relex {k : KeyAtom} (hk : wfKey k = true) (hnh : keyNoHour k = true)
    {sep : Char} (hsep : isWs sep = true) (s : List Char) :
    lex (serialize_key k ++ sep :: s) = (lex s).map fun ts => keyTok k :: ts := by
  cases k with
  | Ident t =>
    have hk2 : wfIdent t = true := hk
    simp only [wfIdent, Bool.and_eq_true] at hk2
    obtain ⟨⟨hne, hbare⟩, hcl⟩ := hk2
    have hclassify : classifyBare t = .identTok t := by simpa using hcl
    have hne2 : t ≠ [] := by
      intro h
      subst h
      simp at hne
    show lex (t ++ sep :: s) = _
    rw [lex_bareword hne2 hbare (ws_not_bare hsep) s, hclassify, lex_cons_ws hsep]
    rfl
  | Number q =>
    show lex (printDec q ++ sep :: s) = _
    rw [lex_bareword (printDec_ne_nil q) (printDec_bare q) (ws_not_bare hsep) s,
      classifyBare_printDec, lex_cons_ws hsep]
    rfl
  | Date dt =>
    obtain ⟨y, m, d, h⟩ := dt
    cases h with
    | none =>
      show lex ((natChars y ++ '.' :: natChars m ++ '.' :: natChars d) ++ sep :: s) = _
      rw [lex_bareword (fmt_date_ne_nil y m d) (fmt_date_bare y m d) (ws_not_bare hsep) s,
        classifyBare_fmt_date, lex_cons_ws hsep]
      rfl
    | some hv => cases hnh

theorem serialize_atom_ne_nil {a : Atom} (ha : wfAtom a = true) : serialize_atom a ≠ [] := by
  cases a with
  | String c =>
    show ('"' :: c) ++ ['"'] ≠ []
    simp
  | Ident t =>
    have ha2 : wfIdent t = true := ha
    simp only [wfIdent, Bool.and_eq_true] at ha2
    obtain ⟨⟨hne, _⟩, _⟩ := ha2
    show t ≠ []
    intro h
    subst h
    simp at hne
  | Number q => exact printDec_ne_nil q
  | Bool b =>
    cases b
    · show ['n', 'o'] ≠ []
      decide
    · show ['y', 'e', 's'] ≠ []
      decide
  | Date dt =>
    obtain ⟨y, m, d, h⟩ := dt
    cases h with
    | none => exact fmt_date_ne_nil y m d
    | some hv =>
      show ('"' :: hourDateChars y m d hv) ++ ['"'] ≠ []
      simp

theorem joinSp_snoc (xs : List (List Char)) (e : List Char) :
    joinSp (xs ++ [e]) = (if xs.isEmpty then e else joinSp xs ++ ' ' :: e) := by
  induction xs with
  | nil => rfl
  | cons x xs' ih =>
    cases xs' with
    | nil => rfl
    | cons w ws =>
      show x ++ ' ' :: joinSp ((w :: ws) ++ [e]) = (x ++ ' ' :: joinSp (w :: ws)) ++ ' ' :: e
      rw [ih]
      simp

theorem joinSp_ne_nil {xs : List (List Char)} (hne : xs ≠ []) (h : ∀ e ∈ xs, e ≠ []) :
    joinSp xs ≠ [] := by
  cases xs with
  | nil => exact absurd rfl hne
  | cons e xs' =>
    cases xs' with
    | nil => exact h e (by simp)
    | cons w ws =>
      show e ++ ' ' :: joinSp (w :: ws) ≠ []
      simp

theorem line_relex :
    ∀ {pre : List Atom}, pre.all wfAtom = true → pre ≠ [] →
    ∀ {sep : Char}, isWs sep = true → ∀ s : List Char,
      lex (joinSp (pre.map serialize_atom) ++ sep :: s) =
        (lex s).map fun ts => pre.map atomTok ++ ts := by
  intro pre
  induction pre with
  | nil =>
    intro _ hne
    exact absurd rfl hne
  | cons a pre' ih =>
    intro hpre _ sep hsep s
    rw [List.all_cons, Bool.and_eq_true] at hpre
    cases pre' with
    | nil =>
      show lex (serialize_atom a ++ sep :: s) = _
      rw [atom_relex hpre.1 hsep s]
      rfl
    | cons b pre'' =>
      show lex ((serialize_atom a ++
        ' ' :: joinSp ((b :: pre'').map serialize_atom)) ++ sep :: s) = _
      rw [List.append_assoc, List.cons_append,
        atom_relex hpre.1 (show isWs ' ' = true from by decide)
          (joinSp ((b :: pre'').map serialize_atom) ++ sep :: s),
        ih hpre.2 (by simp) hsep s]
      simp [List.map_map]
      rfl

theorem serialize_atoms_ne_nil {pre : List Atom} (hpre : pre.all wfAtom = true) :
    ∀ e ∈ pre.map serialize_atom, e ≠ [] := by
  intro e he
  simp only [List.mem_map] at he
  obtain ⟨x, hx, rfl⟩ := he
  exact serialize_atom_ne_nil (List.all_eq_true.mp hpre x hx)

theorem arr_relex (ind : Nat) :
    ∀ (arr : List Atom), arr ≠ [] → arr.all wfAtom = true →
    ∀ (pre : List Atom), pre.all wfAtom = true →
    ∀ s, lex (serializeArr ind (arr.map serialize_atom) (joinSp (pre.map serialize_atom)) ++ s)
      = (lex s).map fun ts => pre.map atomTok ++ (arr.map atomTok ++ ts) := by
  intro arr
  induction arr with
  | nil =>
    intro h
    exact absurd rfl h
  | cons a arr' ih =>
    intro _ hwf pre hpre s
    rw [List.all_cons, Bool.and_eq_true] at hwf
    obtain ⟨hwa, hwf'⟩ := hwf
    by_cases hl : pre = []
    · subst hl
      have hov : (!(joinSp (List.map serialize_atom ([] : List Atom))).isEmpty &&
          decide ((joinSp (List.map serialize_atom ([] : List Atom))).length + 1 +
            (serialize_atom a).length > 120)) = false := rfl
      cases arr' with
      | nil =>
        rw [show (([a] : List Atom).map serialize_atom) = [serialize_atom a] from rfl,
          serializeArr]
        simp [joinSp]
        rw [lex_spaces, atom_relex hwa (show isWs '\n' = true from by decide) s]
      | cons b arr'' =>
        rw [show ((a :: b :: arr'' : List Atom).map serialize_atom) =
          serialize_atom a :: serialize_atom b :: arr''.map serialize_atom from rfl,
          serializeArr]
        simp [joinSp]
        have hih := ih (by simp) hwf' [a] (by simp [hwa]) s
        rw [show joinSp (([a] : List Atom).map serialize_atom) = serialize_atom a
          from rfl] at hih
        rw [show (serialize_atom b :: arr''.map serialize_atom) =
          ((b :: arr'' : List Atom).map serialize_atom) from rfl, hih]
        rfl
    · have hmap_ne : pre.map serialize_atom ≠ [] := by simpa using hl
      have hline_ne : joinSp (pre.map serialize_atom) ≠ [] :=
        joinSp_ne_nil hmap_ne (serialize_atoms_ne_nil hpre)
      have hl2 : (joinSp (pre.map serialize_atom)).isEmpty = false := by
        cases hj : joinSp (pre.map serialize_atom) with
        | nil => exact absurd hj hline_ne
        | cons c cs => rfl
      by_cases hgt : (joinSp (pre.map serialize_atom)).length + 1 +
          (serialize_atom a).length > 120
      · have hov : (!(joinSp (pre.map serialize_atom)).isEmpty &&
            decide ((joinSp (pre.map serialize_atom)).length + 1 +
              (serialize_atom a).length > 120)) = true := by
          rw [hl2]
          simp [hgt]
        cases arr' with
        | nil =>
          rw [show (([a] : List Atom).map serialize_atom) = [serialize_atom a] from rfl,
            serializeArr]
          have hle : ¬((joinSp (pre.map serialize_atom)).length + 1 +
              (serialize_atom a).length ≤ 120) := by omega
          simp [hgt, hle, hline_ne]
          rw [lex_spaces,
            line_relex hpre hl (show isWs '\n' = true from by decide)
              (spaces (ind + 2) ++ (serialize_atom a ++ '\n' :: s)),
            lex_spaces, atom_relex hwa (show isWs '\n' = true from by decide) s]
          simp
          rfl
        | cons b arr'' =>
          rw [show ((a :: b :: arr'' : List Atom).map serialize_atom) =
            serialize_atom a :: serialize_atom b :: arr''.map serialize_atom from rfl,
            serializeArr]
          have hle : ¬((joinSp (pre.map serialize_atom)).length + 1 +
              (serialize_atom a).length ≤ 120) := by omega
          simp [hgt, hle, hline_ne]
          rw [lex_spaces,
            line_relex hpre hl (show isWs '\n' = true from by decide)
              (serializeArr ind (serialize_atom b :: arr''.map serialize_atom)
                (serialize_atom a) ++ s)]
          have hih := ih (by simp) hwf' [a] (by simp [hwa]) s
          rw [show joinSp (([a] : List Atom).map serialize_atom) = serialize_atom a
            from rfl] at hih
          rw [show (serialize_atom b :: arr''.map serialize_atom) =
            ((b :: arr'' : List Atom).map serialize_atom) from rfl, hih]
          simp
          rfl
      · have hov : (!(joinSp (pre.map serialize_atom)).isEmpty &&
            decide ((joinSp (pre.map serialize_atom)).length + 1 +
              (serialize_atom a).length > 120)) = false := by
          rw [hl2]
          simp [hgt]
        cases arr' with
        | nil =>
          rw [show (([a] : List Atom).map serialize_atom) = [serialize_atom a] from rfl,
            serializeArr]
          have hle : (joinSp (pre.map serialize_atom)).length + 1 +
              (serialize_atom a).length ≤ 120 := by omega
          simp [hgt, hle, hline_ne]
          rw [lex_spaces,
            line_relex hpre hl (show isWs ' ' = true from by decide)
              (serialize_atom a ++ '\n' :: s),
            atom_relex hwa (show isWs '\n' = true from by decide) s]
          simp
          rfl
        | cons b arr'' =>
          rw [show ((a :: b :: arr'' : List Atom).map serialize_atom) =
            serialize_atom a :: serialize_atom b :: arr''.map serialize_atom from rfl,
            serializeArr]
          have hle : (joinSp (pre.map serialize_atom)).length + 1 +
              (serialize_atom a).length ≤ 120 := by omega
          simp [hgt, hle, hline_ne]
          have hsnoc : joinSp ((pre ++ [a]).map serialize_atom) =
              joinSp (pre.map serialize_atom) ++ ' ' :: serialize_atom a := by
            rw [List.map_append,
              show List.map serialize_atom [a] = [serialize_atom a] from rfl,
              joinSp_snoc, if_neg (by simp [List.isEmpty_iff, hmap_ne])]
          rw [show joinSp (pre.map serialize_atom) ++ ' ' :: serialize_atom a =
            joinSp ((pre ++ [a]).map serialize_atom) from hsnoc.symm]
          have hih := ih (by simp) hwf' (pre ++ [a])
            (by simp [List.all_append, hpre, hwa]) s
          rw [show (serialize_atom b :: arr''.map serialize_atom) =
            ((b :: arr'' : List Atom).map serialize_atom) from rfl, hih]
          simp
mutual

theorem value_relex (v : Value) (hwf : wfValue v = true) (hnh : valueNoHourKey v = true)
    (hna : ∀ a, v ≠ .Atom a) (ind : Nat) (s : List Char) :
    lex (serialize_value v ind ++ s) = (lex s).map fun ts => valueToks v ++ ts := by
  cases v with
  | Atom a => exact absurd rfl (hna a)
  | Array arr =>
    have harr : arr.all wfAtom = true := hwf
    have hshape : serialize_value (.Array arr) ind ++ s =
        '{' :: '\n' :: (serializeArr ind (arr.map serialize_atom) [] ++
          (spaces ind ++ '}' :: '\n' :: s)) := by
      simp [serialize_value]
    rw [hshape, lex_lbrace, lex_newline]
    cases arr with
    | nil =>
      rw [show serializeArr ind (List.map serialize_atom ([] : List Atom)) [] = []
        from rfl, List.nil_append, lex_spaces, lex_rbrace, lex_newline]
      simp [valueToks, Function.comp_def]
    | cons a arr' =>
      have h := arr_relex ind (a :: arr') (by simp) harr [] rfl
        (spaces ind ++ '}' :: '\n' :: s)
      rw [show joinSp (List.map serialize_atom ([] : List Atom)) = [] from rfl] at h
      rw [h, lex_spaces, lex_rbrace, lex_newline]
      simp [valueToks, Function.comp_def]
  | Block items =>
    have hb : (!items.isEmpty && (items.all fun it => !isAtomicItem it) &&
        wfItems items) = true := hwf
    simp only [Bool.and_eq_true] at hb
    have hwi : wfItems items = true := by tauto
    have hni : itemsNoHourKey items = true := hnh
    have hshape : serialize_value (.Block items) ind ++ s =
        '{' :: '\n' :: (serializeItems items (ind + 4) ++
          (spaces ind ++ '}' :: '\n' :: s)) := by
      simp [serialize_value]
    rw [hshape, lex_lbrace, lex_newline,
      items_relex items hwi hni (ind + 4) (spaces ind ++ '}' :: '\n' :: s),
      lex_spaces, lex_rbrace, lex_newline]
    simp [valueToks, Function.comp_def]

theorem item_relex (it : Item) (hwf : wfItem it = true) (hnh : itemNoHourKey it = true)
    (ind : Nat) (s : List Char) :
    lex (serialize_item it ind ++ s) = (lex s).map fun ts => itemToks it ++ ts := by
  cases it with
  | Comment t =>
    have ht : wfComment t = true := hwf
    have hshape : serialize_item (.Comment t) ind ++ s =
        spaces ind ++ (t ++ '\n' :: s) := by
      simp [serialize_item]
    rw [hshape, lex_spaces, lex_comment ht s]
    rfl
  | ValueItem v =>
    have hv : wfValue v = true := hwf
    have hnv : valueNoHourKey v = true := hnh
    cases v with
    | Atom a =>
      have hshape : serialize_item (.ValueItem (.Atom a)) ind ++ s =
          spaces ind ++ (serialize_atom a ++ '\n' :: s) := by
        simp [serialize_item, serialize_value]
      rw [hshape, lex_spaces, atom_relex hv (show isWs '\n' = true from by decide) s]
      rfl
    | Array arr =>
      have hshape : serialize_item (.ValueItem (.Array arr)) ind ++ s =
          spaces ind ++ (serialize_value (.Array arr) ind ++ '\n' :: s) := by
        simp [serialize_item]
      rw [hshape, lex_spaces,
        value_relex (.Array arr) hv hnv (by intro a h; exact Value.noConfusion h) ind
          ('\n' :: s),
        lex_newline]
      rfl
    | Block items =>
      have hshape : serialize_item (.ValueItem (.Block items)) ind ++ s =
          spaces ind ++ (serialize_value (.Block items) ind ++ s) := by
        simp [serialize_item]
      rw [hshape, lex_spaces,
        value_relex (.Block items) hv hnv (by intro a h; exact Value.noConfusion h) ind s]
      rfl
  | Pair k op v =>
    have h2 : (wfKey k && wfValue v) = true := hwf
    rw [Bool.and_eq_true] at h2
    have h3 : (keyNoHour k && valueNoHourKey v) = true := hnh
    rw [Bool.and_eq_true] at h3
    cases v with
    | Atom a =>
      have hshape : serialize_item (.Pair k op (.Atom a)) ind ++ s =
          spaces ind ++ (serialize_key k ++ ' ' :: (opChars op ++ ' ' ::
            (serialize_atom a ++ '\n' :: s))) := by
        simp [serialize_item, serialize_value]
      rw [hshape, lex_spaces,
        key_relex h2.1 h3.1 (show isWs ' ' = true from by decide)
          (opChars op ++ ' ' :: (serialize_atom a ++ '\n' :: s)),
        lex_op op (serialize_atom a ++ '\n' :: s),
        atom_relex h2.2 (show isWs '\n' = true from by decide) s]
      simp
      try rfl
    | Array arr =>
      have hshape : serialize_item (.Pair k op (.Array arr)) ind ++ s =
          spaces ind ++ (serialize_key k ++ ' ' :: (opChars op ++ ' ' ::
            (serialize_value (.Array arr) ind ++ s))) := by
        simp [serialize_item]
      rw [hshape, lex_spaces,
        key_relex h2.1 h3.1 (show isWs ' ' = true from by decide)
          (opChars op ++ ' ' :: (serialize_value (.Array arr) ind ++ s)),
        lex_op op (serialize_value (.Array arr) ind ++ s),
        value_relex (.Array arr) h2.2 h3.2 (by intro a h; exact Value.noConfusion h) ind s]
      simp
      try rfl
    | Block items =>
      have hshape : serialize_item (.Pair k op (.Block items)) ind ++ s =
          spaces ind ++ (serialize_key k ++ ' ' :: (opChars op ++ ' ' ::
            (serialize_value (.Block items) ind ++ s))) := by
        simp [serialize_item]
      rw [hshape, lex_spaces,
        key_relex h2.1 h3.1 (show isWs ' ' = true from by decide)
          (opChars op ++ ' ' :: (serialize_value (.Block items) ind ++ s)),
        lex_op op (serialize_value (.Block items) ind ++ s),
        value_relex (.Block items) h2.2 h3.2
          (by intro a h; exact Value.noConfusion h) ind s]
      simp
      try rfl

theorem items_relex (items : List Item) (hwf : wfItems items = true)
    (hnh : itemsNoHourKey items = true) (ind : Nat) (s : List Char) :
    lex (serializeItems items ind ++ s) = (lex s).map fun ts => itemsToks items ++ ts := by
  cases items with
  | nil =>
    rw [show serializeItems [] ind = [] from rfl, List.nil_append]
    simp [itemsToks]
  | cons it rest =>
    have h2 : (wfItem it && wfItems rest) = true := hwf
    rw [Bool.and_eq_true] at h2
    have h3 : (itemNoHourKey it && itemsNoHourKey rest) = true := hnh
    rw [Bool.and_eq_true] at h3
    rw [show serializeItems (it :: rest) ind = serialize_item it ind ++
      serializeItems rest ind from rfl, List.append_assoc,
      item_relex it h2.1 h3.1 ind (serializeItems rest ind ++ s),
      items_relex rest h2.2 h3.2 ind s]
    simp [itemsToks, Function.comp_def]

end

theorem keyLeaf_keyTok (k : KeyAtom) : keyLeaf (keyTok k) = some (keyCst k) := by
  cases k <;> rfl

theorem atomTok_ne_op (a : Atom) : ∀ o, atomTok a ≠ Tok.opTok o := by
  cases a with
  | String c => intro o hc; cases hc
  | Ident t => intro o hc; cases hc
  | Number q => intro o hc; cases hc
  | Bool b => intro o hc; cases hc
  | Date dt =>
    obtain ⟨y, m, d, h⟩ := dt
    cases h <;> (intro o hc; cases hc)

theorem keyTok_ne_op (k : KeyAtom) : ∀ o, keyTok k ≠ Tok.opTok o := by
  cases k <;> (intro o hc; cases hc)

theorem pValue_atomTok (f : Nat) (a : Atom) (rest : List Tok) :
    pValue (f + 1) (atomTok a :: rest) = some (valueNode (atomCst a), rest) := by
  cases a with
  | String c => rfl
  | Ident t => rfl
  | Number q => rfl
  | Bool b => rfl
  | Date dt =>
    obtain ⟨y, m, d, h⟩ := dt
    cases h <;> rfl

theorem pValue_step_brace (f : Nat) {NEXT : List Tok} {is : List Cst} {r2 : List Tok}
    (hi : pItems f NEXT = some (is, Tok.rbrace :: r2)) :
    pValue (f + 1) (Tok.lbrace :: NEXT) = some (valueNode (blockNode is), r2) := by
  have hstep : pValue (f + 1) (Tok.lbrace :: NEXT) =
      (match pItems f NEXT with
       | some (is, .rbrace :: r2) => some (valueNode (blockNode is), r2)
       | _ => none) := rfl
  rw [hstep, hi]

theorem pItems_step_comment (f : Nat) (t : List Char) {NEXT : List Tok}
    {q1 : List Cst} {q2 : List Tok} (hq : pItems f NEXT = some (q1, q2)) :
    pItems (f + 1) (Tok.commentTok t :: NEXT) =
      some (itemNode (.node .comment t []) :: q1, q2) := by
  have hstep : pItems (f + 1) (Tok.commentTok t :: NEXT) =
      (match pItems f NEXT with
       | some q => some (itemNode (.node .comment t []) :: q.1, q.2)
       | none => none) := rfl
  rw [hstep, hq]

theorem pItems_step_pair (f : Nat) {tok : Tok} {kl : Cst} (hk : keyLeaf tok = some kl)
    (o : List Char) {rest2 : List Tok} {vc : Cst} {vrest : List Tok}
    (hv : pValue f rest2 = some (vc, vrest)) {q1 : List Cst} {q2 : List Tok}
    (hq : pItems f vrest = some (q1, q2)) :
    pItems (f + 1) (tok :: Tok.opTok o :: rest2) =
      some (itemNode (pairNode kl o vc) :: q1, q2) := by
  cases tok with
  | identTok t =>
    injection hk with h
    subst h
    have hstep : pItems (f + 1) (Tok.identTok t :: Tok.opTok o :: rest2) =
        (match pValue f rest2 with
         | some vr =>
           match pItems f vr.2 with
           | some q =>
             some (itemNode (pairNode (.node .identifier t []) o vr.1) :: q.1, q.2)
           | none => none
         | none => none) := rfl
    rw [hstep, hv]
    show (match pItems f vrest with
      | some q => some (itemNode (pairNode (.node .identifier t []) o vc) :: q.1, q.2)
      | none => none) = _
    rw [hq]
  | numTok t =>
    injection hk with h
    subst h
    have hstep : pItems (f + 1) (Tok.numTok t :: Tok.opTok o :: rest2) =
        (match pValue f rest2 with
         | some vr =>
           match pItems f vr.2 with
           | some q =>
             some (itemNode (pairNode (.node .number t []) o vr.1) :: q.1, q.2)
           | none => none
         | none => none) := rfl
    rw [hstep, hv]
    show (match pItems f vrest with
      | some q => some (itemNode (pairNode (.node .number t []) o vc) :: q.1, q.2)
      | none => none) = _
    rw [hq]
  | dateTok t =>
    injection hk with h
    subst h
    have hstep : pItems (f + 1) (Tok.dateTok t :: Tok.opTok o :: rest2) =
        (match pValue f rest2 with
         | some vr =>
           match pItems f vr.2 with
           | some q =>
             some (itemNode (pairNode (.node .date t []) o vr.1) :: q.1, q.2)
           | none => none
         | none => none) := rfl
    rw [hstep, hv]
    show (match pItems f vrest with
      | some q => some (itemNode (pairNode (.node .date t []) o vc) :: q.1, q.2)
      | none => none) = _
    rw [hq]
  | lbrace => exact Option.noConfusion hk
  | rbrace => exact Option.noConfusion hk
  | opTok t => exact Option.noConfusion hk
  | strTok c => exact Option.noConfusion hk
  | boolTok t => exact Option.noConfusion hk
  | commentTok t => exact Option.noConfusion hk

theorem pItems_step_bracehead (f : Nat) {NEXT : List Tok} {vc : Cst} {vrest : List Tok}
    (hv : pValue (f + 1) (Tok.lbrace :: NEXT) = some (vc, vrest))
    {q1 : List Cst} {q2 : List Tok} (hq : pItems (f + 1) vrest = some (q1, q2)) :
    pItems (f + 2) (Tok.lbrace :: NEXT) = some (itemNode vc :: q1, q2) := by
  have hstep : pItems (f + 2) (Tok.lbrace :: NEXT) =
      (match pValue (f + 1) (Tok.lbrace :: NEXT) with
       | some vr =>
         match pItems (f + 1) vr.2 with
         | some q => some (itemNode vr.1 :: q.1, q.2)
         | none => none
       | none => none) := rfl
  rw [hstep, hv]
  show (match pItems (f + 1) vrest with
    | some q => some (itemNode vc :: q.1, q.2)
    | none => none) = _
  rw [hq]

theorem pItems_wild_atom (f : Nat) (a : Atom) {NEXT : List Tok}
    {q1 : List Cst} {q2 : List Tok} (hq : pItems (f + 1) NEXT = some (q1, q2))
    (hstep : pItems (f + 2) (atomTok a :: NEXT) =
      (match pValue (f + 1) (atomTok a :: NEXT) with
       | some vr =>
         match pItems (f + 1) vr.2 with
         | some q => some (itemNode vr.1 :: q.1, q.2)
         | none => none
       | none => none)) :
    pItems (f + 2) (atomTok a :: NEXT) =
      some (itemNode (valueNode (atomCst a)) :: q1, q2) := by
  rw [hstep, pValue_atomTok f a NEXT]
  show (match pItems (f + 1) NEXT with
    | some q => some (itemNode (valueNode (atomCst a)) :: q.1, q.2)
    | none => none) = _
  rw [hq]

theorem pItems_step_atomhead (f : Nat) (a : Atom) {NEXT : List Tok}
    (hop : ∀ o r2, NEXT ≠ Tok.opTok o :: r2)
    {q1 : List Cst} {q2 : List Tok} (hq : pItems (f + 1) NEXT = some (q1, q2)) :
    pItems (f + 2) (atomTok a :: NEXT) =
      some (itemNode (valueNode (atomCst a)) :: q1, q2) := by
  cases a with
  | String c => exact pItems_wild_atom f (.String c) hq rfl
  | Bool b => exact pItems_wild_atom f (.Bool b) hq rfl
  | Ident t =>
    cases NEXT with
    | nil => exact pItems_wild_atom f (.Ident t) hq rfl
    | cons nt nr =>
      cases nt
      case opTok o => exact absurd rfl (hop o nr)
      all_goals exact pItems_wild_atom f (.Ident t) hq rfl
  | Number q =>
    cases NEXT with
    | nil => exact pItems_wild_atom f (.Number q) hq rfl
    | cons nt nr =>
      cases nt
      case opTok o => exact absurd rfl (hop o nr)
      all_goals exact pItems_wild_atom f (.Number q) hq rfl
  | Date dt =>
    obtain ⟨y, m, d, h⟩ := dt
    cases h with
    | some hv => exact pItems_wild_atom f (.Date ⟨y, m, d, some hv⟩) hq rfl
    | none =>
      cases NEXT with
      | nil => exact pItems_wild_atom f (.Date ⟨y, m, d, none⟩) hq rfl
      | cons nt nr =>
        cases nt
        case opTok o => exact absurd rfl (hop o nr)
        all_goals exact pItems_wild_atom f (.Date ⟨y, m, d, none⟩) hq rfl

theorem atoms_not_op (arr : List Atom) (rest : List Tok) :
    ∀ o r2, arr.map atomTok ++ Tok.rbrace :: rest ≠ Tok.opTok o :: r2 := by
  intro o r2 hc
  cases arr with
  | nil => cases hc
  | cons a arr' =>
    rw [show (a :: arr').map atomTok ++ Tok.rbrace :: rest =
      atomTok a :: (arr'.map atomTok ++ Tok.rbrace :: rest) from rfl] at hc
    injection hc with h1 _
    exact atomTok_ne_op a o h1

theorem itemsToks_not_op (more : List Item) (rest : List Tok)
    (hstop : rest = [] ∨ ∃ r2, rest = Tok.rbrace :: r2) :
    ∀ o r2, itemsToks more ++ rest ≠ Tok.opTok o :: r2 := by
  intro o r2 hc
  cases more with
  | nil =>
    rw [show itemsToks ([] : List Item) ++ rest = rest from rfl] at hc
    rcases hstop with h | ⟨r3, h⟩ <;> subst h
    · cases hc
    · cases hc
  | cons it more2 =>
    cases it with
    | Pair k op2 v =>
      rw [show itemsToks (.Pair k op2 v :: more2) ++ rest =
        keyTok k :: (Tok.opTok (opChars op2) :: (valueToks v ++ (itemsToks more2 ++ rest)))
        from by simp [itemsToks, itemToks]] at hc
      injection hc with h1 _
      exact keyTok_ne_op k o h1
    | ValueItem v =>
      cases v with
      | Atom a =>
        rw [show itemsToks (.ValueItem (.Atom a) :: more2) ++ rest =
          atomTok a :: (itemsToks more2 ++ rest)
          from by simp [itemsToks, itemToks, valueToks]] at hc
        injection hc with h1 _
        exact atomTok_ne_op a o h1
      | Array arr =>
        rw [show itemsToks (.ValueItem (.Array arr) :: more2) ++ rest =
          Tok.lbrace :: (arr.map atomTok ++ Tok.rbrace :: (itemsToks more2 ++ rest))
          from by simp [itemsToks, itemToks, valueToks]] at hc
        cases hc
      | Block items2 =>
        rw [show itemsToks (.ValueItem (.Block items2) :: more2) ++ rest =
          Tok.lbrace :: (itemsToks items2 ++ Tok.rbrace :: (itemsToks more2 ++ rest))
          from by simp [itemsToks, itemToks, valueToks]] at hc
        cases hc
    | Comment t =>
      rw [show itemsToks (.Comment t :: more2) ++ rest =
        Tok.commentTok t :: (itemsToks more2 ++ rest)
        from by simp [itemsToks, itemToks]] at hc
      cases hc

theorem pItems_atoms (arr : List Atom) (rest : List Tok) :
    ∀ fuel, 2 * arr.length + 2 ≤ fuel →
    pItems fuel (arr.map atomTok ++ Tok.rbrace :: rest) =
      some (arr.map fun a => itemNode (valueNode (atomCst a)), Tok.rbrace :: rest) := by
  induction arr with
  | nil =>
    intro fuel hf
    obtain ⟨g, rfl⟩ : ∃ g, fuel = g + 1 := ⟨fuel - 1, by omega⟩
    rfl
  | cons a arr' ih =>
    intro fuel hf
    obtain ⟨g, rfl⟩ : ∃ g, fuel = g + 2 := ⟨fuel - 2, by omega⟩
    rw [show ((a :: arr').map atomTok ++ Tok.rbrace :: rest) =
      atomTok a :: (arr'.map atomTok ++ Tok.rbrace :: rest) from rfl]
    rw [pItems_step_atomhead g a (atoms_not_op arr' rest)
      (ih (g + 1) (by simp only [List.length_cons] at hf; omega))]
    rfl

mutual

theorem pValue_toks (v : Value) (rest : List Tok) :
    ∀ fuel, 2 * (valueToks v ++ rest).length + 1 ≤ fuel →
    pValue fuel (valueToks v ++ rest) = some (valueCst v, rest) := by
  cases v with
  | Atom a =>
    intro fuel hf
    obtain ⟨g, rfl⟩ : ∃ g, fuel = g + 1 := ⟨fuel - 1, by omega⟩
    rw [show valueToks (.Atom a) ++ rest = atomTok a :: rest from rfl]
    exact pValue_atomTok g a rest
  | Array arr =>
    intro fuel hf
    obtain ⟨g, rfl⟩ : ∃ g, fuel = g + 1 := ⟨fuel - 1, by omega⟩
    rw [show valueToks (.Array arr) ++ rest =
      Tok.lbrace :: (arr.map atomTok ++ Tok.rbrace :: rest) from by simp [valueToks]]
    exact pValue_step_brace g (pItems_atoms arr rest g
      (by (simp [valueToks] at hf) <;> omega))
  | Block items =>
    intro fuel hf
    obtain ⟨g, rfl⟩ : ∃ g, fuel = g + 1 := ⟨fuel - 1, by omega⟩
    rw [show valueToks (.Block items) ++ rest =
      Tok.lbrace :: (itemsToks items ++ Tok.rbrace :: rest) from by simp [valueToks]]
    exact pValue_step_brace g (pItems_toks items (Tok.rbrace :: rest)
      (Or.inr ⟨rest, rfl⟩) g (by (simp [valueToks] at hf ⊢) <;> omega))

theorem pItems_toks (items : List Item) (rest : List Tok)
    (hstop : rest = [] ∨ ∃ r2, rest = Tok.rbrace :: r2) :
    ∀ fuel, 2 * (itemsToks items ++ rest).length + 2 ≤ fuel →
    pItems fuel (itemsToks items ++ rest) = some (itemsCst items, rest) := by
  cases items with
  | nil =>
    intro fuel hf
    obtain ⟨g, rfl⟩ : ∃ g, fuel = g + 1 := ⟨fuel - 1, by omega⟩
    rw [show itemsToks ([] : List Item) ++ rest = rest from rfl]
    rcases hstop with h | ⟨r2, h⟩ <;> subst h <;> rfl
  | cons it more =>
    intro fuel hf
    cases it with
    | Comment t =>
      obtain ⟨g, rfl⟩ : ∃ g, fuel = g + 1 := ⟨fuel - 1, by omega⟩
      rw [show itemsToks (.Comment t :: more) ++ rest =
        Tok.commentTok t :: (itemsToks more ++ rest) from by simp [itemsToks, itemToks]]
      exact pItems_step_comment g t (pItems_toks more rest hstop g
        (by (simp [itemsToks, itemToks] at hf ⊢) <;> omega))
    | Pair k op v =>
      obtain ⟨g, rfl⟩ : ∃ g, fuel = g + 1 := ⟨fuel - 1, by omega⟩
      rw [show itemsToks (.Pair k op v :: more) ++ rest =
        keyTok k :: Tok.opTok (opChars op) :: (valueToks v ++ (itemsToks more ++ rest))
        from by simp [itemsToks, itemToks]]
      exact pItems_step_pair g (keyLeaf_keyTok k) (opChars op)
        (pValue_toks v (itemsToks more ++ rest) g
          (by (simp [itemsToks, itemToks] at hf ⊢) <;> omega))
        (pItems_toks more rest hstop g
          (by (simp [itemsToks, itemToks] at hf ⊢) <;> omega))
    | ValueItem v =>
      cases v with
      | Atom a =>
        obtain ⟨g, rfl⟩ : ∃ g, fuel = g + 2 := ⟨fuel - 2, by omega⟩
        rw [show itemsToks (.ValueItem (.Atom a) :: more) ++ rest =
          atomTok a :: (itemsToks more ++ rest)
          from by simp [itemsToks, itemToks, valueToks]]
        exact pItems_step_atomhead g a (itemsToks_not_op more rest hstop)
          (pItems_toks more rest hstop (g + 1)
            (by (simp [itemsToks, itemToks, valueToks] at hf ⊢) <;> omega))
      | Array arr =>
        obtain ⟨g, rfl⟩ : ∃ g, fuel = g + 2 := ⟨fuel - 2, by omega⟩
        rw [show itemsToks (.ValueItem (.Array arr) :: more) ++ rest =
          Tok.lbrace :: (arr.map atomTok ++ Tok.rbrace :: (itemsToks more ++ rest))
          from by simp [itemsToks, itemToks, valueToks]]
        have hv := pValue_toks (.Array arr) (itemsToks more ++ rest) (g + 1)
          (by (simp [itemsToks, itemToks, valueToks] at hf ⊢) <;> omega)
        rw [show valueToks (.Array arr) ++ (itemsToks more ++ rest) =
          Tok.lbrace :: (arr.map atomTok ++ Tok.rbrace :: (itemsToks more ++ rest))
          from by simp [valueToks]] at hv
        exact pItems_step_bracehead g hv
          (pItems_toks more rest hstop (g + 1)
            (by (simp [itemsToks, itemToks, valueToks] at hf ⊢) <;> omega))
      | Block items2 =>
        obtain ⟨g, rfl⟩ : ∃ g, fuel = g + 2 := ⟨fuel - 2, by omega⟩
        rw [show itemsToks (.ValueItem (.Block items2) :: more) ++ rest =
          Tok.lbrace :: (itemsToks items2 ++ Tok.rbrace :: (itemsToks more ++ rest))
          from by simp [itemsToks, itemToks, valueToks]]
        have hv := pValue_toks (.Block items2) (itemsToks more ++ rest) (g + 1)
          (by (simp [itemsToks, itemToks, valueToks] at hf ⊢) <;> omega)
        rw [show valueToks (.Block items2) ++ (itemsToks more ++ rest) =
          Tok.lbrace :: (itemsToks items2 ++ Tok.rbrace :: (itemsToks more ++ rest))
          from by simp [valueToks]] at hv
        exact pItems_step_bracehead g hv
          (pItems_toks more rest hstop (g + 1)
            (by (simp [itemsToks, itemToks, valueToks] at hf ⊢) <;> omega))

end

theorem pFile_toks (items : List Item) :
    pFile (itemsToks items) = some (.node .file [] [.node .body [] (itemsCst items)]) := by
  unfold pFile
  have h := pItems_toks items [] (Or.inl rfl) (2 * (itemsToks items).length + 2)
    (by simp)
  rw [List.append_nil] at h
  rw [h]

theorem parse_date_str_fmt (y m d : Nat) (hy : y < 2 ^ 32) (hm : m < 2 ^ 8)
    (hd : d < 2 ^ 8) :
    parse_date_str (natChars y ++ '.' :: natChars m ++ '.' :: natChars d) =
      some ⟨y, m, d, none⟩ := by
  unfold parse_date_str
  rw [List.append_assoc, List.cons_append, splitDots_append (natChars_noDot y),
    splitDots_append (natChars_noDot m), splitDots_noDot (natChars_noDot d)]
  show (match parseNatBounded (natChars y) (2 ^ 32), parseNatBounded (natChars m) (2 ^ 8),
      parseNatBounded (natChars d) (2 ^ 8) with
    | some yv, some mv, some dv => some (⟨yv, mv, dv, none⟩ : Date)
    | _, _, _ => none) = _
  rw [parseNatBounded_natChars hy, parseNatBounded_natChars hm, parseNatBounded_natChars hd]

theorem parse_atom_atomCst (a : Atom) (ha : wfAtom a = true) :
    parse_atom (atomCst a) = some (normAtom a) := by
  cases a with
  | String c =>
    have ha2 : (strOk c && (try_parse_date_like c).isNone) = true := ha
    rw [Bool.and_eq_true] at ha2
    have hnone : try_parse_date_like c = none := by
      rcases htr : try_parse_date_like c with _ | dd
      · rfl
      · rw [htr] at ha2
        exact absurd ha2.2 (by simp)
    show (match try_parse_date_like c with
      | some dd => some (Atom.Date dd)
      | none => some (.String c)) = _
    rw [hnone]
    rfl
  | Ident t => rfl
  | Number q =>
    show (parseDec (printDec q)).map Atom.Number = _
    rw [parseDec_printDec ha]
    rfl
  | Bool b => cases b <;> rfl
  | Date dt =>
    obtain ⟨y, m, d, h⟩ := dt
    have ha2 : wfDate ⟨y, m, d, h⟩ = true := ha
    unfold wfDate at ha2
    simp only [Bool.and_eq_true, decide_eq_true_eq] at ha2
    have hy : y < 2 ^ 32 := by tauto
    have hm : m < 2 ^ 8 := by tauto
    have hd : d < 2 ^ 8 := by tauto
    cases h with
    | none =>
      show (parse_date_str (natChars y ++ '.' :: natChars m ++ '.' :: natChars d)).map
        Atom.Date = _
      rw [parse_date_str_fmt y m d hy hm hd]
      rfl
    | some hv =>
      show (match try_parse_date_like (hourDateChars y m d hv) with
        | some dd => some (Atom.Date dd)
        | none => some (.String (hourDateChars y m d hv))) = _
      rw [try_parse_hourDate y m d hv]
      by_cases hq : quotShape y m d hv = true
      · rw [if_pos hq]
        rw [show normAtom (.Date ⟨y, m, d, some hv⟩) =
          (if quotShape y m d hv then .Date ⟨y, m, d, some hv⟩
           else .String (hourDateChars y m d hv)) from rfl, if_pos hq]
      · rw [if_neg hq]
        rw [show normAtom (.Date ⟨y, m, d, some hv⟩) =
          (if quotShape y m d hv then .Date ⟨y, m, d, some hv⟩
           else .String (hourDateChars y m d hv)) from rfl, if_neg hq]

theorem parse_vc_atom (a : Atom) (ha : wfAtom a = true) :
    parse_value_concrete (atomCst a) = some (.Atom (normAtom a)) := by
  cases a with
  | String c =>
    rw [show parse_value_concrete (atomCst (.String c)) =
      (parse_atom (atomCst (.String c))).map .Atom from rfl,
      parse_atom_atomCst (.String c) ha]
    rfl
  | Ident t =>
    rw [show parse_value_concrete (atomCst (.Ident t)) =
      (parse_atom (atomCst (.Ident t))).map .Atom from rfl,
      parse_atom_atomCst (.Ident t) ha]
    rfl
  | Number q =>
    rw [show parse_value_concrete (atomCst (.Number q)) =
      (parse_atom (atomCst (.Number q))).map .Atom from rfl,
      parse_atom_atomCst (.Number q) ha]
    rfl
  | Bool b =>
    rw [show parse_value_concrete (atomCst (.Bool b)) =
      (parse_atom (atomCst (.Bool b))).map .Atom from rfl,
      parse_atom_atomCst (.Bool b) ha]
    rfl
  | Date dt =>
    obtain ⟨y, m, d, h⟩ := dt
    cases h with
    | none =>
      rw [show parse_value_concrete (atomCst (.Date ⟨y, m, d, none⟩)) =
        (parse_atom (atomCst (.Date ⟨y, m, d, none⟩))).map .Atom from rfl,
        parse_atom_atomCst (.Date ⟨y, m, d, none⟩) ha]
      rfl
    | some hv =>
      rw [show parse_value_concrete (atomCst (.Date ⟨y, m, d, some hv⟩)) =
        (parse_atom (atomCst (.Date ⟨y, m, d, some hv⟩))).map .Atom from rfl,
        parse_atom_atomCst (.Date ⟨y, m, d, some hv⟩) ha]
      rfl

theorem parse_key_keyCst (k : KeyAtom) (hk : wfKey k = true) (hnh : keyNoHour k = true) :
    parse_key (keyCst k) = some k := by
  cases k with
  | Ident t => rfl
  | Number q =>
    show (parseDec (printDec q)).map KeyAtom.Number = _
    rw [parseDec_printDec hk]
    rfl
  | Date dt =>
    obtain ⟨y, m, d, h⟩ := dt
    cases h with
    | some hv => cases hnh
    | none =>
      have hk2 : wfDate ⟨y, m, d, none⟩ = true := hk
      unfold wfDate at hk2
      simp only [Bool.and_eq_true, decide_eq_true_eq] at hk2
      have hy : y < 2 ^ 32 := by tauto
      have hm : m < 2 ^ 8 := by tauto
      have hd : d < 2 ^ 8 := by tauto
      show (parse_date_str (fmt_date ⟨y, m, d, none⟩)).map KeyAtom.Date = _
      rw [fmt_date_none, parse_date_str_fmt y m d hy hm hd]
      rfl

theorem parse_operator_opChars (op : Operator) :
    parse_operator (.node .operator (opChars op) []) = op := by
  cases op <;> rfl

theorem parse_items_atoms (arr : List Atom) (harr : arr.all wfAtom = true) :
    parse_items_list (arr.map fun a => itemNode (valueNode (atomCst a))) =
      some (arr.map fun a => Item.ValueItem (.Atom (normAtom a))) := by
  induction arr with
  | nil => rfl
  | cons a arr' ih =>
    rw [List.all_cons, Bool.and_eq_true] at harr
    rw [show (a :: arr').map (fun a => itemNode (valueNode (atomCst a))) =
      itemNode (valueNode (atomCst a)) ::
        arr'.map (fun a => itemNode (valueNode (atomCst a))) from rfl]
    rw [show parse_items_list (itemNode (valueNode (atomCst a)) ::
        arr'.map fun a => itemNode (valueNode (atomCst a))) =
      (match parse_item (itemNode (valueNode (atomCst a))),
          parse_items_list (arr'.map fun a => itemNode (valueNode (atomCst a))) with
       | some x, some l => some (x :: l)
       | _, _ => none) from rfl]
    have hone : parse_item (itemNode (valueNode (atomCst a))) =
        some (.ValueItem (.Atom (normAtom a))) := by
      rw [show parse_item (itemNode (valueNode (atomCst a))) =
        (match parse_value_concrete (atomCst a) with
         | none => none
         | some val => some (.ValueItem val)) from rfl,
        parse_vc_atom a harr.1]
    rw [hone, ih harr.2]
    rfl

theorem classify_atoms (l : List Atom) :
    classify_block (l.map fun a => Item.ValueItem (.Atom a)) = .Array l := by
  unfold classify_block
  rw [if_pos]
  · have hfm : ∀ (l2 : List Atom),
        (l2.map fun a => Item.ValueItem (.Atom a)).filterMap atomOf = l2 := by
      intro l2
      induction l2 with
      | nil => rfl
      | cons x xs ih => simp [List.filterMap_cons, atomOf, ih]
    rw [hfm]
  · rw [List.all_eq_true]
    intro x hx
    simp only [List.mem_map] at hx
    obtain ⟨a, _, rfl⟩ := hx
    rfl

theorem normItem_atomicity (it : Item) : isAtomicItem (normItem it) = isAtomicItem it := by
  cases it with
  | Comment t => rfl
  | Pair k op v => rfl
  | ValueItem v => cases v <;> rfl

theorem classify_nonatomic (L : List Item) (hne : L ≠ [])
    (hall : (L.all fun it => !isAtomicItem it) = true) :
    classify_block L = .Block L := by
  unfold classify_block
  rw [if_neg, List.filter_eq_self.mpr]
  · rw [List.all_eq_true] at hall
    exact hall
  · cases L with
    | nil => exact absurd rfl hne
    | cons x xs =>
      rw [List.all_cons, Bool.and_eq_true] at hall
      intro hc
      rw [List.all_cons, Bool.and_eq_true] at hc
      have h1 := hall.1
      have h2 := hc.1
      rw [h2] at h1
      cases h1

theorem normItems_eq_map (items : List Item) : normItems items = items.map normItem := by
  induction items with
  | nil => rfl
  | cons it rest ih => rw [show normItems (it :: rest) = normItem it :: normItems rest from rfl,
      ih, List.map_cons]

theorem normItems_ne_nil {items : List Item} (h : items ≠ []) : normItems items ≠ [] := by
  cases items with
  | nil => exact absurd rfl h
  | cons it rest =>
    rw [show normItems (it :: rest) = normItem it :: normItems rest from rfl]
    simp

theorem normItems_all_nonatomic {items : List Item}
    (h : (items.all fun it => !isAtomicItem it) = true) :
    ((normItems items).all fun it => !isAtomicItem it) = true := by
  rw [normItems_eq_map, List.all_eq_true]
  intro x hx
  simp only [List.mem_map] at hx
  obtain ⟨it, hit, rfl⟩ := hx
  rw [normItem_atomicity]
  rw [List.all_eq_true] at h
  exact h it hit

mutual

theorem walk_value (v : Value) (hwf : wfValue v = true) (hnh : valueNoHourKey v = true) :
    parse_pair_value (valueCst v) = some (normValue v) ∧
    parse_item (valueCst v) = some (.ValueItem (normValue v)) := by
  cases v with
  | Atom a =>
    have hcore : parse_value_concrete (atomCst a) = some (.Atom (normAtom a)) :=
      parse_vc_atom a hwf
    constructor
    · rw [show parse_pair_value (valueCst (.Atom a)) =
        parse_value_concrete (atomCst a) from rfl, hcore]
      rfl
    · rw [show parse_item (valueCst (.Atom a)) =
        (match parse_value_concrete (atomCst a) with
         | none => none
         | some val => some (.ValueItem val)) from rfl, hcore]
      rfl
  | Array arr =>
    have harr : arr.all wfAtom = true := hwf
    have hcore : parse_value_concrete
        (blockNode (arr.map fun a => itemNode (valueNode (atomCst a)))) =
        some (.Array (arr.map normAtom)) := by
      rw [show parse_value_concrete
          (blockNode (arr.map fun a => itemNode (valueNode (atomCst a)))) =
        (match parse_items_list (arr.map fun a => itemNode (valueNode (atomCst a))),
            parse_body_lists ([] : List Cst) with
         | some l1, some l2 => some (l1 ++ l2)
         | _, _ => none).map classify_block from rfl]
      rw [parse_items_atoms arr harr]
      show some (classify_block
        ((arr.map fun a => Item.ValueItem (.Atom (normAtom a))) ++ [])) = _
      rw [List.append_nil,
        show (arr.map fun a => Item.ValueItem (.Atom (normAtom a))) =
          ((arr.map normAtom).map fun a => Item.ValueItem (.Atom a)) from by
            rw [List.map_map]
            rfl,
        classify_atoms (arr.map normAtom)]
    constructor
    · rw [show parse_pair_value (valueCst (.Array arr)) =
        parse_value_concrete (blockNode (arr.map fun a => itemNode (valueNode (atomCst a))))
        from rfl, hcore]
      rfl
    · rw [show parse_item (valueCst (.Array arr)) =
        (match parse_value_concrete
            (blockNode (arr.map fun a => itemNode (valueNode (atomCst a)))) with
         | none => none
         | some val => some (.ValueItem val)) from rfl, hcore]
      rfl
  | Block items =>
    have hb : (!items.isEmpty && (items.all fun it => !isAtomicItem it) &&
        wfItems items) = true := hwf
    simp only [Bool.and_eq_true] at hb
    have hwi : wfItems items = true := by tauto
    have hall : (items.all fun it => !isAtomicItem it) = true := by tauto
    have hne : items ≠ [] := by
      have h1 : (!items.isEmpty) = true := by tauto
      intro hc
      subst hc
      simp at h1
    have hni : itemsNoHourKey items = true := hnh
    have hcore : parse_value_concrete (blockNode (itemsCst items)) =
        some (.Block (normItems items)) := by
      rw [show parse_value_concrete (blockNode (itemsCst items)) =
        (match parse_items_list (itemsCst items), parse_body_lists ([] : List Cst) with
         | some l1, some l2 => some (l1 ++ l2)
         | _, _ => none).map classify_block from rfl]
      rw [walk_items items hwi hni]
      show some (classify_block (normItems items ++ [])) = _
      rw [List.append_nil,
        classify_nonatomic (normItems items) (normItems_ne_nil hne)
          (normItems_all_nonatomic hall)]
    constructor
    · rw [show parse_pair_value (valueCst (.Block items)) =
        parse_value_concrete (blockNode (itemsCst items)) from rfl, hcore]
      rfl
    · rw [show parse_item (valueCst (.Block items)) =
        (match parse_value_concrete (blockNode (itemsCst items)) with
         | none => none
         | some val => some (.ValueItem val)) from rfl, hcore]
      rfl

theorem walk_item (it : Item) (hwf : wfItem it = true) (hnh : itemNoHourKey it = true) :
    parse_item (itemCst it) = some (normItem it) := by
  cases it with
  | Comment t => rfl
  | ValueItem v =>
    have h := (walk_value v hwf hnh).2
    rw [show parse_item (itemCst (.ValueItem v)) = parse_item (valueCst v) from rfl, h]
    rfl
  | Pair k op v =>
    have h2 : (wfKey k && wfValue v) = true := hwf
    rw [Bool.and_eq_true] at h2
    have h3 : (keyNoHour k && valueNoHourKey v) = true := hnh
    rw [Bool.and_eq_true] at h3
    rw [show parse_item (itemCst (.Pair k op v)) =
      (match parse_key (keyCst k) with
       | none => none
       | some key =>
         match parse_pair_value (valueCst v) with
         | none => none
         | some value =>
           some (.Pair key (parse_operator (.node .operator (opChars op) [])) value))
      from rfl]
    rw [parse_key_keyCst k h2.1 h3.1]
    show (match parse_pair_value (valueCst v) with
      | none => none
      | some value =>
        some (Item.Pair k (parse_operator (.node .operator (opChars op) [])) value)) = _
    rw [parse_operator_opChars op, (walk_value v h2.2 h3.2).1]
    rfl

theorem walk_items (items : List Item) (hwf : wfItems items = true)
    (hnh : itemsNoHourKey items = true) :
    parse_items_list (itemsCst items) = some (normItems items) := by
  cases items with
  | nil => rfl
  | cons it rest =>
    have h2 : (wfItem it && wfItems rest) = true := hwf
    rw [Bool.and_eq_true] at h2
    have h3 : (itemNoHourKey it && itemsNoHourKey rest) = true := hnh
    rw [Bool.and_eq_true] at h3
    rw [show parse_items_list (itemsCst (it :: rest)) =
      (match parse_item (itemCst it), parse_items_list (itemsCst rest) with
       | some x, some l => some (x :: l)
       | _, _ => none) from rfl]
    rw [walk_item it h2.1 h3.1, walk_items rest h2.2 h3.2]
    rfl

end

theorem walk_file (items : List Item) (hwf : wfItems items = true)
    (hnh : itemsNoHourKey items = true) :
    parse_file (.node .file [] [.node .body [] (itemsCst items)]) =
      some (normItems items) := by
  rw [show parse_file (.node .file [] [.node .body [] (itemsCst items)]) =
    (match parse_items_list (itemsCst items), parse_body_lists ([] : List Cst) with
     | some l1, some l2 => some (l1 ++ l2)
     | _, _ => none) from rfl]
  rw [walk_items items hwf hnh]
  show some (normItems items ++ []) = _
  rw [List.append_nil]

theorem serialize_atom_norm (a : Atom) : serialize_atom (normAtom a) = serialize_atom a := by
  cases a with
  | String c => rfl
  | Ident t => rfl
  | Number q => rfl
  | Bool b => rfl
  | Date dt =>
    obtain ⟨y, m, d, h⟩ := dt
    cases h with
    | none => rfl
    | some hv =>
      show serialize_atom (if quotShape y m d hv then Atom.Date ⟨y, m, d, some hv⟩
        else .String (hourDateChars y m d hv)) = _
      by_cases hq : quotShape y m d hv = true
      · rw [if_pos hq]
      · rw [if_neg hq]
        rfl

theorem map_serialize_norm (arr : List Atom) :
    (arr.map normAtom).map serialize_atom = arr.map serialize_atom := by
  induction arr with
  | nil => rfl
  | cons a arr' ih =>
    show serialize_atom (normAtom a) :: (arr'.map normAtom).map serialize_atom = _
    rw [serialize_atom_norm a, ih]
    rfl

mutual

theorem serialize_value_norm (v : Value) (ind : Nat) :
    serialize_value (normValue v) ind = serialize_value v ind := by
  cases v with
  | Atom a =>
    show serialize_atom (normAtom a) = serialize_atom a
    exact serialize_atom_norm a
  | Array arr =>
    show '{' :: '\n' :: serializeArr ind ((arr.map normAtom).map serialize_atom) []
        ++ spaces ind ++ ['}', '\n'] = _
    rw [map_serialize_norm arr]
    rfl
  | Block items =>
    show '{' :: '\n' :: serializeItems (normItems items) (ind + 4)
        ++ spaces ind ++ ['}', '\n'] = _
    rw [serializeItems_norm items (ind + 4)]
    rfl

theorem serialize_item_norm (it : Item) (ind : Nat) :
    serialize_item (normItem it) ind = serialize_item it ind := by
  cases it with
  | Comment t => rfl
  | Pair k op v =>
    cases v with
    | Atom a =>
      show spaces ind ++ serialize_key k ++ ' ' :: opChars op ++ ' ' ::
          (serialize_value (normValue (.Atom a)) ind ++ ['\n']) = _
      rw [serialize_value_norm (.Atom a) ind]
      rfl
    | Array arr =>
      show spaces ind ++ serialize_key k ++ ' ' :: opChars op ++ ' ' ::
          (serialize_value (normValue (.Array arr)) ind ++ []) = _
      rw [serialize_value_norm (.Array arr) ind]
      rfl
    | Block items =>
      show spaces ind ++ serialize_key k ++ ' ' :: opChars op ++ ' ' ::
          (serialize_value (normValue (.Block items)) ind ++ []) = _
      rw [serialize_value_norm (.Block items) ind]
      rfl
  | ValueItem v =>
    cases v with
    | Atom a =>
      show spaces ind ++ (serialize_value (normValue (.Atom a)) ind ++ ['\n']) = _
      rw [serialize_value_norm (.Atom a) ind]
      rfl
    | Array arr =>
      show spaces ind ++ (serialize_value (normValue (.Array arr)) ind ++ ['\n']) = _
      rw [serialize_value_norm (.Array arr) ind]
      rfl
    | Block items =>
      show spaces ind ++ (serialize_value (normValue (.Block items)) ind ++ []) = _
      rw [serialize_value_norm (.Block items) ind]
      rfl

theorem serializeItems_norm (items : List Item) (ind : Nat) :
    serializeItems (normItems items) ind = serializeItems items ind := by
  cases items with
  | nil => rfl
  | cons it rest =>
    show serialize_item (normItem it) ind ++ serializeItems (normItems rest) ind = _
    rw [serialize_item_norm it ind, serializeItems_norm rest ind]
    rfl

end

theorem wfComment_hash (body : List Char) (h : (body.all fun x => x ≠ '\n') = true) :
    wfComment ('#' :: body) = true := by
  have h2 : ∀ x ∈ body, ¬x = '\n' := by
    intro x hx
    have h3 := List.all_eq_true.mp h x hx
    simpa using h3
  unfold wfComment
  simp
  exact h2

theorem wfTok_classifyBare {t : List Char} (hne : t ≠ []) (hbare : t.all isBare = true) :
    wfTok (classifyBare t) = true := by
  unfold classifyBare
  split_ifs with h1 h2 h3
  · rfl
  · rfl
  · rfl
  · show wfIdent t = true
    unfold wfIdent
    simp only [Bool.and_eq_true]
    refine ⟨⟨?_, hbare⟩, ?_⟩
    · cases t with
      | nil => exact absurd rfl hne
      | cons a l => rfl
    · rw [decide_eq_true_eq]
      unfold classifyBare
      rw [if_neg h1, if_neg h2, if_neg h3]

theorem parseNatBounded_lt {t : List Char} {b v : Nat} (h : parseNatBounded t b = some v) :
    v < b := by
  unfold parseNatBounded at h
  by_cases hc : t ≠ [] ∧ all_digits t = true ∧ digitsVal t < b
  · rw [if_pos hc] at h
    injection h with h
    subst h
    exact hc.2.2
  · rw [if_neg hc] at h
    exact Option.noConfusion h

theorem pdBody_wf {neg : Bool} {u : List Char} {q : Dec} (h : pdBody neg u = some q) :
    wfDec q = true := by
  unfold pdBody at h
  rcases hsp : splitDots u with _ | ⟨ip, _ | ⟨fp, _ | ⟨x, xs⟩⟩⟩ <;> rw [hsp] at h
  · exact Option.noConfusion h
  · have h2 : (if ip ≠ [] ∧ all_digits ip = true then
        some (stripZeros (if neg = true then -(digitsVal ip : Int)
          else (digitsVal ip : Int)) 0)
      else none) = some q := h
    by_cases hc : ip ≠ [] ∧ all_digits ip = true
    · rw [if_pos hc] at h2
      injection h2 with h2
      subst h2
      exact wfDec_stripZeros 0 _
    · rw [if_neg hc] at h2
      exact Option.noConfusion h2
  · have h2 : (if ip ≠ [] ∧ all_digits ip = true ∧ fp ≠ [] ∧ all_digits fp = true then
        some (stripZeros
          (if neg = true then -((digitsVal ip * 10 ^ fp.length + digitsVal fp : Nat) : Int)
           else ((digitsVal ip * 10 ^ fp.length + digitsVal fp : Nat) : Int))
          fp.length)
      else none) = some q := h
    by_cases hc : ip ≠ [] ∧ all_digits ip = true ∧ fp ≠ [] ∧ all_digits fp = true
    · rw [if_pos hc] at h2
      injection h2 with h2
      subst h2
      exact wfDec_stripZeros fp.length _
    · rw [if_neg hc] at h2
      exact Option.noConfusion h2
  · exact Option.noConfusion h

theorem parseDec_wf {t : List Char} {q : Dec} (h : parseDec t = some q) : wfDec q = true := by
  unfold parseDec at h
  cases t with
  | nil => exact pdBody_wf h
  | cons c r =>
    have h2 : (if c = '-' then pdBody true r else pdBody false (c :: r)) = some q := h
    by_cases hc : c = '-'
    · rw [if_pos hc] at h2
      exact pdBody_wf h2
    · rw [if_neg hc] at h2
      exact pdBody_wf h2

theorem parse_date_str_wf {t : List Char} {dt : Date} (h : parse_date_str t = some dt) :
    wfDate dt = true := by
  unfold parse_date_str at h
  rcases hsp : splitDots t with _ | ⟨f0, _ | ⟨f1, _ | ⟨f2, rest⟩⟩⟩ <;> rw [hsp] at h
  · exact Option.noConfusion h
  · exact Option.noConfusion h
  · exact Option.noConfusion h
  rcases rest with _ | ⟨hf, rest2⟩
  · have h2 : (match parseNatBounded f0 (2 ^ 32), parseNatBounded f1 (2 ^ 8),
        parseNatBounded f2 (2 ^ 8) with
      | some yv, some mv, some dv => some (⟨yv, mv, dv, none⟩ : Date)
      | _, _, _ => none) = some dt := h
    cases hy : parseNatBounded f0 (2 ^ 32) with
    | none =>
      rw [hy] at h2
      exact Option.noConfusion h2
    | some yv =>
      rw [hy] at h2
      cases hm : parseNatBounded f1 (2 ^ 8) with
      | none =>
        rw [hm] at h2
        exact Option.noConfusion h2
      | some mv =>
        rw [hm] at h2
        cases hd : parseNatBounded f2 (2 ^ 8) with
        | none =>
          rw [hd] at h2
          exact Option.noConfusion h2
        | some dv =>
          rw [hd] at h2
          have h3 : some (⟨yv, mv, dv, none⟩ : Date) = some dt := h2
          injection h3 with h3
          subst h3
          show (decide (yv < 2 ^ 32) && decide (mv < 2 ^ 8) && decide (dv < 2 ^ 8) &&
            true) = true
          simp only [Bool.and_eq_true, decide_eq_true_eq]
          exact ⟨⟨⟨parseNatBounded_lt hy, parseNatBounded_lt hm⟩,
            parseNatBounded_lt hd⟩, trivial⟩
  · have h2 : (match parseNatBounded f0 (2 ^ 32), parseNatBounded f1 (2 ^ 8),
        parseNatBounded f2 (2 ^ 8) with
      | some yv, some mv, some dv =>
        (parseNatBounded hf (2 ^ 8)).map fun hv => (⟨yv, mv, dv, some hv⟩ : Date)
      | _, _, _ => none) = some dt := h
    cases hy : parseNatBounded f0 (2 ^ 32) with
    | none =>
      rw [hy] at h2
      exact Option.noConfusion h2
    | some yv =>
      rw [hy] at h2
      cases hm : parseNatBounded f1 (2 ^ 8) with
      | none =>
        rw [hm] at h2
        exact Option.noConfusion h2
      | some mv =>
        rw [hm] at h2
        cases hd : parseNatBounded f2 (2 ^ 8) with
        | none =>
          rw [hd] at h2
          exact Option.noConfusion h2
        | some dv =>
          rw [hd] at h2
          have h3 : (parseNatBounded hf (2 ^ 8)).map
              (fun hv => (⟨yv, mv, dv, some hv⟩ : Date)) = some dt := h2
          cases hh : parseNatBounded hf (2 ^ 8) with
          | none =>
            rw [hh] at h3
            exact Option.noConfusion h3
          | some hv =>
            rw [hh] at h3
            injection h3 with h3
            subst h3
            show (decide (yv < 2 ^ 32) && decide (mv < 2 ^ 8) && decide (dv < 2 ^ 8) &&
              decide (hv < 2 ^ 8)) = true
            simp only [Bool.and_eq_true, decide_eq_true_eq]
            exact ⟨⟨⟨parseNatBounded_lt hy, parseNatBounded_lt hm⟩,
              parseNatBounded_lt hd⟩, parseNatBounded_lt hh⟩

theorem heur_wf {c : List Char} {dt : Date} (h : try_parse_date_like c = some dt) :
    wfDate dt = true := by
  unfold try_parse_date_like at h
  rcases hsp : splitDots c with _ | ⟨f0, _ | ⟨f1, _ | ⟨f2, rest⟩⟩⟩ <;> rw [hsp] at h
  · exact Option.noConfusion h
  · exact Option.noConfusion h
  · exact Option.noConfusion h
  have hylem : all_digits f0 = true → f0.length ≤ 4 → digitsVal f0 < 2 ^ 32 := by
    intro hdig hlen
    have hbound := digitsVal_bound hdig
    have hle : 10 ^ f0.length ≤ 10 ^ 4 := Nat.pow_le_pow_right (by norm_num) hlen
    have e1 : (10 : Nat) ^ 4 = 10000 := by norm_num
    have e2 : (2 : Nat) ^ 32 = 4294967296 := by norm_num
    omega
  have hflem : ∀ fl : List Char, all_digits fl = true → fl.length ≤ 2 →
      digitsVal fl < 2 ^ 8 := by
    intro fl hdig hlen
    have hbound := digitsVal_bound hdig
    have hle : 10 ^ fl.length ≤ 10 ^ 2 := Nat.pow_le_pow_right (by norm_num) hlen
    have e1 : (10 : Nat) ^ 2 = 100 := by norm_num
    have e2 : (2 : Nat) ^ 8 = 256 := by norm_num
    omega
  rcases rest with _ | ⟨f3, rest2⟩
  · have h2 : (if ([] : List (List Char)).length ≤ 1 then
        if all_digits f0 = true ∧ 3 ≤ f0.length ∧ f0.length ≤ 4 then
          if ([f1, f2] : List (List Char)).all
              (fun fl => all_digits fl && decide (1 ≤ fl.length) && decide (fl.length ≤ 2)) then
            some (⟨digitsVal f0, digitsVal f1, digitsVal f2, none⟩ : Date)
          else none
        else none
      else none) = some dt := h
    rw [if_pos (by simp)] at h2
    by_cases hf0 : all_digits f0 = true ∧ 3 ≤ f0.length ∧ f0.length ≤ 4
    case neg =>
      rw [if_neg hf0] at h2
      exact Option.noConfusion h2
    rw [if_pos hf0] at h2
    by_cases hall : (([f1, f2] : List (List Char)).all
        fun fl => all_digits fl && decide (1 ≤ fl.length) && decide (fl.length ≤ 2)) = true
    case neg =>
      rw [if_neg hall] at h2
      exact Option.noConfusion h2
    rw [if_pos hall] at h2
    injection h2 with h2
    subst h2
    have hb : ∀ fl ∈ ([f1, f2] : List (List Char)), digitsVal fl < 2 ^ 8 := by
      intro fl hmem
      have hfl := List.all_eq_true.mp hall fl hmem
      simp only [Bool.and_eq_true, decide_eq_true_eq] at hfl
      exact hflem fl (by tauto) (by tauto)
    have e1 := hb f1 (by simp)
    have e2 := hb f2 (by simp)
    show (decide (digitsVal f0 < 2 ^ 32) && decide (digitsVal f1 < 2 ^ 8) &&
      decide (digitsVal f2 < 2 ^ 8) && true) = true
    simp only [Bool.and_eq_true, decide_eq_true_eq]
    exact ⟨⟨⟨hylem hf0.1 hf0.2.2, e1⟩, e2⟩, trivial⟩
  · have h2 : (if (f3 :: rest2).length ≤ 1 then
        if all_digits f0 = true ∧ 3 ≤ f0.length ∧ f0.length ≤ 4 then
          if ((f1 :: f2 :: f3 :: rest2).all
              (fun fl => all_digits fl && decide (1 ≤ fl.length) && decide (fl.length ≤ 2))) then
            some (⟨digitsVal f0, digitsVal f1, digitsVal f2, some (digitsVal f3)⟩ : Date)
          else none
        else none
      else none) = some dt := h
    by_cases hlen : (f3 :: rest2).length ≤ 1
    case neg =>
      rw [if_neg hlen] at h2
      exact Option.noConfusion h2
    rw [if_pos hlen] at h2
    by_cases hf0 : all_digits f0 = true ∧ 3 ≤ f0.length ∧ f0.length ≤ 4
    case neg =>
      rw [if_neg hf0] at h2
      exact Option.noConfusion h2
    rw [if_pos hf0] at h2
    by_cases hall : ((f1 :: f2 :: f3 :: rest2).all
        fun fl => all_digits fl && decide (1 ≤ fl.length) && decide (fl.length ≤ 2)) = true
    case neg =>
      rw [if_neg hall] at h2
      exact Option.noConfusion h2
    rw [if_pos hall] at h2
    injection h2 with h2
    subst h2
    have hb : ∀ fl ∈ (f1 :: f2 :: f3 :: rest2), digitsVal fl < 2 ^ 8 := by
      intro fl hmem
      have hfl := List.all_eq_true.mp hall fl hmem
      simp only [Bool.and_eq_true, decide_eq_true_eq] at hfl
      exact hflem fl (by tauto) (by tauto)
    have e1 := hb f1 (by simp)
    have e2 := hb f2 (by simp)
    have e3 := hb f3 (by simp)
    show (decide (digitsVal f0 < 2 ^ 32) && decide (digitsVal f1 < 2 ^ 8) &&
      decide (digitsVal f2 < 2 ^ 8) && decide (digitsVal f3 < 2 ^ 8)) = true
    simp only [Bool.and_eq_true, decide_eq_true_eq]
    exact ⟨⟨⟨hylem hf0.1 hf0.2.2, e1⟩, e2⟩, e3⟩

theorem wf_parse_atom {tok : Tok} {leaf : Cst} (hw : wfTok tok = true)
    (ha : atomLeaf tok = some leaf) {a : Atom} (hp : parse_atom leaf = some a) :
    wfAtom a = true := by
  cases tok with
  | strTok cc =>
    injection ha with ha
    subst ha
    have hcast : (match try_parse_date_like cc with
      | some dd => some (Atom.Date dd)
      | none => some (.String cc)) = some a := hp
    cases htr : try_parse_date_like cc with
    | some dd =>
      rw [htr] at hcast
      injection hcast with hcast
      subst hcast
      exact heur_wf htr
    | none =>
      rw [htr] at hcast
      injection hcast with hcast
      subst hcast
      show (strOk cc && (try_parse_date_like cc).isNone) = true
      rw [htr]
      have hs : strOk cc = true := hw
      rw [hs]
      rfl
  | identTok t =>
    injection ha with ha
    subst ha
    have hcast : some (Atom.Ident t) = some a := hp
    injection hcast with hcast
    subst hcast
    exact hw
  | numTok t =>
    injection ha with ha
    subst ha
    have hcast : (parseDec t).map Atom.Number = some a := hp
    cases hd : parseDec t with
    | none =>
      rw [hd] at hcast
      exact Option.noConfusion hcast
    | some q =>
      rw [hd] at hcast
      injection hcast with hcast
      subst hcast
      exact parseDec_wf hd
  | dateTok t =>
    injection ha with ha
    subst ha
    have hcast : (parse_date_str t).map Atom.Date = some a := hp
    cases hd : parse_date_str t with
    | none =>
      rw [hd] at hcast
      exact Option.noConfusion hcast
    | some dtv =>
      rw [hd] at hcast
      injection hcast with hcast
      subst hcast
      exact parse_date_str_wf hd
  | boolTok t =>
    injection ha with ha
    subst ha
    have hcast : some (Atom.Bool (t = ['y', 'e', 's'])) = some a := hp
    injection hcast with hcast
    subst hcast
    rfl
  | lbrace => exact Option.noConfusion ha
  | rbrace => exact Option.noConfusion ha
  | opTok t => exact Option.noConfusion ha
  | commentTok t => exact Option.noConfusion ha

theorem wf_parse_key {tok : Tok} {kl : Cst} (hw : wfTok tok = true)
    (hk : keyLeaf tok = some kl) {k : KeyAtom} (hp : parse_key kl = some k) :
    wfKey k = true := by
  cases tok with
  | identTok t =>
    injection hk with hk
    subst hk
    have hcast : some (KeyAtom.Ident t) = some k := hp
    injection hcast with hcast
    subst hcast
    exact hw
  | numTok t =>
    injection hk with hk
    subst hk
    have hcast : (parseDec t).map KeyAtom.Number = some k := hp
    cases hd : parseDec t with
    | none =>
      rw [hd] at hcast
      exact Option.noConfusion hcast
    | some q =>
      rw [hd] at hcast
      injection hcast with hcast
      subst hcast
      exact parseDec_wf hd
  | dateTok t =>
    injection hk with hk
    subst hk
    have hcast : (parse_date_str t).map KeyAtom.Date = some k := hp
    cases hd : parse_date_str t with
    | none =>
      rw [hd] at hcast
      exact Option.noConfusion hcast
    | some dtv =>
      rw [hd] at hcast
      injection hcast with hcast
      subst hcast
      exact parse_date_str_wf hd
  | lbrace => exact Option.noConfusion hk
  | rbrace => exact Option.noConfusion hk
  | opTok t => exact Option.noConfusion hk
  | strTok c => exact Option.noConfusion hk
  | boolTok t => exact Option.noConfusion hk
  | commentTok t => exact Option.noConfusion hk

theorem scanStr_strOk :
    ∀ (r : List Char) (q : List Char × List Char), scanStr r = some q → strOk q.1 = true
  | [], q, h => by
    rw [scanStr_nil] at h
    exact Option.noConfusion h
  | c :: r, q, h => by
    rw [scanStr_cons] at h
    by_cases hq : c = '"'
    · rw [if_pos hq] at h
      injection h with h
      subst h
      rfl
    · rw [if_neg hq] at h
      by_cases hb : c = '\\'
      · rw [if_pos hb] at h
        cases r with
        | nil => exact Option.noConfusion h
        | cons x r2 =>
          have h2 : (scanStr r2).map (fun q => ('\\' :: x :: q.1, q.2)) = some q := h
          cases hs : scanStr r2 with
          | none =>
            rw [hs] at h2
            exact Option.noConfusion h2
          | some q2 =>
            rw [hs] at h2
            injection h2 with h2
            subst h2
            subst hb
            exact scanStr_strOk r2 q2 hs
      · rw [if_neg hb] at h
        cases hs : scanStr r with
        | none =>
          rw [hs] at h
          exact Option.noConfusion h
        | some q2 =>
          rw [hs] at h
          injection h with h
          subst h
          show strOk (c :: q2.1) = true
          rw [strOk_cons, if_neg hq, if_neg hb]
          exact scanStr_strOk r q2 hs

theorem all_wfTok_cons {t : Tok} {ts : List Tok} (h1 : wfTok t = true)
    (h2 : ts.all wfTok = true) : ((t :: ts).all wfTok) = true := by
  rw [List.all_cons, Bool.and_eq_true]
  exact ⟨h1, h2⟩

theorem lexGo_wf :
    ∀ (fuel : Nat) (s : List Char) (toks : List Tok), lexGo fuel s = some toks →
      toks.all wfTok = true := by
  intro fuel
  induction fuel with
  | zero =>
    intro s toks h
    exact Option.noConfusion h
  | succ f ih =>
    intro s toks h
    cases s with
    | nil =>
      rw [lexGo_nil] at h
      injection h with h
      subst h
      rfl
    | cons c rest =>
      by_cases hws : isWs c = true
      · rw [lexGo_ws_gen hws] at h
        exact ih rest toks h
      · by_cases h1 : c = '#'
        · subst h1
          rw [lexGo_hash] at h
          cases hlg : lexGo f (rest.dropWhile fun x => x ≠ '\n') with
          | none =>
            rw [hlg] at h
            exact Option.noConfusion h
          | some ts =>
            rw [hlg] at h
            injection h with h
            subst h
            refine all_wfTok_cons ?_ (ih _ ts hlg)
            show wfComment ('#' :: rest.takeWhile fun x => x ≠ '\n') = true
            refine wfComment_hash _ ?_
            rw [List.all_eq_true]
            intro x hx
            simpa using List.mem_takeWhile_imp hx
        · by_cases h2 : c = '"'
          · subst h2
            rw [lexGo_quote] at h
            cases hsc : scanStr rest with
            | none =>
              rw [hsc] at h
              exact Option.noConfusion h
            | some sq =>
              rw [hsc] at h
              have h4 : (lexGo f sq.2).map (fun ts => Tok.strTok sq.1 :: ts) = some toks := h
              cases hlg : lexGo f sq.2 with
              | none =>
                rw [hlg] at h4
                exact Option.noConfusion h4
              | some ts =>
                rw [hlg] at h4
                injection h4 with h4
                subst h4
                refine all_wfTok_cons ?_ (ih _ ts hlg)
                show strOk sq.1 = true
                exact scanStr_strOk rest sq hsc
          · by_cases h3 : c = '{'
            · subst h3
              rw [lexGo_lbrace] at h
              cases hlg : lexGo f rest with
              | none =>
                rw [hlg] at h
                exact Option.noConfusion h
              | some ts =>
                rw [hlg] at h
                injection h with h
                subst h
                exact all_wfTok_cons rfl (ih _ ts hlg)
            · by_cases h4 : c = '}'
              · subst h4
                rw [lexGo_rbrace] at h
                cases hlg : lexGo f rest with
                | none =>
                  rw [hlg] at h
                  exact Option.noConfusion h
                | some ts =>
                  rw [hlg] at h
                  injection h with h
                  subst h
                  exact all_wfTok_cons rfl (ih _ ts hlg)
              · by_cases h5 : c = '='
                · subst h5
                  rw [lexGo_eqop] at h
                  cases hlg : lexGo f rest with
                  | none =>
                    rw [hlg] at h
                    exact Option.noConfusion h
                  | some ts =>
                    rw [hlg] at h
                    injection h with h
                    subst h
                    exact all_wfTok_cons rfl (ih _ ts hlg)
                · by_cases h6 : c = '<'
                  · subst h6
                    cases rest with
                    | nil =>
                      rw [lexGo_lt_nil] at h
                      cases hlg : lexGo f [] with
                      | none =>
                        rw [hlg] at h
                        exact Option.noConfusion h
                      | some ts =>
                        rw [hlg] at h
                        injection h with h
                        subst h
                        exact all_wfTok_cons rfl (ih _ ts hlg)
                    | cons r rr =>
                      by_cases hr : r = '='
                      · subst hr
                        rw [lexGo_lt_eq] at h
                        cases hlg : lexGo f rr with
                        | none =>
                          rw [hlg] at h
                          exact Option.noConfusion h
                        | some ts =>
                          rw [hlg] at h
                          injection h with h
                          subst h
                          exact all_wfTok_cons rfl (ih _ ts hlg)
                      · rw [lexGo_lt_ne hr] at h
                        cases hlg : lexGo f (r :: rr) with
                        | none =>
                          rw [hlg] at h
                          exact Option.noConfusion h
                        | some ts =>
                          rw [hlg] at h
                          injection h with h
                          subst h
                          exact all_wfTok_cons rfl (ih _ ts hlg)
                  · by_cases h7 : c = '>'
                    · subst h7
                      cases rest with
                      | nil =>
                        rw [lexGo_gt_nil] at h
                        cases hlg : lexGo f [] with
                        | none =>
                          rw [hlg] at h
                          exact Option.noConfusion h
                        | some ts =>
                          rw [hlg] at h
                          injection h with h
                          subst h
                          exact all_wfTok_cons rfl (ih _ ts hlg)
                      | cons r rr =>
                        by_cases hr : r = '='
                        · subst hr
                          rw [lexGo_gt_eq] at h
                          cases hlg : lexGo f rr with
                          | none =>
                            rw [hlg] at h
                            exact Option.noConfusion h
                          | some ts =>
                            rw [hlg] at h
                            injection h with h
                            subst h
                            exact all_wfTok_cons rfl (ih _ ts hlg)
                        · rw [lexGo_gt_ne hr] at h
                          cases hlg : lexGo f (r :: rr) with
                          | none =>
                            rw [hlg] at h
                            exact Option.noConfusion h
                          | some ts =>
                            rw [hlg] at h
                            injection h with h
                            subst h
                            exact all_wfTok_cons rfl (ih _ ts hlg)
                    · by_cases hbc : isBare c = true
                      · rw [lexGo_bare_head hbc] at h
                        cases hlg : lexGo f (rest.dropWhile isBare) with
                        | none =>
                          rw [hlg] at h
                          exact Option.noConfusion h
                        | some ts =>
                          rw [hlg] at h
                          injection h with h
                          subst h
                          refine all_wfTok_cons ?_ (ih _ ts hlg)
                          refine wfTok_classifyBare (by simp) ?_
                          rw [List.all_cons, Bool.and_eq_true]
                          refine ⟨hbc, ?_⟩
                          rw [List.all_eq_true]
                          intro x hx
                          simpa using List.mem_takeWhile_imp hx
                      · rw [lexGo_err (by simpa using hws) h1 h2 h3 h4 h5 h6 h7
                          (by simpa using hbc)] at h
                        exact Option.noConfusion h

theorem lex_wf {s : List Char} {toks : List Tok} (h : lex s = some toks) :
    toks.all wfTok = true :=
  lexGo_wf (s.length + 1) s toks h

theorem wfItems_filter (p : Item → Bool) :
    ∀ {L : List Item}, wfItems L = true → wfItems (L.filter p) = true := by
  intro L
  induction L with
  | nil => intro _; rfl
  | cons it L2 ih =>
    intro h
    have h2 : (wfItem it && wfItems L2) = true := h
    rw [Bool.and_eq_true] at h2
    rw [List.filter_cons]
    by_cases hp : p it = true
    · rw [if_pos hp]
      show (wfItem it && wfItems (L2.filter p)) = true
      rw [Bool.and_eq_true]
      exact ⟨h2.1, ih h2.2⟩
    · rw [if_neg hp]
      exact ih h2.2

theorem wf_filterMap_atoms :
    ∀ {L : List Item}, wfItems L = true → (L.filterMap atomOf).all wfAtom = true := by
  intro L
  induction L with
  | nil => intro _; rfl
  | cons it L2 ih =>
    intro h
    have h2 : (wfItem it && wfItems L2) = true := h
    rw [Bool.and_eq_true] at h2
    rw [List.filterMap_cons]
    cases hato : atomOf it with
    | none => exact ih h2.2
    | some a =>
      rw [List.all_cons, Bool.and_eq_true]
      refine ⟨?_, ih h2.2⟩
      cases it with
      | Comment t => exact Option.noConfusion hato
      | Pair k op v => exact Option.noConfusion hato
      | ValueItem v =>
        cases v with
        | Array arr => exact Option.noConfusion hato
        | Block items => exact Option.noConfusion hato
        | Atom a2 =>
          have h3 : some a2 = some a := hato
          injection h3 with h3
          subst h3
          exact h2.1

theorem wf_classify {L : List Item} (h : wfItems L = true) :
    wfValue (classify_block L) = true := by
  unfold classify_block
  by_cases hall : L.all isAtomicItem = true
  · rw [if_pos hall]
    show (L.filterMap atomOf).all wfAtom = true
    exact wf_filterMap_atoms h
  · rw [if_neg hall]
    show (!(L.filter fun it => !isAtomicItem it).isEmpty &&
      ((L.filter fun it => !isAtomicItem it).all fun it => !isAtomicItem it) &&
      wfItems (L.filter fun it => !isAtomicItem it)) = true
    simp only [Bool.and_eq_true]
    refine ⟨⟨?_, ?_⟩, wfItems_filter _ h⟩
    · obtain ⟨it, hmem, hnat⟩ : ∃ it ∈ L, ¬isAtomicItem it = true := by
        rw [List.all_eq_true] at hall
        push_neg at hall
        exact hall
      have hfm : it ∈ L.filter fun it => !isAtomicItem it :=
        List.mem_filter.mpr ⟨hmem, by simp [hnat]⟩
      have hne : (L.filter fun it => !isAtomicItem it) ≠ [] :=
        List.ne_nil_of_mem hfm
      cases hfe : L.filter fun it => !isAtomicItem it with
      | nil => exact absurd hfe hne
      | cons x xs => rfl
    · rw [List.all_eq_true]
      intro x hx
      exact (List.mem_filter.mp hx).2

theorem wf_descent : ∀ fuel : Nat,
    (∀ toks cs rest, toks.all wfTok = true → pItems fuel toks = some (cs, rest) →
      rest.all wfTok = true ∧
      ∀ items, parse_items_list cs = some items → wfItems items = true) ∧
    (∀ toks c rest, toks.all wfTok = true → pValue fuel toks = some (c, rest) →
      rest.all wfTok = true ∧ (∃ w, c = valueNode w) ∧
      ∀ v, parse_pair_value c = some v → wfValue v = true) := by
  intro fuel
  induction fuel with
  | zero =>
    constructor
    · intro toks cs rest _ h
      exact Option.noConfusion h
    · intro toks c rest _ h
      exact Option.noConfusion h
  | succ f ih =>
    obtain ⟨ihI, ihV⟩ := ih
    have hVAL : ∀ (tok2 : Tok) (NEXT : List Tok), (tok2 :: NEXT).all wfTok = true →
        ∀ (cs : List Cst) (rest : List Tok),
        (match pValue f (tok2 :: NEXT) with
         | some vr =>
           match pItems f vr.2 with
           | some q => some (itemNode vr.1 :: q.1, q.2)
           | none => none
         | none => none) = some (cs, rest) →
        rest.all wfTok = true ∧
        ∀ items, parse_items_list cs = some items → wfItems items = true := by
      intro tok2 NEXT hwall cs rest hm
      cases hpv : pValue f (tok2 :: NEXT) with
      | none =>
        rw [hpv] at hm
        exact Option.noConfusion hm
      | some vr =>
        obtain ⟨vc, vrest⟩ := vr
        obtain ⟨hvw, ⟨w, rfl⟩, hval⟩ := ihV (tok2 :: NEXT) vc vrest hwall hpv
        rw [hpv] at hm
        have hm2 : (match pItems f vrest with
            | some q => some (itemNode (valueNode w) :: q.1, q.2)
            | none => none) = some (cs, rest) := hm
        cases hpi : pItems f vrest with
        | none =>
          rw [hpi] at hm2
          exact Option.noConfusion hm2
        | some q =>
          obtain ⟨q1, q2⟩ := q
          rw [hpi] at hm2
          have hm3 : some (itemNode (valueNode w) :: q1, q2) = some (cs, rest) := hm2
          injection hm3 with hm3
          injection hm3 with e1 e2
          subst e1
          subst e2
          obtain ⟨hq2, hitems⟩ := ihI vrest q1 q2 hvw hpi
          refine ⟨hq2, ?_⟩
          intro items hil
          have hred : parse_items_list (itemNode (valueNode w) :: q1) =
              (match parse_item (valueNode w), parse_items_list q1 with
               | some it, some l => some (it :: l)
               | _, _ => none) := rfl
          have hred2 : parse_item (valueNode w) =
              (match parse_value_concrete w with
               | none => none
               | some val => some (.ValueItem val)) := rfl
          rw [hred] at hil
          cases hvc : parse_value_concrete w with
          | none =>
            rw [hred2, hvc] at hil
            exact Option.noConfusion hil
          | some v =>
            rw [hred2, hvc] at hil
            cases hpl : parse_items_list q1 with
            | none =>
              rw [hpl] at hil
              exact Option.noConfusion hil
            | some l =>
              rw [hpl] at hil
              have hil2 : some (Item.ValueItem v :: l) = some items := hil
              injection hil2 with hil2
              subst hil2
              show (wfItem (.ValueItem v) && wfItems l) = true
              rw [Bool.and_eq_true]
              refine ⟨?_, hitems l hpl⟩
              show wfValue v = true
              exact hval v (show parse_pair_value (valueNode w) = some v from hvc)
    have hPAIR : ∀ (tok2 : Tok) (kl : Cst) (o : List Char) (rest2 : List Tok),
        wfTok tok2 = true → keyLeaf tok2 = some kl → rest2.all wfTok = true →
        ∀ (cs : List Cst) (rest : List Tok),
        (match pValue f rest2 with
         | some vr =>
           match pItems f vr.2 with
           | some q => some (itemNode (pairNode kl o vr.1) :: q.1, q.2)
           | none => none
         | none => none) = some (cs, rest) →
        rest.all wfTok = true ∧
        ∀ items, parse_items_list cs = some items → wfItems items = true := by
      intro tok2 kl o rest2 hw2 hk hwr2 cs rest hm
      cases hpv : pValue f rest2 with
      | none =>
        rw [hpv] at hm
        exact Option.noConfusion hm
      | some vr =>
        obtain ⟨vc, vrest⟩ := vr
        obtain ⟨hvw, ⟨w, rfl⟩, hval⟩ := ihV rest2 vc vrest hwr2 hpv
        rw [hpv] at hm
        have hm2 : (match pItems f vrest with
            | some q => some (itemNode (pairNode kl o (valueNode w)) :: q.1, q.2)
            | none => none) = some (cs, rest) := hm
        cases hpi : pItems f vrest with
        | none =>
          rw [hpi] at hm2
          exact Option.noConfusion hm2
        | some q =>
          obtain ⟨q1, q2⟩ := q
          rw [hpi] at hm2
          have hm3 : some (itemNode (pairNode kl o (valueNode w)) :: q1, q2)
              = some (cs, rest) := hm2
          injection hm3 with hm3
          injection hm3 with e1 e2
          subst e1
          subst e2
          obtain ⟨hq2, hitems⟩ := ihI vrest q1 q2 hvw hpi
          refine ⟨hq2, ?_⟩
          intro items hil
          have hred : parse_items_list (itemNode (pairNode kl o (valueNode w)) :: q1) =
              (match parse_item (pairNode kl o (valueNode w)), parse_items_list q1 with
               | some it, some l => some (it :: l)
               | _, _ => none) := rfl
          have hred2 : parse_item (pairNode kl o (valueNode w)) =
              (match parse_key kl with
               | none => none
               | some key =>
                 match parse_pair_value (valueNode w) with
                 | none => none
                 | some value =>
                   some (.Pair key (parse_operator (.node .operator o [])) value)) := rfl
          rw [hred] at hil
          cases hpk : parse_key kl with
          | none =>
            rw [hred2, hpk] at hil
            exact Option.noConfusion hil
          | some key =>
            cases hpp : parse_pair_value (valueNode w) with
            | none =>
              rw [hred2, hpk, hpp] at hil
              exact Option.noConfusion hil
            | some value =>
              rw [hred2, hpk, hpp] at hil
              cases hpl : parse_items_list q1 with
              | none =>
                rw [hpl] at hil
                exact Option.noConfusion hil
              | some l =>
                rw [hpl] at hil
                have hil2 : some (Item.Pair key
                    (parse_operator (.node .operator o [])) value :: l) = some items := hil
                injection hil2 with hil2
                subst hil2
                show (wfItem (.Pair key (parse_operator (.node .operator o [])) value) &&
                  wfItems l) = true
                rw [Bool.and_eq_true]
                refine ⟨?_, hitems l hpl⟩
                show (wfKey key && wfValue value) = true
                rw [Bool.and_eq_true]
                exact ⟨wf_parse_key hw2 hk hpk, hval value hpp⟩
    constructor
    · intro toks cs rest hwt hp
      cases toks with
      | nil =>
        have hp2 : (some (([] : List Cst), ([] : List Tok))
            : Option (List Cst × List Tok)) = some (cs, rest) := hp
        injection hp2 with hp2
        injection hp2 with e1 e2
        subst e1
        subst e2
        refine ⟨rfl, ?_⟩
        intro items hil
        have hil2 : (some [] : Option (List Item)) = some items := hil
        injection hil2 with hil2
        subst hil2
        rfl
      | cons tok rest0 =>
        rw [List.all_cons, Bool.and_eq_true] at hwt
        obtain ⟨hwtok, hwrest0⟩ := hwt
        cases tok with
        | rbrace =>
          have hp2 : (some (([] : List Cst), Tok.rbrace :: rest0)
              : Option (List Cst × List Tok)) = some (cs, rest) := hp
          injection hp2 with hp2
          injection hp2 with e1 e2
          subst e1
          subst e2
          refine ⟨all_wfTok_cons rfl hwrest0, ?_⟩
          intro items hil
          have hil2 : (some [] : Option (List Item)) = some items := hil
          injection hil2 with hil2
          subst hil2
          rfl
        | commentTok t =>
          have hp2 : (match pItems f rest0 with
              | some q => some (itemNode (.node .comment t []) :: q.1, q.2)
              | none => none) = some (cs, rest) := hp
          cases hpi : pItems f rest0 with
          | none =>
            rw [hpi] at hp2
            exact Option.noConfusion hp2
          | some q =>
            obtain ⟨q1, q2⟩ := q
            rw [hpi] at hp2
            have hp3 : some (itemNode (Cst.node .comment t []) :: q1, q2)
                = some (cs, rest) := hp2
            injection hp3 with hp3
            injection hp3 with e1 e2
            subst e1
            subst e2
            obtain ⟨hq2, hitems⟩ := ihI rest0 q1 q2 hwrest0 hpi
            refine ⟨hq2, ?_⟩
            intro items hil
            have hred : parse_items_list (itemNode (Cst.node .comment t []) :: q1) =
                (match parse_item (itemNode (Cst.node .comment t [])),
                    parse_items_list q1 with
                 | some x, some l => some (x :: l)
                 | _, _ => none) := rfl
            have hred2 : parse_item (itemNode (Cst.node .comment t []))
                = some (.Comment t) := rfl
            rw [hred, hred2] at hil
            cases hpl : parse_items_list q1 with
            | none =>
              rw [hpl] at hil
              exact Option.noConfusion hil
            | some l =>
              rw [hpl] at hil
              have hil2 : some (Item.Comment t :: l) = some items := hil
              injection hil2 with hil2
              subst hil2
              show (wfItem (.Comment t) && wfItems l) = true
              rw [Bool.and_eq_true]
              exact ⟨hwtok, hitems l hpl⟩
        | strTok c2 => exact hVAL (.strTok c2) rest0 (all_wfTok_cons hwtok hwrest0) cs rest hp
        | boolTok t => exact hVAL (.boolTok t) rest0 (all_wfTok_cons hwtok hwrest0) cs rest hp
        | lbrace => exact hVAL .lbrace rest0 (all_wfTok_cons hwtok hwrest0) cs rest hp
        | opTok t => exact hVAL (.opTok t) rest0 (all_wfTok_cons hwtok hwrest0) cs rest hp
        | identTok t =>
          cases rest0 with
          | nil => exact hVAL (.identTok t) [] (all_wfTok_cons hwtok rfl) cs rest hp
          | cons nt nr =>
            rw [List.all_cons, Bool.and_eq_true] at hwrest0
            have hnext := all_wfTok_cons hwrest0.1 hwrest0.2
            have hfull := all_wfTok_cons hwtok hnext
            cases nt
            case opTok o =>
              exact hPAIR (.identTok t) _ o nr hwtok rfl hwrest0.2 cs rest hp
            all_goals exact hVAL _ _ hfull cs rest hp
        | numTok t =>
          cases rest0 with
          | nil => exact hVAL (.numTok t) [] (all_wfTok_cons hwtok rfl) cs rest hp
          | cons nt nr =>
            rw [List.all_cons, Bool.and_eq_true] at hwrest0
            have hnext := all_wfTok_cons hwrest0.1 hwrest0.2
            have hfull := all_wfTok_cons hwtok hnext
            cases nt
            case opTok o =>
              exact hPAIR (.numTok t) _ o nr hwtok rfl hwrest0.2 cs rest hp
            all_goals exact hVAL _ _ hfull cs rest hp
        | dateTok t =>
          cases rest0 with
          | nil => exact hVAL (.dateTok t) [] (all_wfTok_cons hwtok rfl) cs rest hp
          | cons nt nr =>
            rw [List.all_cons, Bool.and_eq_true] at hwrest0
            have hnext := all_wfTok_cons hwrest0.1 hwrest0.2
            have hfull := all_wfTok_cons hwtok hnext
            cases nt
            case opTok o =>
              exact hPAIR (.dateTok t) _ o nr hwtok rfl hwrest0.2 cs rest hp
            all_goals exact hVAL _ _ hfull cs rest hp
    · intro toks c rest hwt hv
      cases toks with
      | nil => exact Option.noConfusion hv
      | cons tok rest0 =>
        rw [List.all_cons, Bool.and_eq_true] at hwt
        obtain ⟨hwtok, hwrest0⟩ := hwt
        have hATOM : ∀ (tok2 : Tok) (leaf : Cst), wfTok tok2 = true →
            atomLeaf tok2 = some leaf →
            ∀ (c2 : Cst) (rest2 : List Tok),
            (some (valueNode leaf, rest0) : Option (Cst × List Tok)) = some (c2, rest2) →
            rest2.all wfTok = true ∧ (∃ w, c2 = valueNode w) ∧
            ∀ v, parse_pair_value c2 = some v → wfValue v = true := by
          intro tok2 leaf hw2 hal c2 rest2 heq
          injection heq with heq
          injection heq with e1 e2
          subst e1
          subst e2
          refine ⟨hwrest0, ⟨leaf, rfl⟩, ?_⟩
          intro v hv2
          cases tok2 with
          | strTok cc =>
            injection hal with hal
            subst hal
            have hv3 : (parse_atom (strNode cc)).map Value.Atom = some v := hv2
            cases hpa : parse_atom (strNode cc) with
            | none =>
              rw [hpa] at hv3
              exact Option.noConfusion hv3
            | some a =>
              rw [hpa] at hv3
              injection hv3 with hv3
              subst hv3
              exact wf_parse_atom hw2 rfl hpa
          | identTok t =>
            injection hal with hal
            subst hal
            have hv3 : (parse_atom (Cst.node .identifier t [])).map Value.Atom
                = some v := hv2
            cases hpa : parse_atom (Cst.node .identifier t []) with
            | none =>
              rw [hpa] at hv3
              exact Option.noConfusion hv3
            | some a =>
              rw [hpa] at hv3
              injection hv3 with hv3
              subst hv3
              exact wf_parse_atom hw2 rfl hpa
          | numTok t =>
            injection hal with hal
            subst hal
            have hv3 : (parse_atom (Cst.node .number t [])).map Value.Atom = some v := hv2
            cases hpa : parse_atom (Cst.node .number t []) with
            | none =>
              rw [hpa] at hv3
              exact Option.noConfusion hv3
            | some a =>
              rw [hpa] at hv3
              injection hv3 with hv3
              subst hv3
              exact wf_parse_atom hw2 rfl hpa
          | dateTok t =>
            injection hal with hal
            subst hal
            have hv3 : (parse_atom (Cst.node .date t [])).map Value.Atom = some v := hv2
            cases hpa : parse_atom (Cst.node .date t []) with
            | none =>
              rw [hpa] at hv3
              exact Option.noConfusion hv3
            | some a =>
              rw [hpa] at hv3
              injection hv3 with hv3
              subst hv3
              exact wf_parse_atom hw2 rfl hpa
          | boolTok t =>
            injection hal with hal
            subst hal
            have hv3 : (parse_atom (Cst.node .boolean t [])).map Value.Atom = some v := hv2
            cases hpa : parse_atom (Cst.node .boolean t []) with
            | none =>
              rw [hpa] at hv3
              exact Option.noConfusion hv3
            | some a =>
              rw [hpa] at hv3
              injection hv3 with hv3
              subst hv3
              exact wf_parse_atom hw2 rfl hpa
          | lbrace => exact Option.noConfusion hal
          | rbrace => exact Option.noConfusion hal
          | opTok t => exact Option.noConfusion hal
          | commentTok t => exact Option.noConfusion hal
        cases tok with
        | lbrace =>
          have hv2 : (match pItems f rest0 with
              | some (is, .rbrace :: r2) => some (valueNode (blockNode is), r2)
              | _ => none) = some (c, rest) := hv
          cases hpi : pItems f rest0 with
          | none =>
            rw [hpi] at hv2
            exact Option.noConfusion hv2
          | some pr =>
            obtain ⟨is, rrest⟩ := pr
            obtain ⟨hrwf, hitems⟩ := ihI rest0 is rrest hwrest0 hpi
            rcases rrest with _ | ⟨rtok, r2⟩
            · rw [hpi] at hv2
              exact Option.noConfusion hv2
            · cases rtok
              case rbrace =>
                rw [hpi] at hv2
                have hv3 : some (valueNode (blockNode is), r2) = some (c, rest) := hv2
                injection hv3 with hv3
                injection hv3 with e1 e2
                subst e1
                subst e2
                rw [List.all_cons, Bool.and_eq_true] at hrwf
                refine ⟨hrwf.2, ⟨blockNode is, rfl⟩, ?_⟩
                intro v hv4
                have hv5 : (match parse_items_list is, parse_body_lists ([] : List Cst) with
                   | some l1, some l2 => some (l1 ++ l2)
                   | _, _ => none).map classify_block = some v := hv4
                cases hpl : parse_items_list is with
                | none =>
                  rw [hpl] at hv5
                  exact Option.noConfusion hv5
                | some l =>
                  rw [hpl] at hv5
                  have hv6 : some (classify_block (l ++ [])) = some v := hv5
                  injection hv6 with hv6
                  subst hv6
                  rw [List.append_nil]
                  exact wf_classify (hitems l hpl)
              all_goals (rw [hpi] at hv2; exact Option.noConfusion hv2)
        | rbrace => exact Option.noConfusion hv
        | opTok t => exact Option.noConfusion hv
        | commentTok t => exact Option.noConfusion hv
        | strTok cc => exact hATOM (.strTok cc) _ hwtok rfl c rest hv
        | identTok t => exact hATOM (.identTok t) _ hwtok rfl c rest hv
        | numTok t => exact hATOM (.numTok t) _ hwtok rfl c rest hv
        | dateTok t => exact hATOM (.dateTok t) _ hwtok rfl c rest hv
        | boolTok t => exact hATOM (.boolTok t) _ hwtok rfl c rest hv

theorem parse_str_wf {s : List Char} {d : List Item} (h : parse_str s = some d) :
    wfItems d = true := by
  unfold parse_str at h
  cases hlex : lex s with
  | none =>
    rw [hlex] at h
    exact Option.noConfusion h
  | some toks =>
    rw [hlex] at h
    have h2 : (match pFile toks with
      | some fileCst => parse_file fileCst
      | none => none) = some d := h
    cases hpf : pFile toks with
    | none =>
      rw [hpf] at h2
      exact Option.noConfusion h2
    | some fc =>
      rw [hpf] at h2
      unfold pFile at hpf
      cases hpi : pItems (2 * toks.length + 2) toks with
      | none =>
        rw [hpi] at hpf
        exact Option.noConfusion hpf
      | some pr =>
        obtain ⟨is, rrest⟩ := pr
        rcases rrest with _ | ⟨rtok, r2⟩
        · rw [hpi] at hpf
          have hpf2 : some (Cst.node .file [] [.node .body [] is]) = some fc := hpf
          injection hpf2 with hpf2
          subst hpf2
          have hfile : (match parse_items_list is, parse_body_lists ([] : List Cst) with
             | some l1, some l2 => some (l1 ++ l2)
             | _, _ => none) = some d := h2
          obtain ⟨-, hitems⟩ := (wf_descent (2 * toks.length + 2)).1 toks is []
            (lex_wf hlex) hpi
          cases hpl : parse_items_list is with
          | none =>
            rw [hpl] at hfile
            exact Option.noConfusion hfile
          | some l =>
            rw [hpl] at hfile
            have hfile2 : some (l ++ []) = some d := hfile
            injection hfile2 with hfile2
            subst hfile2
            rw [List.append_nil]
            exact hitems l hpl
        · rw [hpi] at hpf
          exact Option.noConfusion hpf

theorem roundtrip_norm {d : List Item} (hwf : wfItems d = true)
    (hnh : itemsNoHourKey d = true) :
    parse_str (serialize_file d) = some (normItems d) := by
  have hlex : lex (serialize_file d) = some (itemsToks d) := by
    have h := items_relex d hwf hnh 0 []
    rw [List.append_nil] at h
    show lex (serializeItems d 0) = _
    rw [h]
    show some (itemsToks d ++ []) = some (itemsToks d)
    rw [List.append_nil]
  unfold parse_str
  rw [hlex]
  show (match pFile (itemsToks d) with
    | some fileCst => parse_file fileCst
    | none => none) = some (normItems d)
  rw [pFile_toks d]
  show parse_file (.node .file [] [.node .body [] (itemsCst d)]) = some (normItems d)
  exact walk_file d hwf hnh

/-- C5 counterexample: the input `1936.1.1.6 = a` is accepted by `parse_str`
(its key is the date 1936.1.1 with hour 6), but `serialize_file` renders the
hour-date key quoted (`"1936.1.1.6" = a`), which `parse_str` rejects — a
quoted string is not grammatical in key position — so the serialized output
of a parsed document is not always accepted and the idempotence equation's
left-hand side need not exist. -/
theorem C5_counterexample_hour_key :
    parse_str ('1' :: '9' :: '3' :: '6' :: '.' :: '1' :: '.' :: '1' :: '.' :: '6' ::
        ' ' :: '=' :: ' ' :: 'a' :: ['\n']) =
      some [.Pair (.Date ⟨1936, 1, 1, some 6⟩) .Eq (.Atom (.Ident ['a']))] ∧
    serialize_file [Item.Pair (.Date ⟨1936, 1, 1, some 6⟩) .Eq (.Atom (.Ident ['a']))] =
      '"' :: '1' :: '9' :: '3' :: '6' :: '.' :: '1' :: '.' :: '1' :: '.' :: '6' :: '"' ::
        ' ' :: '=' :: ' ' :: 'a' :: ['\n'] ∧
    parse_str (serialize_file
      [Item.Pair (.Date ⟨1936, 1, 1, some 6⟩) .Eq (.Atom (.Ident ['a']))]) = none := by
  refine ⟨?_, ?_, ?_⟩ <;> rfl

/-- C5 (amended): for every input `x` accepted by `parse_str` whose parsed
document `d` has no date-with-hour pair key, `serialize_file d` is itself
accepted by `parse_str`, and serializing the reparsed document reproduces
`serialize_file d` exactly — serialize∘parse is idempotent after one round
trip.  The hour-date-key restriction is forced by
`C5_counterexample_hour_key`. -/
theorem C5_round_trip_idempotent (x : List Char) (d : List Item)
    (h : parse_str x = some d) (hnh : itemsNoHourKey d = true) :
    ∃ d2, parse_str (serialize_file d) = some d2 ∧
      serialize_file d2 = serialize_file d := by
  have hwf := parse_str_wf h
  refine ⟨normItems d, roundtrip_norm hwf hnh, ?_⟩
  show serializeItems (normItems d) 0 = serializeItems d 0
  exact serializeItems_norm d 0

theorem C5_round_trip_idempotent_witness :
    parse_str ('a' :: ' ' :: '=' :: ' ' :: 'b' :: ['\n']) =
      some [.Pair (.Ident ['a']) .Eq (.Atom (.Ident ['b']))] ∧
    itemsNoHourKey [Item.Pair (.Ident ['a']) .Eq (.Atom (.Ident ['b']))] = true ∧
    ∃ d2, parse_str (serialize_file
        [Item.Pair (.Ident ['a']) .Eq (.Atom (.Ident ['b']))]) = some d2 ∧
      serialize_file d2 =
        serialize_file [Item.Pair (.Ident ['a']) .Eq (.Atom (.Ident ['b']))] :=
  ⟨rfl, rfl, C5_round_trip_idempotent ('a' :: ' ' :: '=' :: ' ' :: 'b' :: ['\n'])
    [Item.Pair (.Ident ['a']) .Eq (.Atom (.Ident ['b']))] rfl rfl⟩

end Cz
